import Mathlib

/-!
libnet: a shallow embedding of `json.c` and `httpc.c`.

C strings are modelled as lists of byte values (`List Nat`, every value below 256).
A `char *` that the code only reads forward from is the list of bytes found at that
address, *including* the terminating NUL when the function is handed a whole buffer;
reading where the list has ended is a read outside the buffer and is reported as
`Fault.oob`.  Allocation is assumed to succeed.
-/

namespace Libnet

/-! ## Common C library pieces -/

/-- Ways in which a translated function leaves the normal return path. -/
inductive Fault
  | fail   -- the function took its own `fail:` exit
  | oob    -- a read or write outside the object it was given (undefined behaviour in C)
  | uninit -- use of a variable whose value is indeterminate (undefined behaviour in C)
  | fuel   -- the recursion budget of the model ran out (never a behaviour of the C code)
  deriving DecidableEq

/-- Bytes of an ASCII string literal. -/
def bytes (s : String) : List Nat := s.toList.map Char.toNat

/-- C `isspace` in the "C" locale: space, `\t`, `\n`, `\v`, `\f`, `\r`. -/
def isspace (c : Nat) : Bool := c == 32 || (9 ≤ c && c ≤ 13)

/-- C `isdigit`. -/
def isdigit (c : Nat) : Bool := 48 ≤ c && c ≤ 57

/-- C `isalnum` in the "C" locale. -/
def isalnum (c : Nat) : Bool :=
  isdigit c || (65 ≤ c && c ≤ 90) || (97 ≤ c && c ≤ 122)

/-- The byte at `json[pos]`; the list is the whole buffer, terminator included. -/
def rd (json : List Nat) (pos : Nat) : Except Fault Nat :=
  match json[pos]? with
  | some c => .ok c
  | none => .error .oob

/-- The C string starting at an address: the bytes before the first NUL. -/
def cstr (mem : List Nat) : List Nat := mem.takeWhile (fun c => c != 0)

/-- What `strncpy(dst, src, n); dst[n] = 0` leaves in `dst`, read as a C string. -/
def strncpy (src : List Nat) (n : Nat) : List Nat := cstr (src.take n)

/-- Digits of `sprintf("%d", n)` for `n ≥ 0`, most significant first. -/
def decimalFuel : Nat → Nat → List Nat
  | 0, _ => []
  | fuel + 1, n =>
    if n < 10 then [48 + n] else decimalFuel fuel (n / 10) ++ [48 + n % 10]

/-- Text written by `sprintf(counter, "%d", n)` for a non-negative `n`. -/
def decimal (n : Nat) : List Nat := decimalFuel (n + 1) n

/-! ## json.c -/

/-- `struct tagentry`; a null pointer is `NULL`.  `label` and `data` are C strings, held
without their terminator (`data = none` is a NULL `data`). -/
inductive tagentry
  | NULL : tagentry
  | mk (next : tagentry) (child : tagentry) (childisarray : Bool)
       (label : List Nat) (data : Option (List Nat)) : tagentry
  deriving DecidableEq

/-- `IJSON` (the `returnbuf` field is never used by the code modelled here). -/
structure IJSON where
  root : tagentry
  deriving DecidableEq

/-- The `do { escape = (str[len]=='\\'); len++; } while (...)` loop of `_jsonfieldlen`;
the list is the memory at `&str[len]`. -/
def _jsonfieldlen_loop (instring : Bool) : List Nat → Nat → Except Fault Nat
  | [], _ => .error .oob
  | c :: s, len =>
    let escape := c == 92
    let len := len + 1
    match s.head? with
    | none => .error .oob
    | some d =>
      if d != 0 && (escape || (instring && d != 34) || (!instring && isalnum d)) then
        _jsonfieldlen_loop instring s len
      else .ok len

/-- `_jsonfieldlen(str)`, `str` being the memory from the pointer on. -/
def _jsonfieldlen (str : List Nat) : Except Fault Nat :=
  match str with
  | [] => .error .oob
  | c :: _ =>
    let instring := c == 34
    let len := if instring then 1 else 0
    match _jsonfieldlen_loop instring (str.drop len) len with
    | .error e => .error e
    | .ok len => .ok (len + (if instring then 1 else 0))

/-- `while (isspace(json[*pos])) (*pos)++ ;` on the memory at `&json[*pos]`. -/
def skipspace : List Nat → Nat → Except Fault Nat
  | [], _ => .error .oob
  | c :: s, pos => if isspace c then skipspace s (pos + 1) else .ok pos

/-- `while (isspace(json[*pos]) || json[*pos]==':') (*pos)++ ;`. -/
def skipcolon : List Nat → Nat → Except Fault Nat
  | [], _ => .error .oob
  | c :: s, pos => if isspace c || c == 58 then skipcolon s (pos + 1) else .ok pos

/-- The "skip to end of record" loop, returning the position and `commadetected`. -/
def skipcomma : List Nat → Nat → Bool → Except Fault (Nat × Bool)
  | [], _, _ => .error .oob
  | c :: s, pos, commadetected =>
    if isspace c || c == 44 then skipcomma s (pos + 1) (commadetected || c == 44)
    else .ok (pos, commadetected)

mutual

/-- `_jsonbuild(json, pos, depth)`: the entry chain and the new `*pos`;
`Fault.fail` is the `fail:` exit (`*pos = -1`, everything built is freed).  The
`goto fail` taken for `depth > 10` jumps over the initialisation `teroot = NULL`, and
`fail:` then hands the indeterminate `teroot` to `_jsondeleteentry`: `Fault.uninit`. -/
def _jsonbuild : Nat → List Nat → Nat → Nat → Except Fault (tagentry × Nat)
  | 0, _, _, _ => .error .fuel
  | fuel + 1, json, pos, depth =>
    if depth > 10 then .error .uninit else
    match _jsonbuild_loop fuel json pos depth 0 with
    | .error e => .error e
    | .ok (teroot, pos) =>
      match rd json pos with
      | .error e => .error e
      | .ok c =>
        if c != 125 && c != 93 && c != 0 then .error .fail
        else .ok (teroot, if c != 0 then pos + 1 else pos)
  termination_by structural fuel => fuel

/-- One pass of the `do { ... } while (commadetected)` loop of `_jsonbuild` and all the
passes after it: the chain starting at the entry this pass creates, and `*pos` when the
loop is left.  `entry` is the running array counter. -/
def _jsonbuild_loop : Nat → List Nat → Nat → Nat → Nat → Except Fault (tagentry × Nat)
  | 0, _, _, _, _ => .error .fuel
  | fuel + 1, json, pos, depth, entry =>
    -- skip white spaces
    match skipspace (json.drop pos) pos with
    | .error e => .error e
    | .ok pos =>
    match rd json pos with
    | .error e => .error e
    | .ok c =>
    if c == 0 || c == 125 || c == 93 then .ok (.NULL, pos) else
    -- try to get label and update position; if no label, use next counter in sequence
    match (if c == 34 then
            match _jsonfieldlen (json.drop pos) with
            | .error e => .error e
            | .ok labellen =>
              .ok (strncpy (json.drop (pos + 1)) (labellen - 2), pos + labellen, entry)
          else .ok (decimal entry, pos, entry + 1) : Except Fault (List Nat × Nat × Nat)) with
    | .error e => .error e
    | .ok (label, pos, entry) =>
    -- skip white spaces or colons
    match skipcolon (json.drop pos) pos with
    | .error e => .error e
    | .ok pos =>
    match rd json pos with
    | .error e => .error e
    | .ok c =>
    match (if c == 123 then
            match _jsonbuild fuel json (pos + 1) (depth + 1) with
            | .error e => .error e
            | .ok (child, pos) => .ok (child, false, none, pos)
          else if c == 91 then
            match _jsonbuild fuel json (pos + 1) (depth + 1) with
            | .error e => .error e
            | .ok (child, pos) => .ok (child, true, none, pos)
          else
            match _jsonfieldlen (json.drop pos) with
            | .error e => .error e
            | .ok datalen =>
              if c == 34 then
                .ok (.NULL, false, some (strncpy (json.drop (pos + 1)) (datalen - 2)),
                     pos + datalen)
              else
                .ok (.NULL, false, some (strncpy (json.drop pos) datalen), pos + datalen)
          : Except Fault (tagentry × Bool × Option (List Nat) × Nat)) with
    | .error e => .error e
    | .ok (child, childisarray, data, pos) =>
    -- skip to end of record
    match skipcomma (json.drop pos) pos false with
    | .error e => .error e
    | .ok (pos, commadetected) =>
    -- loop if comma
    if commadetected then
      match _jsonbuild_loop fuel json pos depth entry with
      | .error e => .error e
      | .ok (next, pos) => .ok (.mk next child childisarray label data, pos)
    else .ok (.mk .NULL child childisarray label data, pos)
  termination_by structural fuel => fuel

end

/-- `jsonset(jh, jsonsource)`: the new handle and the returned flag.  The old tree is
freed first, so the result does not depend on it.  `jsonsource` is the text without its
terminator. -/
def jsonset (_jh : IJSON) (jsonsource : List Nat) : Except Fault (IJSON × Bool) :=
  match _jsonbuild (2 * jsonsource.length + 4) (jsonsource ++ [0]) 0 0 with
  | .ok (te, _) => .ok (⟨te⟩, true)
  | .error .fail => .ok (⟨.NULL⟩, false)
  | .error e => .error e

/-- `te ? te->data : NULL`. -/
def tagentry.dataOf : tagentry → Option (List Nat)
  | .NULL => none
  | .mk _ _ _ _ data => data

/-- The nested `do ... while` loops of `jsonget`, entered with entry `te` and the rest of
the path `src` (a path is the text without its terminator, so `*src == 0` is `src = []`);
the value is what `jsonget` returns. -/
def jsonget_search : tagentry → List Nat → Option (List Nat)
  | .NULL, _ => none
  | .mk next child _ label data, src =>
    -- strncmp(src, te->label, lablen)==0 && (src[lablen]=='\0' || src[lablen]=='/')
    if label.isPrefixOf src &&
        ((src.drop label.length).head? == none || (src.drop label.length).head? == some 47) then
      -- found: src += strlen(te->label)
      match src.drop label.length with
      | [] => data
      | c :: src2 =>
        if c == 47 then
          -- src++ ; te = te->child ; then `while (te && *src != 0)`
          if src2 == [] then child.dataOf else jsonget_search child src2
        else none
    else jsonget_search next src

/-- `jsonget(jh, tagpath)`; `none` is the NULL return. -/
def jsonget (jh : IJSON) (tagpath : List Nat) : Option (List Nat) :=
  match jh.root with
  | .NULL => none
  | .mk next child childisarray label data =>
    let src := match tagpath with
      | 47 :: s => s
      | s => s
    let te := if label == [48] then child else .mk next child childisarray label data
    jsonget_search te src

/-! ### Texts and trees used to state the JSON properties -/

/-- The text `{"k":"v"}`. -/
def objItem (k v : List Nat) : List Nat :=
  123 :: 34 :: (k ++ 34 :: 58 :: 34 :: (v ++ [34, 125]))

/-- The texts `{"k":"v"}` for each `v` of the list, separated by commas. -/
def objItems (k : List Nat) : List (List Nat) → List Nat
  | [] => []
  | [v] => objItem k v
  | v :: w :: vs => objItem k v ++ 44 :: objItems k (w :: vs)

/-- The sibling chain an array of objects `{"k":"v"}` is parsed to, the first element
being labelled `decimal e`. -/
def arrchain (k : List Nat) : Nat → List (List Nat) → tagentry
  | _, [] => .NULL
  | e, v :: vs =>
    .mk (arrchain k (e + 1) vs) (.mk .NULL .NULL false k (some v)) false (decimal e) none

/-- The text `{"a":{"b":[{"c":"v_0"},...,{"c":"v_{n-1}"}]}}`. -/
def nestedText (vs : List (List Nat)) : List Nat :=
  bytes "\x7b\"a\":\x7b\"b\":[" ++ objItems (bytes "c") vs ++ bytes "]\x7d\x7d"

/-- The text `[{"x":"v_0"},...,{"x":"v_{n-1}"}]`. -/
def arrayText (vs : List (List Nat)) : List Nat :=
  91 :: (objItems (bytes "x") vs ++ [93])

/-- A string without NUL, double quote or backslash. -/
def plain (v : List Nat) : Prop := ∀ c ∈ v, c ≠ 0 ∧ c ≠ 34 ∧ c ≠ 92

/-! ## httpc.c -/

/-- C `tolower` in the "C" locale. -/
def tolower (c : Nat) : Nat := if 65 ≤ c ∧ c ≤ 90 then c + 32 else c

/-- Conversion of a value to `int` (32 bits, two's complement). -/
def toInt32 (v : Int) : Int := (v + 2147483648) % 4294967296 - 2147483648

/-- Glibc `atoi(p)`, that is `(int) strtol(p, NULL, 10)`: white space, an optional sign,
then digits; the `long` result saturates and is then converted to `int`.  The list is the
memory at `p`; a NUL or the end of the list stops the scan. -/
def atoi (p : List Nat) : Int :=
  let p := p.dropWhile isspace
  let neg := p.head? == some 45
  let p := if p.head? == some 45 || p.head? == some 43 then p.tail else p
  let v : Int := (p.takeWhile isdigit).foldl (fun (acc : Int) (c : Nat) => acc * 10 + ((c : Int) - 48)) 0
  let v := if neg then -v else v
  toInt32 (max (-9223372036854775808) (min v 9223372036854775807))

/-- The `do ... while (ch>=0)` loop of `_httpc_htoi`, `i` being an `int`. -/
def _httpc_htoi_loop : List Nat → Int → Int
  | [], i => i
  | h :: rest, i =>
    if 97 ≤ tolower h ∧ tolower h ≤ 102 then
      _httpc_htoi_loop rest (toInt32 (i * 16 + ((tolower h : Int) - 97 + 10)))
    else if 48 ≤ h ∧ h ≤ 57 then
      _httpc_htoi_loop rest (toInt32 (i * 16 + ((h : Int) - 48)))
    else i

/-- `_httpc_htoi(h)`. -/
def _httpc_htoi (h : List Nat) : Int := _httpc_htoi_loop (h.dropWhile isspace) 0

/-- `strstr`/`strcasestr` (`ci` chooses which): the memory at the first place of the C
string in `mem` where `needle` occurs, or `none` for a NULL result. -/
def strfind (ci : Bool) (needle : List Nat) : List Nat → Option (List Nat)
  | [] => if needle == [] then some [] else none
  | c :: mem =>
    let fold := fun (l : List Nat) => if ci then l.map tolower else l
    if (fold needle).isPrefixOf (fold (cstr (c :: mem))) then some (c :: mem)
    else if c == 0 then none
    else strfind ci needle mem

/-- `strstr(mem, needle)`. -/
def strstr (mem needle : List Nat) : Option (List Nat) := strfind false needle mem

/-- `strcasestr(mem, needle)`. -/
def strcasestr (mem needle : List Nat) : Option (List Nat) := strfind true needle mem

/-- `mem[i] = v` for a buffer whose bytes are initialised up to `mem.length`. -/
def poke (mem : List Nat) (i v : Nat) : List Nat :=
  if i < mem.length then mem.set i v else mem ++ [v]

/-- What one `netrecv(session, &ch, 1)` call reports. -/
inductive Recv
  | nodata               -- returns 0
  | byte (ch : Nat)      -- returns 1 and stores a character
  | closed               -- any other value: end of file or connection closed
  deriving DecidableEq

/-- The `ST_` states of `_httpc_getresponse`. -/
inductive St
  | ST_RESPONSE | ST_HEADER | ST_BODY | ST_CHUNKEDBODYLEN | ST_CHUNKEDBODY | ST_END | ST_ERROR
  deriving DecidableEq

/-- The local variables of `_httpc_getresponse` together with `*response` and
`*responselen`.  `line` holds the bytes of `char line[1024]` that have been written so
far. -/
structure Resp where
  chunkedencoding : Bool
  responsecode : Int
  state : St
  bodylength : Int
  line : List Nat
  lp : Nat
  response : Option (List Nat)
  responselen : Int
  deriving DecidableEq

/-- `_httpc_appendbuf(line, len, response, responselen)`. -/
def _httpc_appendbuf (line : List Nat) (len : Int) (s : Resp) : Resp :=
  if len < 0 then s
  else if len == 0 then s
  else { s with response := some (s.response.getD [] ++ line.take len.toNat),
                responselen := s.responselen + len }

/-- Number of bytes before the first white space in the memory `p`
(`for (n=0; !isspace(p[n]); n++)`); running off the memory is a fault. -/
def spanNonSpace : List Nat → Nat → Except Fault Nat
  | [], _ => .error .oob
  | c :: p, n => if isspace c then .ok n else spanNonSpace p (n + 1)

/-- The `case ST_HEADER:` block. -/
def headerLine (s : Resp) : Except Fault Resp :=
  let s := match strcasestr s.line (bytes "Content-Length:") with
    | some x => { s with bodylength := atoi (x.drop 15) }
    | none => s
  let s := match strcasestr s.line (bytes "Transfer-Encoding: Chunked") with
    | some _ => { s with chunkedencoding := true }
    | none => s
  match (match strcasestr s.line (bytes "Location: ") with
      | some x =>
        if (300 : Int) ≤ s.responsecode ∧ s.responsecode ≤ (399 : Int) then
          match spanNonSpace (x.drop 10) 0 with
          | .error e => .error e
          | .ok n =>
            let copied := strncpy (x.drop 10) n
            .ok { s with responselen := (n : Int),
                         response := some (copied ++ List.replicate (n - copied.length) 0),
                         state := .ST_END }
        else .ok s
      | none => .ok s : Except Fault Resp) with
  | .error e => .error e
  | .ok s =>
    if cstr s.line == bytes "\r\n" then
      if s.chunkedencoding then .ok { s with state := .ST_CHUNKEDBODYLEN }
      else if s.bodylength > (0 : Int) then .ok { s with state := .ST_BODY }
      else .ok { s with state := .ST_END }
    else .ok s

/-- The `switch (state)` run on a completed line, followed by `lp=0`. -/
def lineDone (s : Resp) : Except Fault Resp :=
  match (match s.state with
    | .ST_RESPONSE =>
      match strstr s.line (bytes " ") with
      | none => .ok { s with state := .ST_ERROR }
      | some x => .ok { s with responsecode := atoi (x.drop 1), state := .ST_HEADER }
    | .ST_HEADER => headerLine s
    | .ST_BODY =>
      let s := _httpc_appendbuf s.line (s.lp : Int) s
      let s := { s with bodylength := s.bodylength - (s.lp : Int) }
      if s.bodylength ≤ (0 : Int) then .ok { s with state := .ST_END } else .ok s
    | .ST_CHUNKEDBODYLEN =>
      let s := { s with bodylength := _httpc_htoi s.line }
      if s.bodylength ≤ (0 : Int) then .ok { s with state := .ST_END }
      else .ok { s with state := .ST_CHUNKEDBODY }
    | .ST_CHUNKEDBODY =>
      let s := _httpc_appendbuf s.line (if (s.lp : Int) ≤ s.bodylength then (s.lp : Int) else s.bodylength) s
      let s := { s with bodylength := s.bodylength - (s.lp : Int) }
      if s.bodylength ≤ (0 : Int) then
        .ok { s with bodylength := _httpc_htoi s.line, state := .ST_CHUNKEDBODYLEN }
      else .ok s
    | _ => .ok s : Except Fault Resp) with
  | .error e => .error e
  | .ok s => .ok { s with lp := 0 }

/-- The `case 1:` block: a character `ch` has been received. -/
def recvChar (s : Resp) (ch : Nat) : Except Fault Resp :=
  let s := { s with line := poke (poke s.line s.lp ch) (s.lp + 1) 0, lp := s.lp + 1 }
  if ch == 10 || s.lp ≥ 1023 then lineDone s else .ok s

/-- The `do { switch (netrecv(...)) ... } while (state!=ST_ERROR && state!=ST_END)` loop
over the successive results of `netrecv`; a session that has nothing more to report is at
its end. -/
def _httpc_getresponse_loop : List Recv → Resp → Except Fault Resp
  | [], s => .ok { s with state := .ST_END }
  | .nodata :: session, s => _httpc_getresponse_loop session s
  | .closed :: _, s => .ok { s with state := .ST_END }
  | .byte ch :: session, s =>
    match recvChar s ch with
    | .error e => .error e
    | .ok s =>
      if s.state != .ST_ERROR && s.state != .ST_END then _httpc_getresponse_loop session s
      else .ok s

/-- `_httpc_getresponse(session, response, responselen)` for non-NULL arguments: the
returned code with the final `*response` and `*responselen`. -/
def _httpc_getresponse (session : List Recv) (response : Option (List Nat))
    (responselen : Int) : Except Fault (Int × Option (List Nat) × Int) :=
  match _httpc_getresponse_loop session
      { chunkedencoding := false, responsecode := 999, state := .ST_RESPONSE, bodylength := 0,
        line := [], lp := 0, response := response, responselen := responselen } with
  | .error e => .error e
  | .ok s =>
    let responsecode := if s.state == .ST_ERROR then 500 else s.responsecode
    if responsecode < 200 || responsecode > 399 then .ok (responsecode, none, 0)
    else .ok (responsecode, s.response, s.responselen)

/-- A transport that delivers the given bytes and then reports the end of the stream. -/
def delivers (data : List Nat) : List Recv := data.map Recv.byte

deriving instance DecidableEq for Except

/-- `enum http_type`. -/
inductive http_type
  | HEAD | GET | POST | PUT | DELETE | PATCH | OPTIONS
  deriving DecidableEq

/-- The arguments of one `_httpc_httpsend` call (`none` is a NULL pointer). -/
structure Call where
  type : http_type
  url : Option (List Nat)
  oa2token : Option (List Nat)
  encoding : Option (List Nat)
  request : Option (List Nat)
  deriving DecidableEq

/-- What `httpsend` leaves behind: the returned code, `*response`, `*responselen`, and
the `_httpc_httpsend` calls it made, in order. -/
structure Sent where
  code : Int
  response : Option (List Nat)
  responselen : Int
  calls : List Call
  deriving DecidableEq

/-- The `do { ... } while (r>=300 && r<=399 && n<5)` loop of `httpsend` and the code after
it.  `exchange n call` stands for the `n`-th call of `_httpc_httpsend` (counted from 0),
which starts from `*response = NULL`, `*responselen = 0` and yields the returned code with
the final `*response` and `*responselen`.  The loop runs at most five times, so a budget of
five never runs out. -/
def httpsend_loop (exchange : Nat → Call → Int × Option (List Nat) × Int)
    (type : http_type) (oa2token encoding request : Option (List Nat)) :
    Nat → Nat → Option (List Nat) → List Call → Except Fault Sent
  | 0, _, _, _ => .error .fuel
  | fuel + 1, n, urlbuf, calls =>
    -- fetch page
    let call : Call := ⟨type, urlbuf, oa2token, encoding, request⟩
    let (r, response, responselen) := exchange n call
    -- if re-direct, capture new URL
    let urlbuf : Option (List Nat) :=
      if 300 ≤ r ∧ r ≤ 399 ∧ response.isSome ∧ responselen > 0 then
        some (cstr (response.getD []))
      else none
    -- redirect recursion protection
    let n := n + 1
    if 300 ≤ r ∧ r ≤ 399 ∧ n < 5 then
      httpsend_loop exchange type oa2token encoding request fuel n urlbuf (calls ++ [call])
    else if n = 5 then .ok ⟨500, response, responselen, calls ++ [call]⟩
    else .ok ⟨r, response, responselen, calls ++ [call]⟩

/-- `httpsend(type, url, oa2token, encoding, request, response, responselen)`. -/
def httpsend (exchange : Nat → Call → Int × Option (List Nat) × Int)
    (type : http_type) (url : List Nat) (oa2token encoding request : Option (List Nat)) :
    Except Fault Sent :=
  httpsend_loop exchange type oa2token encoding request 5 0 (some (cstr url)) []

/-- `buf[i], buf[i+1], ... = vs` inside a buffer of `mem.length` bytes. -/
def pokes : List Nat → Nat → List Nat → Except Fault (List Nat)
  | mem, _, [] => .ok mem
  | mem, i, v :: vs => if i < mem.length then pokes (mem.set i v) (i + 1) vs else .error .oob

/-- Upper-case hexadecimal digit. -/
def hexdigit (d : Nat) : Nat := if d < 10 then 48 + d else 55 + d

/-- Hexadecimal digits of `n`, most significant first. -/
def hexFuel : Nat → Nat → List Nat
  | 0, _ => []
  | fuel + 1, n => if n < 16 then [hexdigit n] else hexFuel fuel (n / 16) ++ [hexdigit (n % 16)]

/-- The characters `sprintf(buf, "%%%02X", v)` produces for an `int` argument `v`, which
`%X` prints as an `unsigned int`. -/
def sprintf_pct02X (v : Int) : List Nat :=
  let digits := hexFuel 8 (v % 4294967296).toNat
  37 :: (if digits.length < 2 then 48 :: digits else digits)

/-- The value of `*src` as an `int`: plain `char` is signed on some targets (x86) and
unsigned on others (ARM). -/
def charValue (charSigned : Bool) (c : Nat) : Int :=
  if charSigned && 128 ≤ c then (c : Int) - 256 else c

/-- The `while (di<(maxdst-5) && *src!='\0')` loop of `httpencode`.  `dst` is the
destination buffer, writes outside it are faults, and so is a `sprintf` result that does
not fit `char buf[4]`. -/
def httpencode_loop (charSigned : Bool) (maxdst : Int) :
    List Nat → List Nat → Nat → Except Fault (List Nat × Nat)
  | [], dst, di => .ok (dst, di)
  | c :: src, dst, di =>
    if (di : Int) < maxdst - 5 ∧ c ≠ 0 then
      if isalnum c then
        match pokes dst di [c] with
        | .error e => .error e
        | .ok dst => httpencode_loop charSigned maxdst src dst (di + 1)
      else
        let buf := sprintf_pct02X (charValue charSigned c) ++ [0]
        if buf.length > 4 then .error .oob else
        match pokes dst di buf with
        | .error e => .error e
        | .ok dst => httpencode_loop charSigned maxdst src dst (di + 3)
    else .ok (dst, di)

/-- `httpencode(src, dst, maxdst)` for non-NULL arguments: the destination buffer
afterwards and the returned value. -/
def httpencode (charSigned : Bool) (src dst : List Nat) (maxdst : Int) :
    Except Fault (List Nat × Int) :=
  match pokes dst 0 [0] with
  | .error e => .error e
  | .ok dst =>
    match httpencode_loop charSigned maxdst src dst 0 with
    | .error e => .error e
    | .ok (dst, di) =>
      match pokes dst di [0] with
      | .error e => .error e
      | .ok dst => .ok (dst, 1)

/-- The encoding the specification describes: alphanumeric bytes unchanged, every other
byte as `%` and two upper-case hexadecimal digits. -/
def percentEncoding (src : List Nat) : List Nat :=
  (src.map (fun c => if isalnum c then [c] else [37, hexdigit (c / 16), hexdigit (c % 16)])).flatten

/-- `strncasecmp(a, b, n)`; the end of a list stands for the terminating NUL. -/
def strncasecmp : List Nat → List Nat → Nat → Int
  | _, _, 0 => 0
  | a, b, n + 1 =>
    let ca := tolower (a.headD 0)
    let cb := tolower (b.headD 0)
    if ca ≠ cb then (ca : Int) - cb
    else if ca = 0 then 0
    else strncasecmp a.tail b.tail n

/-- `_httpc_parsehost(url, &ishttps, &port, &uri)`: on success the returned host name with
`*ishttps`, `*port` and the string at `*uri`; `none` is the NULL return.  `url` is the
text without its terminator. -/
def _httpc_parsehost (url : List Nat) : Option (List Nat × Bool × Int × List Nat) :=
  -- get http type
  let (httplen, port, ishttps) : Nat × Int × Bool :=
    if strncasecmp url (bytes "http://") 7 == 0 then (7, 80, false)
    else if strncasecmp url (bytes "https://") 8 == 0 then (8, 443, true)
    else (0, 0, false)
  if port == 0 then none else
  -- copy hostname into buf
  let url := cstr url
  let stop := fun (c : Nat) => c == 58 || c == 47
  let host := (url.drop httplen).takeWhile (fun c => !stop c)
  let rest := (url.drop httplen).dropWhile (fun c => !stop c)
  -- extract port
  let (port, rest) : Int × List Nat :=
    if rest.head? == some 58 then
      (atoi rest.tail, rest.tail.dropWhile (fun c => !(c == 47)))
    else (port, rest)
  -- copy uri into buf
  let uri := if rest == [] then bytes "/" else rest
  some (host, ishttps, port, uri)

/-! ### Transports and URLs used to state the HTTP properties -/

/-- The calls a chain of `k` redirects consists of: the first goes to `urlbuf`, each later
one to the C string the previous call left in the response buffer.  `n` numbers the first
call. -/
def redirectCalls (exchange : Nat → Call → Int × Option (List Nat) × Int)
    (type : http_type) (oa2token encoding request : Option (List Nat)) :
    Nat → Nat → Option (List Nat) → List Call
  | 0, _, _ => []
  | k + 1, n, urlbuf =>
    let call : Call := ⟨type, urlbuf, oa2token, encoding, request⟩
    call :: redirectCalls exchange type oa2token encoding request k (n + 1)
      (some (cstr ((exchange n call).2.1.getD [])))

/-- An exchange that always ends as `_httpc_getresponse` ends on the bytes
`HTTP/1.1 301 Moved\r\nLocation: http://x/y\r\n\r\n`. -/
def alwaysMoved : Nat → Call → Int × Option (List Nat) × Int :=
  fun _ _ =>
    match _httpc_getresponse
        (delivers (bytes "HTTP/1.1 301 Moved\r\nLocation: http://x/y\r\n\r\n")) none 0 with
    | .ok r => r
    | .error _ => (999, none, 0)

/-- An exchange whose first four answers are redirects to `http://x/y` and whose fifth
answer is `200` with the body `ok`. -/
def movedFourTimes : Nat → Call → Int × Option (List Nat) × Int :=
  fun n _ => if n < 4 then (301, some (bytes "http://x/y"), 10) else (200, some (bytes "ok"), 2)

/-- The chunked stream `hex(len c) \r\n c \r\n` for each chunk, then `0\r\n\r\n`; the
lengths of the chunks used below are single hexadecimal digits. -/
def chunkedBody : List (List Nat) → List Nat
  | [] => bytes "0\r\n\r\n"
  | c :: cs => hexdigit c.length :: 13 :: 10 :: (c ++ 13 :: 10 :: chunkedBody cs)

/-- The text `:p` of an explicit port, or nothing. -/
def portText : Option Nat → List Nat
  | some p => 58 :: decimal p
  | none => []

/-- The URL `s ++ h ++ [":" ++ p] ++ [q]`. -/
def mkUrl (s h : List Nat) (p : Option Nat) (q : Option (List Nat)) : List Nat :=
  s ++ h ++ portText p ++ q.getD []

/-- The string begins with `lit`, letter case ignored. -/
def beginsNoCase (url lit : List Nat) : Prop :=
  ∃ p rest, url = p ++ rest ∧ p.map tolower = lit.map tolower

/-! ### The request side of httpc.c -/

/-- Modelled from the spec: the transport adapter (`net.h` and its code are not among the
sources).  `netconnect host port tls` is what the new session will report to successive
`netrecv` calls, or `none` for a NULL session; `tls` is `true` for the flags `SSL2|SSL3`
and `false` for `OPEN`.  `netsend i` tells whether the `i`-th `netsend` on the session
(counted from 0) reports success, that is a value `≥ 0`. -/
structure Net where
  netconnect : List Nat → Int → Bool → Option (List Recv)
  netsend : Nat → Bool

/-- What one `_httpc_httpsend` call leaves behind: the returned code, `*response`,
`*responselen`, and the byte strings handed to `netsend`, in order. -/
structure Exchanged where
  code : Int
  response : Option (List Nat)
  responselen : Int
  sent : List (List Nat)
  deriving DecidableEq

/-- The `switch (type)` of `_httpc_httpsend`: the string `types` and `hasbody`. -/
def typeString : http_type → List Nat × Bool
  | .GET => (bytes "GET ", false)
  | .HEAD => (bytes "HEAD ", false)
  | .OPTIONS => (bytes "OPTIONS ", false)
  | .PUT => (bytes "PUT ", true)
  | .POST => (bytes "POST ", true)
  | .PATCH => (bytes "PATCH ", true)
  | .DELETE => (bytes "DELETE ", true)

/-- `_httpc_httpsend(type, url, oa2token, encoding, request, response, responselen)` with
a non-NULL `response`; `response` and `responselen` are `*response` and `*responselen` on
entry.  The `fail:` exit returns 999 and leaves both untouched.  (The request length is
assumed to have fewer than 16 digits, the size of `contentlength`.) -/
def _httpc_httpsend (net : Net) (call : Call) (response : Option (List Nat))
    (responselen : Int) : Except Fault Exchanged :=
  match call.url with
  | none => .ok ⟨999, response, responselen, []⟩
  | some url =>
  -- get type string
  let (types, hasbody) := typeString call.type
  -- calculate content length
  let contentlength := match call.request with
    | some request => decimal (cstr request).length
    | none => bytes "0"
  match _httpc_parsehost url with
  | none => .ok ⟨999, response, responselen, []⟩
  | some (host, ishttps, port, uri) =>
  match net.netconnect host port ishttps with
  | none => .ok ⟨999, response, responselen, []⟩
  | some session =>
  let sent : List (List Nat) :=
    [types, uri, (bytes " HTTP/1.1\r\n").take 11,
     (bytes "Host: ").take 6, host, (bytes "\r\n").take 2,
     (bytes "Connection: Close\r\n").take 19]
  match (if hasbody then
      match call.encoding, call.request with
      | some encoding, some _ =>
        some (sent ++
          [(bytes "Content-Type: ").take 14, cstr encoding, (bytes "\r\n").take 2,
           (bytes "Content-Length: ").take 14, contentlength, (bytes "\r\n").take 2])
      | _, _ => none
    else some sent : Option (List (List Nat))) with
  | none => .ok ⟨999, response, responselen, sent⟩
  | some sent =>
  let sent := match call.oa2token with
    | some oa2token => sent ++ [(bytes "Token: ").take 7, cstr oa2token, (bytes "\r\n").take 2]
    | none => sent
  let sent := sent ++ [(bytes "\r\n").take 2]
  let sent := match hasbody, call.request with
    | true, some request => sent ++ [cstr request]
    | _, _ => sent
  -- ok is the conjunction of the results of all the sends
  if !((List.range sent.length).all net.netsend) then .ok ⟨999, response, responselen, sent⟩
  else
    match _httpc_getresponse session response responselen with
    | .error e => .error e
    | .ok (code, response, responselen) => .ok ⟨code, response, responselen, sent⟩

/-- The request the specification describes for a body-carrying method: request line,
`Host`, `Connection: Close`, `Content-Type`, `Content-Length`, the optional `Token`
header, a blank line and the body. -/
def requestWithBody (method path host ct b : List Nat) (token : Option (List Nat)) :
    List Nat :=
  method ++ bytes " " ++ path ++ bytes " HTTP/1.1\r\n" ++
  bytes "Host: " ++ host ++ bytes "\r\n" ++
  bytes "Connection: Close\r\n" ++
  bytes "Content-Type: " ++ ct ++ bytes "\r\n" ++
  bytes "Content-Length: " ++ decimal b.length ++ bytes "\r\n" ++
  (match token with
    | some t => bytes "Token: " ++ t ++ bytes "\r\n"
    | none => []) ++
  bytes "\r\n" ++ b

/-- A transport on which every connection succeeds, every send succeeds, and the peer
answers with the given bytes before closing. -/
def answering (data : List Nat) : Net :=
  { netconnect := fun _ _ _ => some (delivers data), netsend := fun _ => true }

/-- The exchanges of `httpsend` over a transport whose peer always answers
`HTTP/1.1 302 Found\r\n\r\n`, a redirect without `Location` (no run of it faults). -/
def foundNowhere : Nat → Call → Int × Option (List Nat) × Int :=
  fun _ call =>
    match _httpc_httpsend (answering (bytes "HTTP/1.1 302 Found\r\n\r\n")) call none 0 with
    | .ok e => (e.code, e.response, e.responselen)
    | .error _ => (999, none, 0)

/-! ### Further texts and trees used to state the JSON properties -/

/-- The text of `n` characters `[`, the token `1`, and `n` characters `]`. -/
def nestText (n : Nat) : List Nat := List.replicate n 91 ++ 49 :: List.replicate n 93

/-- The chain `nestText n` is parsed to. -/
def nestTree : Nat → tagentry
  | 0 => .mk .NULL .NULL false [48] (some [49])
  | n + 1 => .mk .NULL (nestTree n) true [48] none

/-- The text `{"a":{"d":"v"}}`. -/
def keyedText (d v : List Nat) : List Nat :=
  bytes "\x7b\"a\":\x7b\"" ++ d ++ bytes "\":\"" ++ v ++ bytes "\"\x7d\x7d"

/-- The text `{"k":"v"`, an object that is not closed. -/
def openText (k v : List Nat) : List Nat :=
  bytes "\x7b\"" ++ k ++ bytes "\":\"" ++ v ++ bytes "\""

/-- Every entry has a non-empty label, and an entry with a value has no child. -/
def wellShaped : tagentry → Prop
  | .NULL => True
  | .mk next child _ label data =>
    label ≠ [] ∧ (data.isSome → child = .NULL) ∧ wellShaped next ∧ wellShaped child

/-- The text `{"k":t}`, `t` being an unquoted token. -/
def scalarText (k t : List Nat) : List Nat :=
  bytes "\x7b\"" ++ k ++ bytes "\":" ++ t ++ bytes "\x7d"

/-- No label is empty or contains `/`. -/
def pathLabels : tagentry → Prop
  | .NULL => True
  | .mk next child _ label _ => label ≠ [] ∧ 47 ∉ label ∧ pathLabels next ∧ pathLabels child

/-! ### The lookup as the specification describes it -/

/-- The segments of a path: the text split at every `/`. -/
def segments : List Nat → List (List Nat)
  | [] => [[]]
  | c :: s =>
    if c = 47 then [] :: segments s
    else
      match segments s with
      | [] => [[c]]
      | seg :: segs => (c :: seg) :: segs

/-- The first entry of a sibling chain, in document order, whose label equals the segment
exactly; `NULL` when no sibling has that label. -/
def firstLabelled (seg : List Nat) : tagentry → tagentry
  | .NULL => .NULL
  | .mk next child childisarray label data =>
    if label = seg then .mk next child childisarray label data else firstLabelled seg next

/-- The walk of the specification from a sibling chain along the segments: each segment
selects the first sibling whose label equals it, and the walk descends into the child of
the selected entry between segments.  The result is the value of the last selected entry;
it is absent when a segment has no match (which is also what happens when a selected entry
has no child but path remains) or when the last selected entry is a container. -/
def walk : tagentry → List (List Nat) → Option (List Nat)
  | _, [] => none
  | chain, [seg] =>
    match firstLabelled seg chain with
    | .NULL => none
    | .mk _ child _ _ data => if child = .NULL then data else none
  | chain, seg :: seg2 :: segs =>
    match firstLabelled seg chain with
    | .NULL => none
    | .mk _ child _ _ _ => walk child (seg2 :: segs)

/-- The reference lookup of the specification: strip one optional leading `/`, split the
rest on `/`, start at the root-level sibling chain, or at the child chain of the root when
the label of the root is `0`, and walk. -/
def jsonget_reference (jh : IJSON) (tagpath : List Nat) : Option (List Nat) :=
  let rest := match tagpath with
    | 47 :: s => s
    | s => s
  let start := match jh.root with
    | .NULL => tagentry.NULL
    | .mk next child childisarray label data =>
      if label = bytes "0" then child else .mk next child childisarray label data
  walk start (segments rest)

/-- The status line `HTTP/1.1 s reason\r\n`. -/
def statusLine (s : Nat) (reason : List Nat) : List Nat :=
  bytes "HTTP/1.1 " ++ decimal s ++ 32 :: reason ++ bytes "\r\n"

/-! ## Theorems -/


theorem rd_eq (json : List Nat) (pos : Nat) :
    rd json pos = (match json.drop pos with
      | [] => .error .oob
      | c :: _ => .ok c) := by
  unfold rd
  rcases h : json.drop pos with _ | ⟨c, r⟩
  · have : json.length ≤ pos := by simpa using h
    simp [List.getElem?_eq_none this]
  · have := congrArg List.head? h
    rw [List.head?_drop] at this
    simp at this
    simp [this]

theorem drop_add_of_eq {json : List Nat} {pos : Nat} {L : List Nat}
    (h : json.drop pos = L) (k : Nat) : json.drop (pos + k) = L.drop k := by
  rw [← h, List.drop_drop, Nat.add_comm]

theorem cstr_of_nonzero {v : List Nat} (hv : ∀ c ∈ v, c ≠ 0) (rest : List Nat) :
    cstr (v ++ 0 :: rest) = v := by
  induction v with
  | nil => simp [cstr]
  | cons a v ih =>
    have ha : a ≠ 0 := hv a (by simp)
    have := ih (fun c hc => hv c (by simp [hc]))
    simp [cstr, ha] at this ⊢
    exact this

theorem cstr_self {v : List Nat} (hv : ∀ c ∈ v, c ≠ 0) : cstr v = v := by
  unfold cstr
  rw [List.takeWhile_eq_self_iff]
  intro c hc
  simpa using hv c hc

theorem strncpy_prefix {v : List Nat} (hv : ∀ c ∈ v, c ≠ 0) (rest : List Nat) :
    strncpy (v ++ rest) v.length = v := by
  simp [strncpy, cstr_self hv]

/-- Scanning the inside of a quoted token that has no quote, backslash or NUL. -/
theorem _jsonfieldlen_loop_plain (v : List Nat) (hv : ∀ c ∈ v, c ≠ 0 ∧ c ≠ 34 ∧ c ≠ 92)
    (c : Nat) (hc : c ≠ 92) (rest : List Nat) (len : Nat) :
    _jsonfieldlen_loop true (c :: (v ++ 34 :: rest)) len = .ok (len + 1 + v.length) := by
  induction v generalizing c len with
  | nil => simp [_jsonfieldlen_loop, hc]
  | cons a v ih =>
    have ha := hv a (by simp)
    have := ih (fun c hc => hv c (by simp [hc])) a ha.2.2 (len + 1)
    simp [_jsonfieldlen_loop, hc, ha.1, ha.2.1] at this ⊢
    rw [this]; congr 1; omega

theorem _jsonfieldlen_quoted (v : List Nat) (hne : v ≠ [])
    (hv : ∀ c ∈ v, c ≠ 0 ∧ c ≠ 34 ∧ c ≠ 92) (rest : List Nat) :
    _jsonfieldlen (34 :: (v ++ 34 :: rest)) = .ok (v.length + 2) := by
  rcases v with _ | ⟨a, v⟩
  · exact absurd rfl hne
  · have ha := hv a (by simp)
    have := _jsonfieldlen_loop_plain v (fun c hc => hv c (by simp [hc])) a ha.2.2 rest 1
    simp [_jsonfieldlen] at this ⊢
    rw [this]; simp; omega


theorem drop_of_append {json : List Nat} {pos : Nat} {a b : List Nat}
    (h : json.drop pos = a ++ b) {n : Nat} (hn : n = a.length) : json.drop (pos + n) = b := by
  rw [drop_add_of_eq h, hn, List.drop_left]

/-- An object body with one quoted key and one quoted value, up to its closing brace. -/
theorem _jsonbuild_leafobj (k v : List Nat) (hk0 : k ≠ []) (hv0 : v ≠ [])
    (hk : ∀ c ∈ k, c ≠ 0 ∧ c ≠ 34 ∧ c ≠ 92) (hv : ∀ c ∈ v, c ≠ 0 ∧ c ≠ 34 ∧ c ≠ 92)
    (fuel : Nat) (json : List Nat) (pos depth : Nat) (rest : List Nat)
    (hd : json.drop pos = 34 :: (k ++ 34 :: 58 :: 34 :: (v ++ 34 :: 125 :: rest)))
    (hdepth : depth ≤ 10) :
    _jsonbuild (fuel + 2) json pos depth
      = .ok (.mk .NULL .NULL false k (some v), pos + (k.length + v.length + 6)) := by
  have h1 : json.drop (pos + 1) = k ++ 34 :: 58 :: 34 :: (v ++ 34 :: 125 :: rest) :=
    drop_of_append (a := [34]) hd rfl
  have h2 : json.drop (pos + (k.length + 2)) = 58 :: 34 :: (v ++ 34 :: 125 :: rest) :=
    drop_of_append (a := 34 :: (k ++ [34])) (by simpa using hd) (by simp)
  have h3 : json.drop (pos + (k.length + 2) + 1) = 34 :: (v ++ 34 :: 125 :: rest) :=
    drop_of_append (a := [58]) h2 rfl
  have h4 : json.drop (pos + (k.length + 2) + 1 + 1) = v ++ 34 :: 125 :: rest :=
    drop_of_append (a := [34]) h3 rfl
  have h5 : json.drop (pos + (k.length + 2) + 1 + (v.length + 2)) = 125 :: rest :=
    drop_of_append (a := 34 :: (v ++ [34])) (by simpa using h3) (by simp)
  have hkz : ∀ c ∈ k, c ≠ 0 := fun c hc => (hk c hc).1
  have hvz : ∀ c ∈ v, c ≠ 0 := fun c hc => (hv c hc).1
  have e1 : _jsonbuild_loop (fuel + 1) json pos depth 0
      = .ok (.mk .NULL .NULL false k (some v), pos + (k.length + 2) + 1 + (v.length + 2)) := by
    rw [_jsonbuild_loop]
    simp [hd, skipspace, rd_eq, _jsonfieldlen_quoted k hk0 hk, h1, h2, h3, h4, h5,
      _jsonfieldlen_quoted v hv0 hv, skipcolon, skipcomma,
      strncpy_prefix hkz, strncpy_prefix hvz, isspace]
  have hdep : ¬ depth > 10 := by omega
  rw [_jsonbuild, e1]
  simp [rd_eq, h5, hdep]
  omega

/-- A container entry with a quoted key whose nested level ends at a closing brace. -/
theorem _jsonbuild_wrap (k : List Nat) (hk0 : k ≠ [])
    (hk : ∀ c ∈ k, c ≠ 0 ∧ c ≠ 34 ∧ c ≠ 92) (br : Nat) (hbr : br = 123 ∨ br = 91)
    (fuel : Nat) (json : List Nat) (pos depth : Nat) (inner : List Nat)
    (child : tagentry) (p : Nat) (rest : List Nat)
    (hd : json.drop pos = 34 :: (k ++ 34 :: 58 :: br :: inner))
    (hchild : _jsonbuild fuel json (pos + (k.length + 2) + 1 + 1) (depth + 1) = .ok (child, p))
    (hp : json.drop p = 125 :: rest)
    (hdepth : depth ≤ 10) :
    _jsonbuild (fuel + 2) json pos depth
      = .ok (.mk .NULL child (br == 91) k none, p + 1) := by
  have h1 : json.drop (pos + 1) = k ++ 34 :: 58 :: br :: inner :=
    drop_of_append (a := [34]) hd rfl
  have h2 : json.drop (pos + (k.length + 2)) = 58 :: br :: inner :=
    drop_of_append (a := 34 :: (k ++ [34])) (by simpa using hd) (by simp)
  have h3 : json.drop (pos + (k.length + 2) + 1) = br :: inner :=
    drop_of_append (a := [58]) h2 rfl
  have hkz : ∀ c ∈ k, c ≠ 0 := fun c hc => (hk c hc).1
  have e1 : _jsonbuild_loop (fuel + 1) json pos depth 0
      = .ok (.mk .NULL child (br == 91) k none, p) := by
    rw [_jsonbuild_loop]
    rcases hbr with rfl | rfl <;>
    simp [hd, skipspace, rd_eq, _jsonfieldlen_quoted k hk0 hk, h1, h2, h3, hchild, hp,
      skipcolon, skipcomma, strncpy_prefix hkz, isspace]
  have hdep : ¬ depth > 10 := by omega
  rw [_jsonbuild, e1]
  simp [rd_eq, hp, hdep]

theorem decimalFuel_eq (f1 : Nat) : ∀ (f2 n : Nat), n < f1 → n < f2 →
    decimalFuel f1 n = decimalFuel f2 n := by
  induction f1 with
  | zero => intro f2 n h; omega
  | succ f1 ih =>
    intro f2 n h1 h2
    rcases f2 with _ | f2
    · omega
    · simp only [decimalFuel]
      split
      · rfl
      · rw [ih f2 (n / 10) (by omega) (by omega)]

theorem decimal_rec (n : Nat) :
    decimal n = if n < 10 then [48 + n] else decimal (n / 10) ++ [48 + n % 10] := by
  unfold decimal
  rw [decimalFuel]
  split
  · rfl
  · rw [decimalFuel_eq n (n / 10 + 1) (n / 10) (by omega) (by omega)]

theorem decimal_digits (n : Nat) : ∀ c ∈ decimal n, 48 ≤ c ∧ c ≤ 57 := by
  induction n using Nat.strong_induction_on with
  | _ n ih =>
    rw [decimal_rec]
    split
    · intro c hc; simp at hc; omega
    · intro c hc
      simp only [List.mem_append, List.mem_singleton] at hc
      rcases hc with hc | hc
      · exact ih (n / 10) (by omega) c hc
      · omega

theorem decimal_ne_nil (n : Nat) : decimal n ≠ [] := by
  rw [decimal_rec]; split <;> simp

/-- Value of a digit string, as `atoi` accumulates it. -/
theorem foldl_decimal (n : Nat) :
    (decimal n).foldl (fun acc c => acc * 10 + (c - 48)) 0 = n := by
  induction n using Nat.strong_induction_on with
  | _ n ih =>
    rw [decimal_rec]
    split
    · simp
    · rw [List.foldl_append, ih (n / 10) (by omega)]
      simp; omega

theorem decimal_inj {a b : Nat} (h : decimal a = decimal b) : a = b := by
  have := foldl_decimal a
  rw [h, foldl_decimal] at this
  exact this.symm

theorem decimal_head_zero (n : Nat) (t : List Nat) (h : decimal n = 48 :: t) : t = [] := by
  induction n using Nat.strong_induction_on generalizing t with
  | _ n ih =>
    rw [decimal_rec] at h
    split at h
    · simp at h; exact h.2
    · rename_i hn
      rcases hd : decimal (n / 10) with _ | ⟨a, r⟩
      · exact absurd hd (decimal_ne_nil _)
      · rw [hd] at h
        simp at h
        have ha : a = 48 := h.1
        subst ha
        have hr := ih (n / 10) (by omega) r hd
        subst hr
        have := foldl_decimal (n / 10)
        rw [hd] at this
        simp at this
        omega

theorem objItems_cons_cons (k v w : List Nat) (vs : List (List Nat)) :
    objItems k (v :: w :: vs) = objItem k v ++ 44 :: objItems k (w :: vs) := rfl

theorem objItems_head (k v : List Nat) (vs : List (List Nat)) :
    ∃ t, objItems k (v :: vs) = 123 :: t := by
  rcases vs with _ | ⟨w, vs⟩
  · exact ⟨_, rfl⟩
  · exact ⟨_, rfl⟩

theorem objItem_length (k v : List Nat) : (objItem k v).length = k.length + v.length + 7 := by
  simp [objItem]; omega

/-- The loop of `_jsonbuild` over the elements `{"k":"v"}` of an array, up to the `]`. -/
theorem _jsonbuild_loop_objItems (k : List Nat) (hk0 : k ≠ []) (hk : plain k)
    (fuel : Nat) (json : List Nat) (depth : Nat) (rest : List Nat) (hdepth : depth + 1 ≤ 10)
    (vs : List (List Nat)) (hvs : vs ≠ []) (hv : ∀ v ∈ vs, v ≠ [] ∧ plain v) :
    ∀ (pos e : Nat), json.drop pos = objItems k vs ++ 93 :: rest →
    _jsonbuild_loop (fuel + vs.length + 2) json pos depth e
      = .ok (arrchain k e vs, pos + (objItems k vs).length) := by
  induction vs with
  | nil => exact absurd rfl hvs
  | cons v vs ih =>
    intro pos e hd
    have hv1 := hv v (by simp)
    rcases vs with _ | ⟨w, vs⟩
    · -- last element
      have hd1 : json.drop pos
          = 123 :: 34 :: (k ++ 34 :: 58 :: 34 :: (v ++ 34 :: 125 :: 93 :: rest)) := by
        simpa [objItems, objItem] using hd
      have hd2 : json.drop (pos + 1)
          = 34 :: (k ++ 34 :: 58 :: 34 :: (v ++ 34 :: 125 :: 93 :: rest)) :=
        drop_of_append (a := [123]) hd1 rfl
      have hb := _jsonbuild_leafobj k v hk0 hv1.1 hk hv1.2 fuel json (pos + 1) (depth + 1)
        (93 :: rest) hd2 hdepth
      have hd3 : json.drop (pos + 1 + (k.length + v.length + 6)) = 93 :: rest := by
        have := @drop_of_append json pos (objItem k v) (93 :: rest)
          (by simpa [objItems] using hd) _ (objItem_length k v).symm
        rw [← this]; congr 1; omega
      show _jsonbuild_loop (fuel + 2 + 1) json pos depth e = _
      rw [_jsonbuild_loop]
      simp [hd1, skipspace, rd_eq, hb, hd3, skipcolon, skipcomma, isspace, arrchain,
        objItems, objItem_length]
      omega
    · -- an element followed by a comma
      obtain ⟨t, ht⟩ := objItems_head k w vs
      have hd1 : json.drop pos
          = 123 :: 34 :: (k ++ 34 :: 58 :: 34 :: (v ++ 34 :: 125 :: 44 ::
              (objItems k (w :: vs) ++ 93 :: rest))) := by
        simpa [objItems_cons_cons, objItem] using hd
      have hd2 : json.drop (pos + 1)
          = 34 :: (k ++ 34 :: 58 :: 34 :: (v ++ 34 :: 125 :: 44 ::
              (objItems k (w :: vs) ++ 93 :: rest))) :=
        drop_of_append (a := [123]) hd1 rfl
      have hb := _jsonbuild_leafobj k v hk0 hv1.1 hk hv1.2 (fuel + (w :: vs).length) json
        (pos + 1) (depth + 1) _ hd2 hdepth
      have hd3 : json.drop (pos + 1 + (k.length + v.length + 6))
          = 44 :: (objItems k (w :: vs) ++ 93 :: rest) := by
        have := @drop_of_append json pos (objItem k v)
          (44 :: (objItems k (w :: vs) ++ 93 :: rest))
          (by simpa [objItems_cons_cons] using hd) _ (objItem_length k v).symm
        rw [← this]; congr 1; omega
      have hd4 : json.drop (pos + 1 + (k.length + v.length + 6) + 1)
          = objItems k (w :: vs) ++ 93 :: rest :=
        drop_of_append (a := [44]) hd3 rfl
      have hrec := ih (by simp) (fun x hx => hv x (by simp [hx]))
        (pos + 1 + (k.length + v.length + 6) + 1) (e + 1) hd4
      show _jsonbuild_loop (fuel + (w :: vs).length + 2 + 1) json pos depth e = _
      rw [_jsonbuild_loop]
      rw [ht] at hd3 hd4
      simp only [List.length_cons] at hb hrec
      simp [hd1, skipspace, rd_eq, hb, hd3, hd4, skipcolon, skipcomma, isspace, arrchain,
        objItems_cons_cons, objItem_length, hrec]
      omega

/-- The label test of `jsonget` on a numeric label against a numeric path segment. -/
theorem label_match_segment (x : List Nat) : ∀ (y r : List Nat), (∀ c ∈ x, c ≠ 47) →
    (∀ c ∈ y, c ≠ 47) →
    (x.isPrefixOf (y ++ 47 :: r) &&
      (((y ++ 47 :: r).drop x.length).head? == none ||
       ((y ++ 47 :: r).drop x.length).head? == some 47)) = decide (x = y) := by
  induction x with
  | nil =>
    intro y r _ hy
    rcases y with _ | ⟨c, y⟩
    · simp
    · have := hy c (by simp)
      simp [this]
  | cons a x ih =>
    intro y r hx hy
    rcases y with _ | ⟨c, y⟩
    · have := hx a (by simp)
      simp [List.isPrefixOf, this]
    · have := ih y r (fun c hc => hx c (by simp [hc])) (fun c hc => hy c (by simp [hc]))
      by_cases hac : a = c
      · subst hac; simpa [List.isPrefixOf] using this
      · simp [List.isPrefixOf, hac]

theorem decimal_no_slash (n : Nat) : ∀ c ∈ decimal n, c ≠ 47 := by
  intro c hc
  have := decimal_digits n c hc
  omega

theorem jsonget_search_arrchain_none (k : List Nat) (vs : List (List Nat)) :
    ∀ (e : Nat) (y r : List Nat), (∀ c ∈ y, c ≠ 47) →
      (∀ j, j < vs.length → decimal (e + j) ≠ y) →
      jsonget_search (arrchain k e vs) (y ++ 47 :: r) = none := by
  induction vs with
  | nil => intro e y r _ _; rfl
  | cons v vs ih =>
    intro e y r hy hne
    have h0 : decimal e ≠ y := by simpa using hne 0 (by simp)
    have hrec := ih (e + 1) y r hy (fun j hj => by
      have := hne (j + 1) (by simpa using hj)
      rwa [show e + (j + 1) = e + 1 + j by omega] at this)
    rw [arrchain, jsonget_search, label_match_segment _ _ _ (decimal_no_slash e) hy]
    simp [h0, hrec]

theorem jsonget_search_arrchain_some (k : List Nat) (vs : List (List Nat)) :
    ∀ (e i : Nat) (h : i < vs.length),
      jsonget_search (arrchain k e vs) (decimal (e + i) ++ 47 :: k) = some (vs.get ⟨i, h⟩) := by
  induction vs with
  | nil => intro e i h; simp at h
  | cons v vs ih =>
    intro e i h
    rw [arrchain, jsonget_search,
      label_match_segment _ _ _ (decimal_no_slash e) (decimal_no_slash (e + i))]
    rcases i with _ | i
    · simp [jsonget_search, tagentry.dataOf]
    · have hne : decimal e ≠ decimal (e + (i + 1)) := fun hh => by
        have := decimal_inj hh; omega
      have := ih (e + 1) i (by simpa using h)
      rw [show e + 1 + i = e + (i + 1) by omega] at this
      simp [hne, this]

theorem nestedText_eq (vs : List (List Nat)) :
    nestedText vs = 123 :: 34 :: 97 :: 34 :: 58 :: 123 :: 34 :: 98 :: 34 :: 58 :: 91 ::
      (objItems [99] vs ++ [93, 125, 125]) := rfl

theorem objItems_length_ge (k : List Nat) (vs : List (List Nat)) :
    vs.length ≤ (objItems k vs).length := by
  induction vs with
  | nil => simp
  | cons v vs ih =>
    rcases vs with _ | ⟨w, vs⟩
    · simp [objItems, objItem_length]
    · rw [objItems_cons_cons]
      simp [objItem_length] at ih ⊢
      omega

/-- A whole array level `{"k":"v"},...]` parsed by `_jsonbuild`. -/
theorem _jsonbuild_objItems (k : List Nat) (hk0 : k ≠ []) (hk : plain k)
    (fuel : Nat) (json : List Nat) (pos depth : Nat) (rest : List Nat) (hdepth : depth + 1 ≤ 10)
    (vs : List (List Nat)) (hvs : vs ≠ []) (hv : ∀ v ∈ vs, v ≠ [] ∧ plain v)
    (hd : json.drop pos = objItems k vs ++ 93 :: rest) :
    _jsonbuild (fuel + vs.length + 3) json pos depth
      = .ok (arrchain k 0 vs, pos + (objItems k vs).length + 1) := by
  have hl := _jsonbuild_loop_objItems k hk0 hk fuel json depth rest hdepth vs hvs hv pos 0 hd
  have hp : json.drop (pos + (objItems k vs).length) = 93 :: rest :=
    drop_of_append hd rfl
  have hdep : ¬ depth > 10 := by omega
  rw [_jsonbuild, hl]
  simp [rd_eq, hp, hdep]

theorem plain_of_bytes_a : plain [97] := by intro c hc; simp at hc; subst hc; decide
theorem plain_of_bytes_b : plain [98] := by intro c hc; simp at hc; subst hc; decide
theorem plain_of_bytes_c : plain [99] := by intro c hc; simp at hc; subst hc; decide
theorem plain_of_bytes_x : plain [120] := by intro c hc; simp at hc; subst hc; decide

/-- The tree `jsonset` builds for `nestedText vs`. -/
theorem jsonset_nestedText (jh0 : IJSON) (vs : List (List Nat)) (hn : 1 ≤ vs.length)
    (hv : ∀ v ∈ vs, v ≠ [] ∧ plain v) :
    jsonset jh0 (nestedText vs) = .ok (⟨.mk .NULL (.mk .NULL (.mk .NULL
      (arrchain [99] 0 vs) true [98] none) false [97] none) false [48] none⟩, true) := by
  have hvs : vs ≠ [] := by rintro rfl; simp at hn
  have hlen := objItems_length_ge [99] vs
  obtain ⟨f, hf⟩ : ∃ f, 2 * (nestedText vs).length + 4 = f + vs.length + 3 + 2 + 2 + 2 :=
    ⟨2 * (nestedText vs).length + 4 - (vs.length + 9), by
      simp [nestedText_eq]; omega⟩
  set L := (objItems [99] vs).length with hL
  set json := nestedText vs ++ [0] with hjson
  have hj : json = 123 :: 34 :: 97 :: 34 :: 58 :: 123 :: 34 :: 98 :: 34 :: 58 :: 91 ::
      (objItems [99] vs ++ 93 :: 125 :: 125 :: [0]) := by
    simp [hjson, nestedText_eq]
  have d0 : json.drop 0 = 123 :: 34 :: 97 :: 34 :: 58 :: 123 :: 34 :: 98 :: 34 :: 58 :: 91 ::
      (objItems [99] vs ++ 93 :: 125 :: 125 :: [0]) := by simpa using hj
  have d1 : json.drop 1 = 34 :: ([97] ++ 34 :: 58 :: 123 :: 34 :: 98 :: 34 :: 58 :: 91 ::
      (objItems [99] vs ++ 93 :: 125 :: 125 :: [0])) := by simp [hj]
  have d6 : json.drop 6 = 34 :: ([98] ++ 34 :: 58 :: 91 ::
      (objItems [99] vs ++ 93 :: 125 :: 125 :: [0])) := by simp [hj]
  have d11 : json.drop 11 = objItems [99] vs ++ 93 :: 125 :: 125 :: [0] := by simp [hj]
  have d12 : json.drop (11 + L + 1) = 125 :: 125 :: [0] := by
    have : json.drop (11 + L) = 93 :: 125 :: 125 :: [0] := drop_of_append d11 rfl
    exact drop_of_append (a := [93]) this rfl
  have d13 : json.drop (11 + L + 1 + 1) = 125 :: [0] := drop_of_append (a := [125]) d12 rfl
  have d14 : json.drop (11 + L + 1 + 1 + 1) = [0] := drop_of_append (a := [125]) d13 rfl
  have b3 := _jsonbuild_objItems [99] (by simp) plain_of_bytes_c f json 11 3 _ (by omega)
    vs hvs hv d11
  have b2 := _jsonbuild_wrap [98] (by simp) plain_of_bytes_b 91 (Or.inr rfl)
    (f + vs.length + 3) json 6 2 _ _ _ _ d6 b3 d12 (by omega)
  have b1 := _jsonbuild_wrap [97] (by simp) plain_of_bytes_a 123 (Or.inl rfl)
    (f + vs.length + 3 + 2) json 1 1 _ _ _ _ d1 b2 d13 (by omega)
  have b0 : _jsonbuild (f + vs.length + 3 + 2 + 2 + 2) json 0 0
      = .ok (.mk .NULL (.mk .NULL (.mk .NULL
          (arrchain [99] 0 vs) true [98] none) false [97] none) false [48] none,
          11 + L + 1 + 1 + 1) := by
    rw [_jsonbuild, _jsonbuild_loop]
    simp [d0, skipspace, rd_eq, skipcolon, skipcomma, isspace, b1, d14]
    rfl
  unfold jsonset
  rw [hf, b0]

/-- C1: for every non-empty list `vs` of non-empty strings without NUL, double quote or
backslash, `jsonset` succeeds on `{"a":{"b":[{"c":"v_0"},...,{"c":"v_{n-1}"}]}}`, after
which `jsonget` answers `v_i` at `/a/b/i/c` for every `i < n` and NULL at `/a/x`. -/
theorem jsonget_nestedText (jh0 : IJSON) (vs : List (List Nat)) (hn : 1 ≤ vs.length)
    (hv : ∀ v ∈ vs, v ≠ [] ∧ plain v) :
    ∃ jh, jsonset jh0 (nestedText vs) = .ok (jh, true) ∧
      (∀ (i : Nat) (h : i < vs.length),
        jsonget jh (bytes "/a/b/" ++ decimal i ++ bytes "/c") = some (vs.get ⟨i, h⟩)) ∧
      jsonget jh (bytes "/a/x") = none := by
  refine ⟨_, jsonset_nestedText jh0 vs hn hv, ?_, ?_⟩
  · intro i h
    have hs := jsonget_search_arrchain_some [99] vs 0 i h
    rw [Nat.zero_add] at hs
    have hp : bytes "/a/b/" ++ decimal i ++ bytes "/c"
        = 47 :: 97 :: 47 :: 98 :: 47 :: (decimal i ++ 47 :: [99]) := by
      show [47, 97, 47, 98, 47] ++ decimal i ++ [47, 99] = _
      simp
    rw [hp]
    have hne := decimal_ne_nil i
    simp [jsonget, jsonget_search, hs, hne]
  · show jsonget _ [47, 97, 47, 120] = none
    simp [jsonget, jsonget_search, List.isPrefixOf]

/-- C1 witness: the two-element text of the specification. -/
theorem jsonget_nestedText_witness :
    nestedText [bytes "1", bytes "2"]
        = bytes "\x7b\"a\":\x7b\"b\":[\x7b\"c\":\"1\"\x7d,\x7b\"c\":\"2\"\x7d]\x7d\x7d" ∧
    ∃ jh, jsonset ⟨.NULL⟩ (nestedText [bytes "1", bytes "2"]) = .ok (jh, true) ∧
      (∀ (i : Nat) (h : i < [bytes "1", bytes "2"].length),
        jsonget jh (bytes "/a/b/" ++ decimal i ++ bytes "/c")
          = some ([bytes "1", bytes "2"].get ⟨i, h⟩)) ∧
      jsonget jh (bytes "/a/x") = none :=
  ⟨by decide, jsonget_nestedText ⟨.NULL⟩ [bytes "1", bytes "2"] (by decide) (by
    intro v hv
    simp at hv
    rcases hv with rfl | rfl <;> exact ⟨by decide, by intro c hc; simp [bytes] at hc; subst hc; decide⟩)⟩

theorem arrayText_eq (vs : List (List Nat)) :
    arrayText vs = 91 :: (objItems [120] vs ++ [93]) := rfl

/-- The tree `jsonset` builds for the bare array `arrayText vs`. -/
theorem jsonset_arrayText (jh0 : IJSON) (vs : List (List Nat)) (hn : 1 ≤ vs.length)
    (hv : ∀ v ∈ vs, v ≠ [] ∧ plain v) :
    jsonset jh0 (arrayText vs)
      = .ok (⟨.mk .NULL (arrchain [120] 0 vs) true [48] none⟩, true) := by
  have hvs : vs ≠ [] := by rintro rfl; simp at hn
  have hlen := objItems_length_ge [120] vs
  obtain ⟨f, hf⟩ : ∃ f, 2 * (arrayText vs).length + 4 = f + vs.length + 3 + 2 :=
    ⟨2 * (arrayText vs).length + 4 - (vs.length + 5), by simp [arrayText_eq]; omega⟩
  set L := (objItems [120] vs).length with hL
  set json := arrayText vs ++ [0] with hjson
  have d0 : json.drop 0 = 91 :: (objItems [120] vs ++ 93 :: [0]) := by
    simp [hjson, arrayText_eq]
  have d1 : json.drop 1 = objItems [120] vs ++ 93 :: [0] := by
    simp [hjson, arrayText_eq]
  have d2 : json.drop (1 + L + 1) = [0] := by
    have : json.drop (1 + L) = 93 :: [0] := drop_of_append d1 rfl
    exact drop_of_append (a := [93]) this rfl
  have b1 := _jsonbuild_objItems [120] (by simp) plain_of_bytes_x f json 1 1 _ (by omega)
    vs hvs hv d1
  have b0 : _jsonbuild (f + vs.length + 3 + 2) json 0 0
      = .ok (.mk .NULL (arrchain [120] 0 vs) true [48] none, 1 + L + 1) := by
    rw [_jsonbuild, _jsonbuild_loop]
    simp [d0, skipspace, rd_eq, skipcolon, skipcomma, isspace, b1, d2]
    rfl
  unfold jsonset
  rw [hf, b0]

/-- C2: for every non-empty list `vs` of non-empty strings without NUL, double quote or
backslash, `jsonset` succeeds on the bare array `[{"x":"v_0"},...,{"x":"v_{n-1}"}]`;
`jsonget` then answers `v_i` at `/i/x` for `i < n`, and NULL at `/i/x` for every `i ≥ n`
and at every zero-padded index (a `0` followed by further digits). -/
theorem jsonget_arrayText (jh0 : IJSON) (vs : List (List Nat)) (hn : 1 ≤ vs.length)
    (hv : ∀ v ∈ vs, v ≠ [] ∧ plain v) :
    ∃ jh, jsonset jh0 (arrayText vs) = .ok (jh, true) ∧
      (∀ (i : Nat) (h : i < vs.length),
        jsonget jh (bytes "/" ++ decimal i ++ bytes "/x") = some (vs.get ⟨i, h⟩)) ∧
      (∀ i : Nat, vs.length ≤ i → jsonget jh (bytes "/" ++ decimal i ++ bytes "/x") = none) ∧
      (∀ d : List Nat, d ≠ [] → (∀ c ∈ d, isdigit c = true) →
        jsonget jh (bytes "/" ++ (48 :: d) ++ bytes "/x") = none) := by
  refine ⟨_, jsonset_arrayText jh0 vs hn hv, ?_, ?_, ?_⟩
  · intro i h
    have hs := jsonget_search_arrchain_some [120] vs 0 i h
    rw [Nat.zero_add] at hs
    show jsonget _ ([47] ++ decimal i ++ [47, 120]) = _
    simpa [jsonget] using hs
  · intro i hi
    have hs := jsonget_search_arrchain_none [120] vs 0 (decimal i) [120] (decimal_no_slash i)
      (fun j hj hh => by have := decimal_inj hh; omega)
    show jsonget _ ([47] ++ decimal i ++ [47, 120]) = _
    simpa [jsonget] using hs
  · intro d hd hdig
    have hs := jsonget_search_arrchain_none [120] vs 0 (48 :: d) [120]
      (fun c hc => by
        simp at hc
        rcases hc with rfl | hc
        · decide
        · have := hdig c hc
          simp [isdigit] at this
          omega)
      (fun j _ hh => hd (decimal_head_zero _ d hh))
    show jsonget _ ([47] ++ (48 :: d) ++ [47, 120]) = _
    simpa [jsonget] using hs

/-- C2 witness: the two-element array of the specification, index `0` and index `00`. -/
theorem jsonget_arrayText_witness :
    arrayText [bytes "1", bytes "2"] = bytes "[\x7b\"x\":\"1\"\x7d,\x7b\"x\":\"2\"\x7d]" ∧
    ∃ jh, jsonset ⟨.NULL⟩ (arrayText [bytes "1", bytes "2"]) = .ok (jh, true) ∧
      (∀ (i : Nat) (h : i < [bytes "1", bytes "2"].length),
        jsonget jh (bytes "/" ++ decimal i ++ bytes "/x")
          = some ([bytes "1", bytes "2"].get ⟨i, h⟩)) ∧
      (∀ i : Nat, [bytes "1", bytes "2"].length ≤ i →
        jsonget jh (bytes "/" ++ decimal i ++ bytes "/x") = none) ∧
      (∀ d : List Nat, d ≠ [] → (∀ c ∈ d, isdigit c = true) →
        jsonget jh (bytes "/" ++ (48 :: d) ++ bytes "/x") = none) :=
  ⟨by decide, jsonget_arrayText ⟨.NULL⟩ [bytes "1", bytes "2"] (by decide) (by
    intro v hv
    simp at hv
    rcases hv with rfl | rfl <;>
      exact ⟨by decide, by intro c hc; simp [bytes] at hc; subst hc; decide⟩)⟩

set_option maxRecDepth 100000 in
/-- C3 (evaluation at the failing input): on `HTTP/1.1 200 OK`, `Content-Length: 5`, a
blank line and the body `hello`, followed by the end of the stream, `_httpc_getresponse`
returns 200 with a NULL response and length 0: the unterminated last line is never
appended. -/
theorem _httpc_getresponse_hello :
    _httpc_getresponse
        (delivers (bytes "HTTP/1.1 200 OK\r\nContent-Length: 5\r\n\r\nhello")) none 0
      = .ok (200, none, 0) := by
  decide

set_option maxRecDepth 100000 in
/-- C4 (evaluation at the failing input): for the chunks `a\n` and `b`, sent as
`2\r\na\n\r\n1\r\nb\r\n0\r\n\r\n` after headers with `Transfer-Encoding: Chunked`,
`_httpc_getresponse` returns the body `a\n` only: the `\r\n` that closes the first chunk
is read as a chunk size of 0. -/
theorem _httpc_getresponse_chunk_newline :
    chunkedBody [bytes "a\n", bytes "b"] = bytes "2\r\na\n\r\n1\r\nb\r\n0\r\n\r\n" ∧
    _httpc_getresponse
        (delivers (bytes "HTTP/1.1 200 OK\r\nTransfer-Encoding: Chunked\r\n\r\n"
          ++ chunkedBody [bytes "a\n", bytes "b"])) none 0
      = .ok (200, some (bytes "a\n"), 2) := by
  decide

set_option maxRecDepth 100000 in
/-- The single chunk `abc` of the specification is reassembled. -/
theorem _httpc_getresponse_chunk_abc :
    _httpc_getresponse
        (delivers (bytes "HTTP/1.1 200 OK\r\nTransfer-Encoding: Chunked\r\n\r\n"
          ++ chunkedBody [bytes "abc"])) none 0
      = .ok (200, some (bytes "abc"), 3) := by
  decide

set_option maxRecDepth 100000 in
/-- C6 (evaluation at the failing input): when the first four exchanges redirect and the
fifth answers 200 with the body `ok`, `httpsend` makes five calls and returns 500. -/
theorem httpsend_fifth_answer :
    httpsend movedFourTimes .GET (bytes "http://a/") none none none
      = .ok ⟨500, some (bytes "ok"), 2,
          [⟨.GET, some (bytes "http://a/"), none, none, none⟩,
           ⟨.GET, some (bytes "http://x/y"), none, none, none⟩,
           ⟨.GET, some (bytes "http://x/y"), none, none, none⟩,
           ⟨.GET, some (bytes "http://x/y"), none, none, none⟩,
           ⟨.GET, some (bytes "http://x/y"), none, none, none⟩]⟩ := by
  decide

/-- C7 (evaluation at the failing input): where plain `char` is signed, the byte `0xE9` is
printed by `%02X` as `FFFFFFE9`, which with the `%` and the terminator needs ten bytes of
the four-byte `buf`. -/
theorem httpencode_high_byte :
    sprintf_pct02X (charValue true 233) = bytes "%FFFFFFE9" ∧
    httpencode true [233] (List.replicate 16 0) 16 = .error .oob := by
  decide

/-- The redirect loop when every exchange answers 3xx with a non-empty body. -/
theorem httpsend_loop_redirects (exchange : Nat → Call → Int × Option (List Nat) × Int)
    (type : http_type) (oa2token encoding request : Option (List Nat))
    (h : ∀ n call, 300 ≤ (exchange n call).1 ∧ (exchange n call).1 ≤ 399 ∧
      ∃ b, b ≠ [] ∧ (exchange n call).2.1 = some b ∧ (exchange n call).2.2 = b.length)
    (fuel : Nat) : ∀ (n : Nat) (urlbuf : Option (List Nat)) (calls : List Call),
      n + fuel = 5 → 1 ≤ fuel →
      ∃ s, httpsend_loop exchange type oa2token encoding request fuel n urlbuf calls = .ok s ∧
        s.code = 500 ∧
        s.calls = calls ++ redirectCalls exchange type oa2token encoding request fuel n urlbuf := by
  induction fuel with
  | zero => intro n urlbuf calls _ h1; omega
  | succ fuel ih =>
    intro n urlbuf calls hn _
    obtain ⟨h300, h399, b, hb, hresp, hlen⟩ := h n ⟨type, urlbuf, oa2token, encoding, request⟩
    rcases hx : exchange n ⟨type, urlbuf, oa2token, encoding, request⟩ with ⟨r, response, len⟩
    rw [hx] at h300 h399 hresp hlen
    simp only at h300 h399 hresp hlen
    have hpos : len > 0 := by
      rw [hlen]
      have : 0 < b.length := List.length_pos.mpr hb
      omega
    rcases fuel with _ | fuel
    · have h5 : n + 1 = 5 := by omega
      refine ⟨⟨500, response, len, calls ++ [⟨type, urlbuf, oa2token, encoding, request⟩]⟩, ?_,
        rfl, ?_⟩
      · simp [httpsend_loop, hx, h300, h399, h5]
      · simp [redirectCalls]
    · have hlt : n + 1 < 5 := by omega
      obtain ⟨s, hs, hcode, hcalls⟩ := ih (n + 1) (some (cstr b))
        (calls ++ [⟨type, urlbuf, oa2token, encoding, request⟩]) (by omega) (by omega)
      refine ⟨s, ?_, hcode, ?_⟩
      · rw [httpsend_loop]
        simp [hx, h300, h399, hlt, hresp, hpos, hs]
      · rw [hcalls]
        conv_rhs => rw [redirectCalls]
        simp [hx, hresp]

/-- C5: if every exchange answers with a 3xx code and a non-empty response body (the
captured Location), `httpsend` returns 500 after exactly five `_httpc_httpsend` calls, the
first to the caller's URL and each later one to the string the previous call left in the
response buffer. -/
theorem httpsend_redirect_cap (exchange : Nat → Call → Int × Option (List Nat) × Int)
    (type : http_type) (url : List Nat) (oa2token encoding request : Option (List Nat))
    (h : ∀ n call, 300 ≤ (exchange n call).1 ∧ (exchange n call).1 ≤ 399 ∧
      ∃ b, b ≠ [] ∧ (exchange n call).2.1 = some b ∧ (exchange n call).2.2 = b.length) :
    ∃ s, httpsend exchange type url oa2token encoding request = .ok s ∧
      s.code = 500 ∧ s.calls.length = 5 ∧
      s.calls = redirectCalls exchange type oa2token encoding request 5 0 (some (cstr url)) := by
  obtain ⟨s, hs, hcode, hcalls⟩ := httpsend_loop_redirects exchange type oa2token encoding
    request h 5 0 (some (cstr url)) [] rfl (by omega)
  refine ⟨s, hs, hcode, ?_, by simpa using hcalls⟩
  rw [hcalls]
  simp [redirectCalls]

set_option maxRecDepth 100000 in
theorem _httpc_getresponse_moved :
    _httpc_getresponse
        (delivers (bytes "HTTP/1.1 301 Moved\r\nLocation: http://x/y\r\n\r\n")) none 0
      = .ok (301, some (bytes "http://x/y"), 10) := by
  decide

theorem alwaysMoved_eq (n : Nat) (call : Call) :
    alwaysMoved n call = (301, some (bytes "http://x/y"), 10) := by
  unfold alwaysMoved
  rw [_httpc_getresponse_moved]

/-- C5 witness: a transport that always answers
`HTTP/1.1 301 Moved\r\nLocation: http://x/y\r\n\r\n`. -/
theorem httpsend_redirect_cap_witness :
    ∃ s, httpsend alwaysMoved .GET (bytes "http://a/") none none none = .ok s ∧
      s.code = 500 ∧ s.calls.length = 5 ∧
      s.calls = redirectCalls alwaysMoved .GET none none none 5 0
        (some (cstr (bytes "http://a/"))) :=
  httpsend_redirect_cap alwaysMoved .GET (bytes "http://a/") none none none (by
    intro n call
    rw [alwaysMoved_eq]
    exact ⟨by decide, by decide, bytes "http://x/y", by decide, rfl, by decide⟩)

/-- Writing `vs` at `i` inside the buffer replaces exactly those bytes. -/
theorem pokes_eq (vs : List Nat) : ∀ (mem : List Nat) (i : Nat), i + vs.length ≤ mem.length →
    pokes mem i vs = .ok (mem.take i ++ vs ++ mem.drop (i + vs.length)) := by
  induction vs with
  | nil => intro mem i _; simp [pokes]
  | cons v vs ih =>
    intro mem i h
    have hi : i < mem.length := by simp at h; omega
    have hlen : i + 1 + vs.length ≤ (mem.set i v).length := by simp at h ⊢; omega
    rw [pokes, if_pos hi, ih _ _ hlen]
    congr 1
    rw [List.set_eq_take_append_cons_drop, if_pos hi]
    have e1 : (mem.take i ++ v :: mem.drop (i + 1)).take (i + 1) = mem.take i ++ [v] := by
      rw [List.take_append_eq_append_take]
      simp [List.length_take, Nat.min_eq_left (Nat.le_of_lt hi)]
    have e2 : (mem.take i ++ v :: mem.drop (i + 1)).drop (i + 1 + vs.length)
        = mem.drop (i + (v :: vs).length) := by
      rw [List.drop_append_eq_append_drop]
      simp [List.length_take, Nat.min_eq_left (Nat.le_of_lt hi)]
      have : i + 1 + vs.length - i = vs.length + 1 := by omega
      rw [List.drop_eq_nil_of_le (by simp; omega), this]
      simp [List.drop_drop]
      congr 1; omega
    rw [e1, e2]
    simp

theorem hexdigit_ne_zero (d : Nat) : hexdigit d ≠ 0 := by
  unfold hexdigit; split <;> omega

/-- For a byte below 128 `%02X` prints two digits, whatever the signedness of `char`. -/
theorem sprintf_pct02X_ascii (charSigned : Bool) (c : Nat) (hc : c < 128) :
    sprintf_pct02X (charValue charSigned c) = [37, hexdigit (c / 16), hexdigit (c % 16)] := by
  have hv : charValue charSigned c = (c : Int) := by
    unfold charValue
    have : ¬ 128 ≤ c := by omega
    simp [this]
  have hm : ((c : Int) % 4294967296).toNat = c := by omega
  rw [hv]
  unfold sprintf_pct02X
  rw [hm]
  by_cases h16 : c < 16
  · have h0 : c / 16 = 0 := by omega
    have h1 : c % 16 = c := by omega
    simp [hexFuel, h16, h0, h1, hexdigit]
  · have h2 : c / 16 < 16 := by omega
    simp [hexFuel, h16, h2]

theorem percentEncoding_cons (c : Nat) (src : List Nat) :
    percentEncoding (c :: src)
      = (if isalnum c then [c] else [37, hexdigit (c / 16), hexdigit (c % 16)])
        ++ percentEncoding src := by
  simp [percentEncoding]

theorem percentEncoding_append (a b : List Nat) :
    percentEncoding (a ++ b) = percentEncoding a ++ percentEncoding b := by
  simp [percentEncoding]

theorem percentEncoding_nonzero (src : List Nat) (hsrc : ∀ c ∈ src, 1 ≤ c) :
    ∀ c ∈ percentEncoding src, c ≠ 0 := by
  induction src with
  | nil => simp [percentEncoding]
  | cons a src ih =>
    intro c hc
    rw [percentEncoding_cons, List.mem_append] at hc
    rcases hc with hc | hc
    · have ha := hsrc a (by simp)
      split at hc
      · simp at hc; omega
      · simp at hc
        rcases hc with rfl | rfl | rfl
        · decide
        · exact hexdigit_ne_zero _
        · exact hexdigit_ne_zero _
    · exact ih (fun c hc => hsrc c (by simp [hc])) c hc

/-- A write that fits: the buffer keeps its size, and up to any point inside the written
bytes it holds what was there before followed by the new bytes. -/
theorem pokes_ok (vs mem : List Nat) (i : Nat) (h : i + vs.length ≤ mem.length) :
    ∃ mem', pokes mem i vs = .ok mem' ∧ mem'.length = mem.length ∧
      ∀ j, j ≤ vs.length → mem'.take (i + j) = mem.take i ++ vs.take j := by
  refine ⟨_, pokes_eq vs mem i h, ?_, ?_⟩
  · simp; omega
  · intro j hj
    have hi : i ≤ mem.length := by omega
    rw [List.append_assoc, List.take_append_eq_append_take, List.take_append_eq_append_take]
    simp [List.length_take, Nat.min_eq_left hi]
    have h1 : j - vs.length = 0 := by omega
    have h2 : (mem.take i).take (i + j) = mem.take i := by
      rw [List.take_take]; congr 1; omega
    rw [h1, h2]; simp

/-- The copy loop of `httpencode` on ASCII input, inside a buffer of `M` bytes. -/
theorem httpencode_loop_ascii (charSigned : Bool) (M : Nat) (src : List Nat)
    (hsrc : ∀ c ∈ src, 1 ≤ c ∧ c ≤ 127) :
    ∀ (dst : List Nat) (di : Nat), dst.length = M → di < M →
      ∃ dst' k, httpencode_loop charSigned (M : Int) src dst di
          = .ok (dst', di + (percentEncoding (src.take k)).length) ∧
        dst'.length = M ∧ di + (percentEncoding (src.take k)).length < M ∧ k ≤ src.length ∧
        dst'.take (di + (percentEncoding (src.take k)).length)
          = dst.take di ++ percentEncoding (src.take k) ∧
        (di + 3 * src.length + 5 < M → k = src.length) := by
  induction src with
  | nil =>
    intro dst di hlen hdi
    exact ⟨dst, 0, by simp [httpencode_loop, percentEncoding], hlen,
      by simpa [percentEncoding] using hdi, by simp, by simp [percentEncoding], fun _ => rfl⟩
  | cons c src ih =>
    intro dst di hlen hdi
    have hc := hsrc c (by simp)
    have hc0 : c ≠ 0 := by omega
    have hsrc' : ∀ x ∈ src, 1 ≤ x ∧ x ≤ 127 := fun x hx => hsrc x (by simp [hx])
    by_cases hroom : di + 5 < M
    · have hcond : (di : Int) < (M : Int) - 5 ∧ c ≠ 0 := ⟨by omega, hc0⟩
      by_cases hal : isalnum c = true
      · obtain ⟨dst1, hp, hl1, ht1⟩ := pokes_ok [c] dst di (by simp; omega)
        obtain ⟨dst', k, hrun, hl, hlt, hk, htake, hfull⟩ :=
          ih hsrc' dst1 (di + 1) (by omega) (by omega)
        have hE : percentEncoding ((c :: src).take (k + 1))
            = [c] ++ percentEncoding (src.take k) := by
          rw [List.take_succ_cons, percentEncoding_cons, if_pos hal]
        have e : di + ([c] ++ percentEncoding (src.take k)).length
            = di + 1 + (percentEncoding (src.take k)).length := by simp; omega
        refine ⟨dst', k + 1, ?_, hl, ?_, by simpa using hk, ?_, ?_⟩
        · rw [httpencode_loop, if_pos hcond, if_pos hal, hp, hE, e]
          exact hrun
        · rw [hE, e]; exact hlt
        · rw [hE, e, htake, ht1 1 (by simp)]; simp
        · intro hM
          simp at hM ⊢
          exact hfull (by omega)
      · have hbuf := sprintf_pct02X_ascii charSigned c (by omega)
        obtain ⟨dst1, hp, hl1, ht1⟩ :=
          pokes_ok [37, hexdigit (c / 16), hexdigit (c % 16), 0] dst di (by simp; omega)
        obtain ⟨dst', k, hrun, hl, hlt, hk, htake, hfull⟩ :=
          ih hsrc' dst1 (di + 3) (by omega) (by omega)
        have hE : percentEncoding ((c :: src).take (k + 1))
            = [37, hexdigit (c / 16), hexdigit (c % 16)] ++ percentEncoding (src.take k) := by
          rw [List.take_succ_cons, percentEncoding_cons, if_neg hal]
        have e : di + ([37, hexdigit (c / 16), hexdigit (c % 16)]
              ++ percentEncoding (src.take k)).length
            = di + 3 + (percentEncoding (src.take k)).length := by simp; omega
        refine ⟨dst', k + 1, ?_, hl, ?_, by simpa using hk, ?_, ?_⟩
        · rw [httpencode_loop, if_pos hcond, if_neg hal, hE, e]
          have hb4 : ¬ ((sprintf_pct02X (charValue charSigned c) ++ [0]).length > 4) := by
            rw [hbuf]; simp
          simp only [hb4, if_false]
          rw [hbuf]
          show (match pokes dst di [37, hexdigit (c / 16), hexdigit (c % 16), 0] with
            | Except.error e => Except.error e
            | Except.ok dst => httpencode_loop charSigned (M : Int) src dst (di + 3)) = _
          rw [hp]
          exact hrun
        · rw [hE, e]; exact hlt
        · rw [hE, e, htake, ht1 3 (by simp)]; simp
        · intro hM
          simp at hM ⊢
          exact hfull (by omega)
    · have hcond : ¬ ((di : Int) < (M : Int) - 5 ∧ c ≠ 0) := by
        intro h; omega
      refine ⟨dst, 0, ?_, hlen, by simpa [percentEncoding] using hdi, by simp,
        by simp [percentEncoding], ?_⟩
      · rw [httpencode_loop, if_neg hcond]; simp [percentEncoding]
      · intro hM; simp at hM; omega

/-- `httpencode` on ASCII input in a buffer of `maxdst ≥ 1` bytes: no write leaves the
buffer, and the string left is the encoding of the first `k` bytes of `src`. -/
theorem httpencode_ascii (charSigned : Bool) (src dst : List Nat) (maxdst : Nat)
    (hsrc : ∀ c ∈ src, 1 ≤ c ∧ c ≤ 127) (hmax : 1 ≤ maxdst) (hdst : dst.length = maxdst) :
    ∃ dst' k, httpencode charSigned src dst (maxdst : Int) = .ok (dst', 1) ∧
      dst'.length = maxdst ∧ k ≤ src.length ∧
      (percentEncoding (src.take k)).length < maxdst ∧
      cstr dst' = percentEncoding (src.take k) ∧
      (3 * src.length + 6 ≤ maxdst → k = src.length) := by
  obtain ⟨dst0, hp0, hl0, _⟩ := pokes_ok [0] dst 0 (by simp; omega)
  obtain ⟨dst1, k, hrun, hl1, hlt, hk, htake, hfull⟩ :=
    httpencode_loop_ascii charSigned maxdst src hsrc dst0 0 (by omega) (by omega)
  simp only [Nat.zero_add, List.take_zero, List.nil_append] at hrun hlt htake hfull
  have hp1 := pokes_eq [0] dst1 (percentEncoding (src.take k)).length (by simp; omega)
  refine ⟨dst1.take (percentEncoding (src.take k)).length ++ [0]
      ++ dst1.drop ((percentEncoding (src.take k)).length + [0].length), k, ?_, ?_, hk, hlt, ?_,
    fun h => hfull (by omega)⟩
  · unfold httpencode
    rw [hp0]
    simp only [hrun, hp1]
  · simp; omega
  · rw [htake]
    simp only [List.append_assoc, List.singleton_append]
    exact cstr_of_nonzero
      (percentEncoding_nonzero _ (fun c hc => (hsrc c (List.mem_of_mem_take hc)).1)) _

/-- C8: for every ASCII source string (bytes 1..127), either signedness of `char`, and
every buffer of `maxdst ≥ 1` bytes, `httpencode` returns true without writing at any index
`≥ maxdst` (such a write is a fault of the model), the terminator included, and the string
it leaves in `dst` is the full encoding of a prefix of `src`, hence a prefix of the full
encoding that ends on a unit boundary. -/
theorem httpencode_truncates (charSigned : Bool) (src dst : List Nat) (maxdst : Nat)
    (hsrc : ∀ c ∈ src, 1 ≤ c ∧ c ≤ 127) (hmax : 1 ≤ maxdst) (hdst : dst.length = maxdst) :
    ∃ dst' k, httpencode charSigned src dst (maxdst : Int) = .ok (dst', 1) ∧
      dst'.length = maxdst ∧ k ≤ src.length ∧
      (cstr dst').length < maxdst ∧
      cstr dst' = percentEncoding (src.take k) ∧
      cstr dst' <+: percentEncoding src := by
  obtain ⟨dst', k, hrun, hl, hk, hlt, hstr, _⟩ :=
    httpencode_ascii charSigned src dst maxdst hsrc hmax hdst
  refine ⟨dst', k, hrun, hl, hk, by rw [hstr]; exact hlt, hstr, ?_⟩
  rw [hstr]
  conv_rhs => rw [← List.take_append_drop k src, percentEncoding_append]
  exact List.prefix_append _ _

/-- C8 witness: `a b&c` in a buffer of eight bytes is cut after `a%20`. -/
theorem httpencode_truncates_witness :
    (∃ dst' k, httpencode true (bytes "a b&c") (List.replicate 8 0) ((8 : Nat) : Int)
        = .ok (dst', 1) ∧
      dst'.length = 8 ∧ k ≤ (bytes "a b&c").length ∧
      (cstr dst').length < 8 ∧
      cstr dst' = percentEncoding ((bytes "a b&c").take k) ∧
      cstr dst' <+: percentEncoding (bytes "a b&c")) ∧
    httpencode true (bytes "a b&c") (List.replicate 8 0) 8
      = .ok (bytes "a%20" ++ [0, 0, 0, 0], 1) :=
  ⟨httpencode_truncates true (bytes "a b&c") (List.replicate 8 0) 8 (by decide) (by decide)
    (by decide), by decide⟩

/-- The ASCII part of C7: with `maxdst ≥ 3*len(src)+6` the whole of an ASCII string is
encoded. -/
theorem httpencode_ample (charSigned : Bool) (src dst : List Nat) (maxdst : Nat)
    (hsrc : ∀ c ∈ src, 1 ≤ c ∧ c ≤ 127) (hmax : 3 * src.length + 6 ≤ maxdst)
    (hdst : dst.length = maxdst) :
    ∃ dst', httpencode charSigned src dst (maxdst : Int) = .ok (dst', 1) ∧
      cstr dst' = percentEncoding src := by
  obtain ⟨dst', k, hrun, _, _, _, hstr, hfull⟩ :=
    httpencode_ascii charSigned src dst maxdst hsrc (by omega) hdst
  refine ⟨dst', hrun, ?_⟩
  rw [hstr, hfull hmax, List.take_length]

/-- The example of the specification: `a b&c` gives `a%20b%26c`. -/
theorem httpencode_ample_witness :
    ∃ dst', httpencode true (bytes "a b&c") (List.replicate 32 0) ((32 : Nat) : Int)
        = .ok (dst', 1) ∧
      cstr dst' = percentEncoding (bytes "a b&c") :=
  httpencode_ample true (bytes "a b&c") (List.replicate 32 0) 32 (by decide) (by decide)
    (by decide)

/-- `strncasecmp` against a lower-case literal over its whole length. -/
theorem strncasecmp_lit (lit : List Nat) (hl : ∀ c ∈ lit, tolower c = c ∧ c ≠ 0) :
    ∀ url : List Nat, strncasecmp url lit lit.length = 0 ↔
      ∃ p rest, url = p ++ rest ∧ p.map tolower = lit := by
  induction lit with
  | nil =>
    intro url
    simp [strncasecmp]
  | cons l lit ih =>
    intro url
    have hl0 := hl l (by simp)
    have ih' := ih (fun c hc => hl c (by simp [hc]))
    rcases url with _ | ⟨a, u⟩
    · have h0 : tolower 0 = 0 := by decide
      have hne : (0 : Nat) ≠ l := fun h => hl0.2 h.symm
      constructor
      · intro h
        simp [strncasecmp, h0, hl0.1, hne] at h
        omega
      · rintro ⟨p, rest, hp, hm⟩
        rcases p with _ | ⟨x, p⟩
        · simp at hm
        · simp at hp
    · by_cases hal : tolower a = l
      · have hne : tolower a ≠ 0 := by rw [hal]; exact hl0.2
        have := ih' u
        simp only [List.length_cons, strncasecmp, List.headD_cons, hl0.1, hal, ne_eq,
          not_true_eq_false, if_false, List.tail_cons]
        rw [if_neg (by rw [← hal]; exact hne)]
        rw [this]
        constructor
        · rintro ⟨p, rest, hp, hm⟩
          exact ⟨a :: p, rest, by simp [hp], by simp [hal, hm]⟩
        · rintro ⟨p, rest, hp, hm⟩
          rcases p with _ | ⟨x, p⟩
          · simp at hm
          · simp at hp hm
            exact ⟨p, rest, hp.2, hm.2⟩
      · constructor
        · intro h
          simp [strncasecmp, hl0.1, hal] at h
          omega
        · rintro ⟨p, rest, hp, hm⟩
          rcases p with _ | ⟨x, p⟩
          · simp at hm
          · simp at hp hm
            exact absurd (hp.1 ▸ hm.1) hal

theorem http_lit : ∀ c ∈ bytes "http://", tolower c = c ∧ c ≠ 0 := by decide
theorem https_lit : ∀ c ∈ bytes "https://", tolower c = c ∧ c ≠ 0 := by decide

theorem beginsNoCase_iff (url lit : List Nat) (hl : ∀ c ∈ lit, tolower c = c ∧ c ≠ 0) :
    beginsNoCase url lit ↔ strncasecmp url lit lit.length = 0 := by
  rw [strncasecmp_lit lit hl]
  have : lit.map tolower = lit := by
    conv_rhs => rw [← List.map_id lit]
    exact List.map_congr_left (fun c hc => by simpa using (hl c hc).1)
  unfold beginsNoCase
  rw [this]

theorem _httpc_parsehost_none_iff (url : List Nat) :
    _httpc_parsehost url = none ↔
      ¬ (beginsNoCase url (bytes "http://") ∨ beginsNoCase url (bytes "https://")) := by
  rw [beginsNoCase_iff _ _ http_lit, beginsNoCase_iff _ _ https_lit]
  show _ ↔ ¬ (strncasecmp url (bytes "http://") 7 = 0 ∨ strncasecmp url (bytes "https://") 8 = 0)
  unfold _httpc_parsehost
  by_cases h1 : strncasecmp url (bytes "http://") 7 = 0
  · simp [h1]
  · by_cases h2 : strncasecmp url (bytes "https://") 8 = 0
    · simp [h1, h2]
    · simp [h1, h2]

/-- Splitting at the first byte that fails the test. -/
theorem span_stop (f : Nat → Bool) (h X : List Nat) (hh : ∀ c ∈ h, f c = true)
    (hX : ∀ x ∈ X.head?, f x = false) :
    (h ++ X).takeWhile f = h ∧ (h ++ X).dropWhile f = X := by
  induction h with
  | nil =>
    rcases X with _ | ⟨x, X⟩
    · simp
    · have := hX x (by simp)
      simp [List.takeWhile, List.dropWhile, this]
  | cons a h ih =>
    have ha := hh a (by simp)
    have := ih (fun c hc => hh c (by simp [hc]))
    simp [List.takeWhile, List.dropWhile, ha, this]

theorem cstr_append (a b : List Nat) (ha : ∀ c ∈ a, c ≠ 0) : cstr (a ++ b) = a ++ cstr b := by
  induction a with
  | nil => rfl
  | cons x a ih =>
    have hx := ha x (by simp)
    have := ih (fun c hc => ha c (by simp [hc]))
    simp [cstr, hx] at this ⊢
    exact this

theorem foldl_decimal_int (n : Nat) :
    (decimal n).foldl (fun (acc : Int) (c : Nat) => acc * 10 + ((c : Int) - 48)) 0 = (n : Int) := by
  induction n using Nat.strong_induction_on with
  | _ n ih =>
    rw [decimal_rec]
    split
    · simp
    · rw [List.foldl_append, ih (n / 10) (by omega)]
      simp; omega

theorem decimal_isdigit (n : Nat) : ∀ c ∈ decimal n, isdigit c = true := by
  intro c hc
  have := decimal_digits n c hc
  simp [isdigit]; omega

/-- `atoi` reads back a number below `2^31` printed in decimal and followed by a byte
that is not a digit (or by nothing). -/
theorem atoi_decimal (p : Nat) (hp : p < 2147483648) (Q : List Nat)
    (hQ : ∀ x ∈ Q.head?, isdigit x = false) : atoi (decimal p ++ Q) = (p : Int) := by
  rcases hd : decimal p with _ | ⟨d, ds⟩
  · exact absurd hd (decimal_ne_nil p)
  · have hdig := decimal_digits p d (by simp [hd])
    have hsp : isspace d = false := by simp [isspace]; omega
    have h45 : d ≠ 45 := by omega
    have h43 : d ≠ 43 := by omega
    have htw := (span_stop isdigit (decimal p) Q (decimal_isdigit p) hQ).1
    have hf := foldl_decimal_int p
    rw [hd] at htw hf
    have htw' : List.takeWhile isdigit (d :: (ds ++ Q)) = d :: ds := by simpa using htw
    unfold atoi
    simp only [List.cons_append]
    rw [show List.dropWhile isspace (d :: (ds ++ Q)) = d :: (ds ++ Q) by
      simp [List.dropWhile, hsp]]
    simp only [List.head?_cons]
    have c45 : (some d == some 45) = false := by simp [h45]
    have c43 : (some d == some 43) = false := by simp [h43]
    simp only [c45, c43, Bool.or_self, Bool.false_eq_true, if_false, htw', hf]
    simp [toInt32]
    omega

theorem tolower_eq_zero {c : Nat} (h : tolower c = 0) : c = 0 := by
  unfold tolower at h
  split at h <;> omega

theorem nonzero_of_map_tolower {p lit : List Nat} (hp : p.map tolower = lit)
    (hl : ∀ c ∈ lit, tolower c = c ∧ c ≠ 0) : ∀ c ∈ p, c ≠ 0 := by
  intro c hc h0
  have : tolower c ∈ lit := by rw [← hp]; exact List.mem_map_of_mem _ hc
  exact (hl _ this).2 (by rw [h0]; decide)

/-- A URL that begins with `https://` (in any letter case) fails the `http://` test. -/
theorem strncasecmp_http_of_https (p X : List Nat) (hp : p.map tolower = bytes "https://") :
    strncasecmp (p ++ X) (bytes "http://") 7 ≠ 0 := by
  intro h
  have h7 : (bytes "http://").length = 7 := by decide
  rw [← h7, strncasecmp_lit _ http_lit] at h
  obtain ⟨q, rest, hq, hm⟩ := h
  have hlq : q.length = 7 := by
    have := congrArg List.length hm
    simpa [h7] using this
  have hlp : p.length = 8 := by
    have := congrArg List.length hp
    simpa using this
  have e1 : (p ++ X).take 7 = p.take 7 := by
    rw [List.take_append_of_le_length (by omega)]
  have e2 : (q ++ rest).take 7 = q := by
    rw [List.take_append_of_le_length (by omega), List.take_of_length_le (by omega)]
  rw [hq, e2] at e1
  have : (p.take 7).map tolower = (bytes "https://").take 7 := by
    rw [← hp, List.map_take]
  rw [← e1, hm] at this
  revert this
  decide

/-- The URL parser on a URL made of a scheme, a host, an optional port and an optional
path. -/
theorem _httpc_parsehost_parts (p h : List Nat) (port : Option Nat) (Q : List Nat) (tls : Bool)
    (hp : (p.map tolower = bytes "http://" ∧ tls = false) ∨
          (p.map tolower = bytes "https://" ∧ tls = true))
    (hh : ∀ c ∈ h, c ≠ 58 ∧ c ≠ 47 ∧ c ≠ 0)
    (hport : ∀ n ∈ port, n < 2147483648)
    (hQ : ∀ x ∈ Q.head?, x = 47) (hQ0 : ∀ c ∈ Q, c ≠ 0) :
    _httpc_parsehost (p ++ h ++ portText port ++ Q)
      = some (h, tls, (port.map Int.ofNat).getD (if tls then 443 else 80),
          if Q = [] then bytes "/" else Q) := by
  set P : List Nat := portText port with hP
  have hP0 : ∀ c ∈ P, c ≠ 0 := by
    rcases port with _ | n
    · simp [hP, portText]
    · intro c hc
      simp [hP, portText] at hc
      rcases hc with rfl | hc
      · decide
      · have := decimal_digits n c hc; omega
  have hp0 : ∀ c ∈ p, c ≠ 0 := by
    rcases hp with ⟨hp, _⟩ | ⟨hp, _⟩
    · exact nonzero_of_map_tolower hp http_lit
    · exact nonzero_of_map_tolower hp https_lit
  have hurl0 : ∀ c ∈ p ++ h ++ P ++ Q, c ≠ 0 := by
    intro c hc
    simp only [List.mem_append] at hc
    rcases hc with ((hc | hc) | hc) | hc
    · exact hp0 c hc
    · exact (hh c hc).2.2
    · exact hP0 c hc
    · exact hQ0 c hc
  have hcstr : cstr (p ++ h ++ P ++ Q) = p ++ h ++ P ++ Q := cstr_self hurl0
  -- the host and what follows it
  have hstop : ∀ x ∈ (P ++ Q).head?, (fun c => !(c == 58 || c == 47)) x = false := by
    intro x hx
    rcases port with _ | n
    · simp [hP, portText] at hx
      have := hQ x (by simpa using hx)
      simp [this]
    · simp [hP, portText] at hx
      simp [← hx]
  have hspan := span_stop (fun c => !(c == 58 || c == 47)) h (P ++ Q)
    (fun c hc => by have := hh c hc; simp [this.1, this.2.1]) hstop
  -- the part after the host
  have htail : (if (P ++ Q).head? == some 58 then
        (atoi (P ++ Q).tail, (P ++ Q).tail.dropWhile (fun c => !(c == 47)))
      else ((if tls then 443 else 80 : Int), P ++ Q))
      = ((port.map Int.ofNat).getD (if tls then 443 else 80), Q) := by
    rcases port with _ | n
    · have : ¬ (Q.head? = some 58) := by
        intro hx
        have := hQ 58 (by simp [hx])
        omega
      simp [hP, portText, this]
    · have hn := hport n (by simp)
      have hat := atoi_decimal n hn Q (by
        intro x hx
        have := hQ x hx
        subst this; decide)
      have hdw := (span_stop (fun c => !(c == 47)) (decimal n) Q
        (fun c hc => by have := decimal_digits n c hc; simp; omega)
        (by intro x hx; have := hQ x hx; subst this; decide)).2
      simp [hP, portText, hat, hdw]
  have huri : (if Q == [] then bytes "/" else Q) = if Q = [] then bytes "/" else Q := by
    by_cases hq : Q = [] <;> simp [hq]
  rcases hp with ⟨hp, htls⟩ | ⟨hp, htls⟩
  · have hlp : p.length = 7 := by simpa using congrArg List.length hp
    have h1 : strncasecmp (p ++ h ++ P ++ Q) (bytes "http://") 7 = 0 := by
      have h7 : (bytes "http://").length = 7 := by decide
      rw [← h7, strncasecmp_lit _ http_lit]
      exact ⟨p, h ++ P ++ Q, by simp, hp⟩
    have hdrop : (p ++ h ++ P ++ Q).drop 7 = h ++ (P ++ Q) := by
      rw [← hlp]; simp
    subst htls
    unfold _httpc_parsehost
    simp only [h1, beq_self_eq_true, if_true, hcstr, hdrop, hspan.1, hspan.2]
    simp only [Bool.false_eq_true, if_false] at htail
    rw [htail]
    simp [huri]
  · have hlp : p.length = 8 := by simpa using congrArg List.length hp
    have h1 : strncasecmp (p ++ h ++ P ++ Q) (bytes "http://") 7 ≠ 0 := by
      have := strncasecmp_http_of_https p (h ++ P ++ Q) hp
      simpa using this
    have h2 : strncasecmp (p ++ h ++ P ++ Q) (bytes "https://") 8 = 0 := by
      have h8 : (bytes "https://").length = 8 := by decide
      rw [← h8, strncasecmp_lit _ https_lit]
      exact ⟨p, h ++ P ++ Q, by simp, hp⟩
    have hdrop : (p ++ h ++ P ++ Q).drop 8 = h ++ (P ++ Q) := by
      rw [← hlp]; simp
    subst htls
    unfold _httpc_parsehost
    have h1' : (strncasecmp (p ++ h ++ P ++ Q) (bytes "http://") 7 == 0) = false := by
      simpa using h1
    simp only [h1', h2, beq_self_eq_true, if_true, Bool.false_eq_true, if_false, hcstr, hdrop,
      hspan.1, hspan.2]
    simp only [if_true] at htail
    rw [htail]
    simp [huri]

/-- C9: `_httpc_parsehost` returns NULL exactly when the URL begins, letter case ignored,
with neither `http://` nor `https://`; and on a URL without explicit port (scheme, a host
free of `:` and `/`, then nothing or a path that starts with `/`) an `http` URL yields
port 80 with the TLS flag clear and an `https` URL port 443 with the TLS flag set. -/
theorem _httpc_parsehost_scheme (url : List Nat) :
    (_httpc_parsehost url = none ↔
      ¬ (beginsNoCase url (bytes "http://") ∨ beginsNoCase url (bytes "https://"))) ∧
    (∀ p h Q : List Nat, url = p ++ h ++ Q → (∀ c ∈ h, c ≠ 58 ∧ c ≠ 47 ∧ c ≠ 0) →
      (∀ x ∈ Q.head?, x = 47) → (∀ c ∈ Q, c ≠ 0) →
      (p.map tolower = bytes "http://" →
        ∃ host uri, _httpc_parsehost url = some (host, false, 80, uri)) ∧
      (p.map tolower = bytes "https://" →
        ∃ host uri, _httpc_parsehost url = some (host, true, 443, uri))) := by
  refine ⟨_httpc_parsehost_none_iff url, ?_⟩
  intro p h Q hurl hh hQ hQ0
  subst hurl
  constructor
  · intro hp
    have := _httpc_parsehost_parts p h none Q false (Or.inl ⟨hp, rfl⟩) hh (by simp) hQ hQ0
    simp only [portText, List.append_nil] at this
    exact ⟨_, _, this⟩
  · intro hp
    have := _httpc_parsehost_parts p h none Q true (Or.inr ⟨hp, rfl⟩) hh (by simp) hQ hQ0
    simp only [portText, List.append_nil] at this
    exact ⟨_, _, this⟩

/-- C9 witness: `ftp://x` is refused, `HTTPS://example.com/a` gives port 443 with TLS and
`http://example.com` port 80 without. -/
theorem _httpc_parsehost_scheme_witness :
    _httpc_parsehost (bytes "ftp://x") = none ∧
    (∃ host uri, _httpc_parsehost (bytes "HTTPS://" ++ bytes "example.com" ++ bytes "/a")
      = some (host, true, 443, uri)) ∧
    (∃ host uri, _httpc_parsehost (bytes "http://" ++ bytes "example.com" ++ [])
      = some (host, false, 80, uri)) :=
  ⟨(_httpc_parsehost_scheme (bytes "ftp://x")).1.mpr (by
      rw [beginsNoCase_iff _ _ http_lit, beginsNoCase_iff _ _ https_lit]
      decide),
    ((_httpc_parsehost_scheme _).2 (bytes "HTTPS://") (bytes "example.com") (bytes "/a") rfl
      (by decide) (by decide) (by decide)).2 (by decide),
    ((_httpc_parsehost_scheme _).2 (bytes "http://") (bytes "example.com") [] rfl
      (by decide) (by decide) (by decide)).1 (by decide)⟩

/-- C10: for a scheme `s` among `http://` and `https://`, a host `h` free of `:`, `/` and
NUL, an optional port `p < 2^31` written in decimal after `:`, and an optional NUL-free path
`q` that starts with `/`, `_httpc_parsehost` on `s ++ h ++ [":" ++ p] ++ [q]` returns the
host `h`, the port `p` when given and otherwise 80 or 443 by scheme, and the path `q` when
given and otherwise `/`. -/
theorem _httpc_parsehost_roundtrip (s h : List Nat) (p : Option Nat) (q : Option (List Nat))
    (hs : s = bytes "http://" ∨ s = bytes "https://")
    (hh : ∀ c ∈ h, c ≠ 58 ∧ c ≠ 47 ∧ c ≠ 0)
    (hp : ∀ n ∈ p, n < 2147483648)
    (hq : ∀ t ∈ q, t.head? = some 47 ∧ ∀ c ∈ t, c ≠ 0) :
    _httpc_parsehost (mkUrl s h p q)
      = some (h, decide (s = bytes "https://"),
          (p.map Int.ofNat).getD (if s = bytes "https://" then 443 else 80),
          q.getD (bytes "/")) := by
  have hQ : ∀ x ∈ (q.getD []).head?, x = 47 := by
    rcases q with _ | t
    · simp
    · intro x hx
      have := (hq t (by simp)).1
      simp [this] at hx
      exact hx.symm
  have hQ0 : ∀ c ∈ q.getD [], c ≠ 0 := by
    rcases q with _ | t
    · simp
    · exact (hq t (by simp)).2
  have huri : (if q.getD [] = [] then bytes "/" else q.getD []) = q.getD (bytes "/") := by
    rcases q with _ | t
    · simp
    · have := (hq t (by simp)).1
      have hne : t ≠ [] := by rintro rfl; simp at this
      simp [hne]
  rcases hs with rfl | rfl
  · have := _httpc_parsehost_parts (bytes "http://") h p (q.getD []) false
      (Or.inl ⟨by decide, rfl⟩) hh hp hQ hQ0
    rw [huri] at this
    have hd : decide (bytes "http://" = bytes "https://") = false := by decide
    have hne : ¬ (bytes "http://" = bytes "https://") := by decide
    rw [hd, if_neg hne]
    simpa [mkUrl] using this
  · have := _httpc_parsehost_parts (bytes "https://") h p (q.getD []) true
      (Or.inr ⟨by decide, rfl⟩) hh hp hQ hQ0
    rw [huri] at this
    simpa [mkUrl] using this

/-- C10 witness: `https://example.com:8443/a/b?c=d` and `http://example.com`. -/
theorem _httpc_parsehost_roundtrip_witness :
    mkUrl (bytes "https://") (bytes "example.com") (some 8443) (some (bytes "/a/b?c=d"))
      = bytes "https://example.com:8443/a/b?c=d" ∧
    _httpc_parsehost
        (mkUrl (bytes "https://") (bytes "example.com") (some 8443) (some (bytes "/a/b?c=d")))
      = some (bytes "example.com", decide (bytes "https://" = bytes "https://"),
          ((some 8443 : Option Nat).map Int.ofNat).getD
            (if bytes "https://" = bytes "https://" then 443 else 80),
          (some (bytes "/a/b?c=d")).getD (bytes "/")) :=
  ⟨by decide,
    _httpc_parsehost_roundtrip (bytes "https://") (bytes "example.com") (some 8443)
      (some (bytes "/a/b?c=d")) (Or.inr rfl) (by decide) (by decide) (by decide)⟩

/-- The redirect loop when the next `j` exchanges redirect and the one after them gives
the answer `(sc, body, len)` with `sc` outside 300..399. -/
theorem httpsend_loop_follows (exchange : Nat → Call → Int × Option (List Nat) × Int)
    (type : http_type) (oa2token encoding request : Option (List Nat))
    (sc : Int) (body : Option (List Nat)) (len : Int) (hsc : ¬ (300 ≤ sc ∧ sc ≤ 399))
    (fuel : Nat) : ∀ (n j : Nat) (urlbuf : Option (List Nat)) (calls : List Call),
      n + fuel = 5 → j + 1 ≤ fuel →
      (∀ i call, n ≤ i → i < n + j → 300 ≤ (exchange i call).1 ∧ (exchange i call).1 ≤ 399 ∧
        ∃ b, b ≠ [] ∧ (exchange i call).2.1 = some b ∧ (exchange i call).2.2 = b.length) →
      (∀ call, exchange (n + j) call = (sc, body, len)) →
      httpsend_loop exchange type oa2token encoding request fuel n urlbuf calls
        = .ok ⟨if n + j + 1 = 5 then 500 else sc, body, len,
            calls ++ redirectCalls exchange type oa2token encoding request (j + 1) n urlbuf⟩ := by
  induction fuel with
  | zero => intro n j urlbuf calls _ h1; omega
  | succ fuel ih =>
    intro n j urlbuf calls hn hj hred hlast
    rcases j with _ | j
    · have hx := hlast ⟨type, urlbuf, oa2token, encoding, request⟩
      simp only [Nat.add_zero] at hx ⊢
      rw [httpsend_loop]
      simp only [hx]
      have h3 : ¬ (300 ≤ sc ∧ sc ≤ 399 ∧ n + 1 < 5) := fun h => hsc ⟨h.1, h.2.1⟩
      rw [if_neg h3]
      by_cases h5 : n + 1 = 5 <;> simp [h5, redirectCalls]
    · obtain ⟨h300, h399, b, hb, hresp, hlen⟩ :=
        hred n ⟨type, urlbuf, oa2token, encoding, request⟩ (Nat.le_refl _) (by omega)
      rcases hx : exchange n ⟨type, urlbuf, oa2token, encoding, request⟩ with ⟨r, response, l⟩
      rw [hx] at h300 h399 hresp hlen
      simp only at h300 h399 hresp hlen
      have hpos : l > 0 := by
        rw [hlen]
        have : 0 < b.length := List.length_pos.mpr hb
        omega
      have hlt : n + 1 < 5 := by omega
      have hrec := ih (n + 1) j (some (cstr b))
        (calls ++ [⟨type, urlbuf, oa2token, encoding, request⟩]) (by omega) (by omega)
        (fun i call h1 h2 => hred i call (by omega) (by omega))
        (fun call => by rw [show n + 1 + j = n + (j + 1) by omega]; exact hlast call)
      rw [httpsend_loop]
      simp only [hx, h300, h399, hlt, hresp, hpos, and_self, if_true, Option.isSome_some,
        Option.getD_some, hrec]
      rw [show n + 1 + j + 1 = n + (j + 1) + 1 by omega]
      conv_rhs => rw [redirectCalls]
      simp [hx, hresp]

/-- Redirect following inside and at the limit: if the first `k-1` exchanges (`1 ≤ k ≤ 5`)
answer 3xx with a non-empty response body and the `k`-th gives `(sc, body, len)` with `sc`
outside 300..399, `httpsend` makes exactly the `k` calls of the redirect chain, all with the
caller's method, token, encoding and request, and leaves `body`; it returns `sc` when
`k ≤ 4` but 500 when `k = 5`. -/
theorem httpsend_follows (exchange : Nat → Call → Int × Option (List Nat) × Int)
    (type : http_type) (url : List Nat) (oa2token encoding request : Option (List Nat))
    (sc : Int) (body : Option (List Nat)) (len : Int) (hsc : ¬ (300 ≤ sc ∧ sc ≤ 399))
    (k : Nat) (hk1 : 1 ≤ k) (hk5 : k ≤ 5)
    (hred : ∀ i call, i < k - 1 → 300 ≤ (exchange i call).1 ∧ (exchange i call).1 ≤ 399 ∧
        ∃ b, b ≠ [] ∧ (exchange i call).2.1 = some b ∧ (exchange i call).2.2 = b.length)
    (hlast : ∀ call, exchange (k - 1) call = (sc, body, len)) :
    httpsend exchange type url oa2token encoding request
      = .ok ⟨if k = 5 then 500 else sc, body, len,
          redirectCalls exchange type oa2token encoding request k 0 (some (cstr url))⟩ := by
  obtain ⟨j, rfl⟩ : ∃ j, k = j + 1 := ⟨k - 1, by omega⟩
  have := httpsend_loop_follows exchange type oa2token encoding request sc body len hsc 5 0 j
    (some (cstr url)) [] rfl (by omega)
    (fun i call _ h2 => hred i call (by simpa using h2))
    (fun call => by simpa using hlast call)
  simpa [httpsend] using this

set_option maxRecDepth 100000 in
/-- C11 (evaluation at the failing input): when every exchange answers
`HTTP/1.1 301 Moved\r\nLocation: http://x/y\r\n\r\n`, `httpsend` returns 500 and leaves the
Location of the fifth answer in `*response`, with `*responselen = 10`. -/
theorem httpsend_limit_keeps_body :
    (httpsend alwaysMoved .GET (bytes "http://a/") none none none).map
        (fun s => (s.code, s.response, s.responselen))
      = .ok (500, some (bytes "http://x/y"), 10) := by
  decide

set_option maxRecDepth 100000 in
/-- C12 (evaluation at the failing input): on eleven `[`, the token `1` and eleven `]` the
twelfth call of `_jsonbuild` has `depth = 11` and takes `goto fail` before `teroot` is
initialised, so `_jsondeleteentry` is run on an indeterminate pointer. -/
theorem jsonset_nest_eleven :
    nestText 11 = bytes "[[[[[[[[[[[1]]]]]]]]]]]" ∧
    jsonset ⟨.NULL⟩ (nestText 11) = .error .uninit := by
  decide

set_option maxRecDepth 100000 in
/-- C13 (evaluation at the failing input): after parsing `{"a":{"b":"1"}}`, `jsonget` with
the path `/a/` returns `1`, the value of the first child of `a`. -/
theorem jsonget_trailing_slash :
    ∃ jh, jsonset ⟨.NULL⟩ (bytes "\x7b\"a\":\x7b\"b\":\"1\"\x7d\x7d") = .ok (jh, true) ∧
      jsonget jh (bytes "/a/") = some (bytes "1") :=
  ⟨⟨.mk .NULL (.mk .NULL (.mk .NULL .NULL false (bytes "b") (some (bytes "1"))) false
      (bytes "a") none) false (bytes "0") none⟩, by decide, by decide⟩

set_option maxRecDepth 100000 in
/-- C16 (evaluation at the failing input): on `{"a":` the scan of `_jsonfieldlen` starts at
the terminating NUL and reads the byte after it; on `{"a":""}` the scan of the empty string
runs on to that NUL and `_jsonbuild` then reads at the position after it. -/
theorem jsonset_reads_past_end :
    jsonset ⟨.NULL⟩ (bytes "\x7b\"a\":") = .error .oob ∧
    _jsonfieldlen [0] = .error .oob ∧
    jsonset ⟨.NULL⟩ (bytes "\x7b\"a\":\"\"\x7d") = .error .oob ∧
    _jsonfieldlen (bytes "\"\"\x7d" ++ [0]) = .ok 4 := by
  decide

set_option maxRecDepth 100000 in
/-- C19 (evaluation at the failing input): for `POST http://h/p` with content type
`text/plain` and body `hi` the bytes handed to `netsend` read `Content-Length2`, the first
14 characters of `Content-Length: ` followed by the length, and so differ from the request
of the specification. -/
theorem _httpc_httpsend_content_length :
    (_httpc_httpsend (answering (bytes "HTTP/1.1 200 OK\r\n\r\n"))
        ⟨.POST, some (bytes "http://h/p"), none, some (bytes "text/plain"), some (bytes "hi")⟩
        none 0).map (fun e => e.sent.flatten)
      = .ok (bytes ("POST /p HTTP/1.1\r\nHost: h\r\nConnection: Close\r\n" ++
          "Content-Type: text/plain\r\nContent-Length2\r\n\r\nhi")) ∧
    requestWithBody (bytes "POST") (bytes "/p") (bytes "h") (bytes "text/plain") (bytes "hi") none
      = bytes ("POST /p HTTP/1.1\r\nHost: h\r\nConnection: Close\r\n" ++
          "Content-Type: text/plain\r\nContent-Length: 2\r\n\r\nhi") := by
  decide

set_option maxRecDepth 100000 in
/-- C20 (evaluation at the failing input): when the peer answers `HTTP/1.1 302 Found` with
no `Location`, `httpsend` calls `_httpc_httpsend` a second time with a NULL URL and returns
its 999. -/
theorem httpsend_redirect_without_target :
    foundNowhere 0 ⟨.GET, some (bytes "http://a/"), none, none, none⟩ = (302, none, 0) ∧
    httpsend foundNowhere .GET (bytes "http://a/") none none none
      = .ok ⟨999, none, 0,
          [⟨.GET, some (bytes "http://a/"), none, none, none⟩,
           ⟨.GET, none, none, none, none⟩]⟩ := by
  decide

/-- An object body with one quoted key and one quoted value, followed by any byte `t`
that is neither white space nor a comma: the level ends well on `}`, `]` and NUL, and
fails on every other byte. -/
theorem _jsonbuild_leafobj_end (k v : List Nat) (hk0 : k ≠ []) (hv0 : v ≠ [])
    (hk : plain k) (hv : plain v)
    (fuel : Nat) (json : List Nat) (pos depth : Nat) (t : Nat) (rest : List Nat)
    (hd : json.drop pos = 34 :: (k ++ 34 :: 58 :: 34 :: (v ++ 34 :: t :: rest)))
    (ht : isspace t = false) (ht2 : t ≠ 44) (hdepth : depth ≤ 10) :
    _jsonbuild (fuel + 2) json pos depth
      = if t = 125 ∨ t = 93 then
          .ok (.mk .NULL .NULL false k (some v), pos + (k.length + v.length + 5) + 1)
        else if t = 0 then
          .ok (.mk .NULL .NULL false k (some v), pos + (k.length + v.length + 5))
        else .error .fail := by
  have h1 : json.drop (pos + 1) = k ++ 34 :: 58 :: 34 :: (v ++ 34 :: t :: rest) :=
    drop_of_append (a := [34]) hd rfl
  have h2 : json.drop (pos + (k.length + 2)) = 58 :: 34 :: (v ++ 34 :: t :: rest) :=
    drop_of_append (a := 34 :: (k ++ [34])) (by simpa using hd) (by simp)
  have h3 : json.drop (pos + (k.length + 2) + 1) = 34 :: (v ++ 34 :: t :: rest) :=
    drop_of_append (a := [58]) h2 rfl
  have h4 : json.drop (pos + (k.length + 2) + 1 + 1) = v ++ 34 :: t :: rest :=
    drop_of_append (a := [34]) h3 rfl
  have h5 : json.drop (pos + (k.length + 2) + 1 + (v.length + 2)) = t :: rest :=
    drop_of_append (a := 34 :: (v ++ [34])) (by simpa using h3) (by simp)
  have hkz : ∀ c ∈ k, c ≠ 0 := fun c hc => (hk c hc).1
  have hvz : ∀ c ∈ v, c ≠ 0 := fun c hc => (hv c hc).1
  have hsp : ¬ ((t = 32 ∨ 9 ≤ t ∧ t ≤ 13) ∨ t = 44) := by
    simp [isspace] at ht
    omega
  have e1 : _jsonbuild_loop (fuel + 1) json pos depth 0
      = .ok (.mk .NULL .NULL false k (some v), pos + (k.length + 2) + 1 + (v.length + 2)) := by
    rw [_jsonbuild_loop]
    simp [hd, skipspace, rd_eq, _jsonfieldlen_quoted k hk0 hk, h1, h2, h3, h4, h5,
      _jsonfieldlen_quoted v hv0 hv, skipcolon, skipcomma,
      strncpy_prefix hkz, strncpy_prefix hvz, isspace, hsp]
  have hdep : ¬ depth > 10 := by omega
  have hp : pos + (k.length + 2) + 1 + (v.length + 2) = pos + (k.length + v.length + 5) := by
    omega
  rw [_jsonbuild, e1]
  simp only [rd_eq, h5, hdep, if_false]
  rw [hp]
  by_cases h125 : t = 125
  · simp [h125]
  · by_cases h93 : t = 93
    · simp [h93]
    · by_cases h0 : t = 0
      · simp [h0]
      · simp [h125, h93, h0]

theorem plain_of_digits {d : List Nat} (hd : ∀ c ∈ d, isdigit c = true) : plain d := by
  intro c hc
  have := hd c hc
  simp [isdigit] at this
  omega

theorem isPrefixOf_self (l : List Nat) : l.isPrefixOf l = true := by
  induction l with
  | nil => rfl
  | cons a l ih => simp [List.isPrefixOf, ih]

theorem keyedText_eq (d v : List Nat) :
    keyedText d v = 123 :: 34 :: 97 :: 34 :: 58 :: 123 :: 34 ::
      (d ++ 34 :: 58 :: 34 :: (v ++ [34, 125, 125])) := by
  show [123, 34, 97, 34, 58, 123, 34] ++ d ++ [34, 58, 34] ++ v ++ [34, 125, 125] = _
  simp

/-- The tree `jsonset` builds for `{"a":{"d":"v"}}`. -/
theorem jsonset_keyedText (jh0 : IJSON) (d v : List Nat) (hd0 : d ≠ []) (hv0 : v ≠ [])
    (hd : plain d) (hv : plain v) :
    jsonset jh0 (keyedText d v) = .ok (⟨.mk .NULL (.mk .NULL
      (.mk .NULL .NULL false d (some v)) false [97] none) false [48] none⟩, true) := by
  obtain ⟨f, hf⟩ : ∃ f, 2 * (keyedText d v).length + 4 = f + 2 + 2 + 2 :=
    ⟨2 * (keyedText d v).length + 4 - 6, by
      have : 7 ≤ (keyedText d v).length := by simp [keyedText_eq]
      omega⟩
  set json := keyedText d v ++ [0] with hjson
  have hj : json = 123 :: 34 :: 97 :: 34 :: 58 :: 123 :: 34 ::
      (d ++ 34 :: 58 :: 34 :: (v ++ 34 :: 125 :: 125 :: [0])) := by
    simp [hjson, keyedText_eq]
  have d0 : json.drop 0 = 123 :: 34 :: 97 :: 34 :: 58 :: 123 :: 34 ::
      (d ++ 34 :: 58 :: 34 :: (v ++ 34 :: 125 :: 125 :: [0])) := by simpa using hj
  have d1 : json.drop 1 = 34 :: ([97] ++ 34 :: 58 :: 123 :: 34 ::
      (d ++ 34 :: 58 :: 34 :: (v ++ 34 :: 125 :: 125 :: [0]))) := by simp [hj]
  have d6 : json.drop 6 = 34 :: (d ++ 34 :: 58 :: 34 :: (v ++ 34 :: 125 :: 125 :: [0])) := by
    simp [hj]
  have d7 : json.drop (6 + (d.length + v.length + 6)) = 125 :: [0] :=
    drop_of_append (a := 34 :: (d ++ 34 :: 58 :: 34 :: (v ++ 34 :: [125])))
      (by simpa using d6) (by simp; omega)
  have d8 : json.drop (6 + (d.length + v.length + 6) + 1) = [0] :=
    drop_of_append (a := [125]) d7 rfl
  have b2 := _jsonbuild_leafobj d v hd0 hv0 hd hv f json 6 2 _ d6 (by omega)
  have b1 := _jsonbuild_wrap [97] (by simp) plain_of_bytes_a 123 (Or.inl rfl)
    (f + 2) json 1 1 _ _ _ _ d1 b2 d7 (by omega)
  have b0 : _jsonbuild (f + 2 + 2 + 2) json 0 0
      = .ok (.mk .NULL (.mk .NULL (.mk .NULL .NULL false d (some v)) false [97] none)
          false [48] none, 6 + (d.length + v.length + 6) + 1) := by
    rw [_jsonbuild, _jsonbuild_loop]
    simp [d0, skipspace, rd_eq, skipcolon, skipcomma, isspace, b1, d8]
    rfl
  unfold jsonset
  rw [hf, b0]

/-- C14 (amended): for every non-empty digit string `d` and every non-empty value `v` free
of NUL, double quote and backslash, after parsing `{"a":{"d":"v"}}` `jsonget` with the path
`/a/d` returns `v`: a numeric segment selects the entry whose label equals it, whether the
label is an array position or a quoted key. -/
theorem jsonget_digit_key (jh0 : IJSON) (d v : List Nat) (hd0 : d ≠ [])
    (hd : ∀ c ∈ d, isdigit c = true) (hv0 : v ≠ []) (hv : plain v) :
    ∃ jh, jsonset jh0 (keyedText d v) = .ok (jh, true) ∧
      jsonget jh (bytes "/a/" ++ d) = some v := by
  refine ⟨_, jsonset_keyedText jh0 d v hd0 hv0 (plain_of_digits hd) hv, ?_⟩
  show jsonget _ ([47, 97, 47] ++ d) = some v
  simp [jsonget, jsonget_search, List.isPrefixOf, hd0, isPrefixOf_self]

/-- C14 witness of the amended statement: the key `0` with the value `v`. -/
theorem jsonget_digit_key_witness :
    ∃ jh, jsonset ⟨.NULL⟩ (keyedText (bytes "0") (bytes "v")) = .ok (jh, true) ∧
      jsonget jh (bytes "/a/" ++ bytes "0") = some (bytes "v") :=
  jsonget_digit_key ⟨.NULL⟩ (bytes "0") (bytes "v") (by decide) (by decide) (by decide)
    (by intro c hc; simp [bytes] at hc; subst hc; decide)

set_option maxRecDepth 100000 in
/-- C14 (counterexample): after parsing `{"a":{"0":"v"}}`, where `0` is a quoted object
key, `jsonget` with the path `/a/0` is not NULL: it returns `v`. -/
theorem jsonget_digit_key_counterexample :
    keyedText (bytes "0") (bytes "v") = bytes "\x7b\"a\":\x7b\"0\":\"v\"\x7d\x7d" ∧
    ∃ jh, jsonset ⟨.NULL⟩ (bytes "\x7b\"a\":\x7b\"0\":\"v\"\x7d\x7d") = .ok (jh, true) ∧
      jsonget jh (bytes "/a/0") = some (bytes "v") ∧ jsonget jh (bytes "/a/0") ≠ none :=
  ⟨by decide, ⟨.mk .NULL (.mk .NULL (.mk .NULL .NULL false (bytes "0") (some (bytes "v")))
      false (bytes "a") none) false (bytes "0") none⟩, by decide, by decide, by decide⟩

theorem openText_eq (k v : List Nat) :
    openText k v = 123 :: 34 :: (k ++ 34 :: 58 :: 34 :: (v ++ [34])) := by
  show [123, 34] ++ k ++ [34, 58, 34] ++ v ++ [34] = _
  simp

/-- The outermost level of a text `{"k":"v"` that goes on with the byte `t` (NUL at the
end of the text): what `jsonset` computes from the result `r` of the nested level. -/
theorem _jsonbuild_open_outer (k v : List Nat) (hk0 : k ≠ []) (hv0 : v ≠ [])
    (hk : plain k) (hv : plain v) (fuel : Nat) (json : List Nat) (t : Nat) (rest : List Nat)
    (hj : json = 123 :: 34 :: (k ++ 34 :: 58 :: 34 :: (v ++ 34 :: t :: rest)))
    (ht : isspace t = false) (ht2 : t ≠ 44) (ht3 : t ≠ 125)
    (hrest : t = 93 → rest = [0]) :
    _jsonbuild (fuel + 2 + 2) json 0 0
      = if t = 93 ∨ t = 0 then
          .ok (.mk .NULL (.mk .NULL .NULL false k (some v)) false [48] none,
            if t = 93 then k.length + v.length + 7 else k.length + v.length + 6)
        else .error .fail := by
  have d0 : json.drop 0 = 123 :: 34 :: (k ++ 34 :: 58 :: 34 :: (v ++ 34 :: t :: rest)) := by
    simpa using hj
  have d1 : json.drop 1 = 34 :: (k ++ 34 :: 58 :: 34 :: (v ++ 34 :: t :: rest)) := by
    simp [hj]
  have dt : json.drop (1 + (k.length + v.length + 5)) = t :: rest :=
    drop_of_append (a := 34 :: (k ++ 34 :: 58 :: 34 :: (v ++ [34])))
      (by simpa using d1) (by simp; omega)
  have b1 := _jsonbuild_leafobj_end k v hk0 hv0 hk hv fuel json 1 1 t rest d1 ht ht2 (by omega)
  by_cases h93 : t = 93
  · have hr := hrest h93
    subst h93
    subst hr
    have dn : json.drop (1 + (k.length + v.length + 5) + 1) = [0] :=
      drop_of_append (a := [93]) dt rfl
    simp only [show (93 : Nat) = 125 ∨ (93 : Nat) = 93 from Or.inr rfl, if_true] at b1
    rw [_jsonbuild, _jsonbuild_loop]
    simp [d0, skipspace, rd_eq, skipcolon, skipcomma, isspace, b1, dn]
    refine ⟨rfl, by omega⟩
  · by_cases h0 : t = 0
    · subst h0
      simp only [show ¬ ((0 : Nat) = 125 ∨ (0 : Nat) = 93) by decide, if_false, if_true] at b1
      rw [_jsonbuild, _jsonbuild_loop]
      simp [d0, skipspace, rd_eq, skipcolon, skipcomma, isspace, b1, dt]
      refine ⟨rfl, by omega⟩
    · have hb : ¬ (t = 125 ∨ t = 93) := by simp [ht3, h93]
      simp only [hb, h0, if_false] at b1
      simp only [h93, h0, or_self, if_false]
      rw [_jsonbuild, _jsonbuild_loop]
      simp [d0, skipspace, rd_eq, skipcolon, skipcomma, isspace, b1]

/-- What `jsonset` returns on a text `{"k":"v"` that goes on with `tail`. -/
theorem jsonset_openText (jh0 : IJSON) (k v : List Nat) (hk0 : k ≠ []) (hv0 : v ≠ [])
    (hk : plain k) (hv : plain v) :
    jsonset jh0 (openText k v)
      = .ok (⟨.mk .NULL (.mk .NULL .NULL false k (some v)) false [48] none⟩, true) ∧
    jsonset jh0 (openText k v ++ [93])
      = .ok (⟨.mk .NULL (.mk .NULL .NULL false k (some v)) false [48] none⟩, true) ∧
    ∀ (c : Nat) (tail : List Nat), isspace c = false → c ≠ 44 → c ≠ 125 → c ≠ 93 → c ≠ 0 →
      jsonset jh0 (openText k v ++ c :: tail) = .ok (⟨.NULL⟩, false) := by
  refine ⟨?_, ?_, ?_⟩
  · obtain ⟨f, hf⟩ : ∃ f, 2 * (openText k v).length + 4 = f + 2 + 2 :=
      ⟨2 * (openText k v).length, by omega⟩
    have := _jsonbuild_open_outer k v hk0 hv0 hk hv f (openText k v ++ [0]) 0 []
      (by simp [openText_eq]) (by decide) (by decide) (by decide) (by decide)
    unfold jsonset
    rw [hf, this]
    simp
  · obtain ⟨f, hf⟩ : ∃ f, 2 * (openText k v ++ [93]).length + 4 = f + 2 + 2 :=
      ⟨2 * (openText k v ++ [93]).length, by omega⟩
    have := _jsonbuild_open_outer k v hk0 hv0 hk hv f (openText k v ++ [93] ++ [0]) 93 [0]
      (by simp [openText_eq]) (by decide) (by decide) (by decide) (fun _ => rfl)
    unfold jsonset
    rw [hf, this]
    simp
  · intro c tail hc1 hc2 hc3 hc4 hc5
    obtain ⟨f, hf⟩ : ∃ f, 2 * (openText k v ++ c :: tail).length + 4 = f + 2 + 2 :=
      ⟨2 * (openText k v ++ c :: tail).length, by omega⟩
    have := _jsonbuild_open_outer k v hk0 hv0 hk hv f (openText k v ++ c :: tail ++ [0]) c
      (tail ++ [0]) (by simp [openText_eq]) hc1 hc2 hc3 (fun h => absurd h hc4)
    unfold jsonset
    rw [hf, this]
    simp [hc4, hc5]

/-- C15 (amended): a level is ended by `}`, by `]` or by the end of the text, whichever
bracket opened it.  For every non-empty key `k` and value `v` free of NUL, double quote and
backslash, `jsonset` returns true on `{"k":"v"` (never closed) and on `{"k":"v"]` (closed
by the other bracket), and `jsonget` then returns `v` at `/k`; `jsonset` returns false and
leaves no tree, so that `jsonget` returns NULL for every path, when the entry is followed
by a byte other than white space, `,`, `}` and `]`. -/
theorem jsonset_unterminated (jh0 : IJSON) (k v : List Nat) (hk0 : k ≠ []) (hv0 : v ≠ [])
    (hk : plain k) (hv : plain v) :
    (∃ jh, jsonset jh0 (openText k v) = .ok (jh, true) ∧
      jsonget jh (bytes "/" ++ k) = some v) ∧
    (∃ jh, jsonset jh0 (openText k v ++ bytes "]") = .ok (jh, true) ∧
      jsonget jh (bytes "/" ++ k) = some v) ∧
    (∀ (c : Nat) (tail : List Nat), isspace c = false → c ≠ 44 → c ≠ 125 → c ≠ 93 → c ≠ 0 →
      ∃ jh, jsonset jh0 (openText k v ++ c :: tail) = .ok (jh, false) ∧
        ∀ path, jsonget jh path = none) := by
  obtain ⟨h1, h2, h3⟩ := jsonset_openText jh0 k v hk0 hv0 hk hv
  have hget : jsonget ⟨.mk .NULL (.mk .NULL .NULL false k (some v)) false [48] none⟩
      (bytes "/" ++ k) = some v := by
    show jsonget _ ([47] ++ k) = some v
    simp [jsonget, jsonget_search, isPrefixOf_self]
  exact ⟨⟨_, h1, hget⟩, ⟨_, h2, hget⟩,
    fun c tail a b c' d e => ⟨_, h3 c tail a b c' d e, fun _ => rfl⟩⟩

/-- C15 witness of the amended statement: the key `a` and the value `1`. -/
theorem jsonset_unterminated_witness :
    (∃ jh, jsonset ⟨.NULL⟩ (openText (bytes "a") (bytes "1")) = .ok (jh, true) ∧
      jsonget jh (bytes "/" ++ bytes "a") = some (bytes "1")) ∧
    (∃ jh, jsonset ⟨.NULL⟩ (openText (bytes "a") (bytes "1") ++ bytes "]") = .ok (jh, true) ∧
      jsonget jh (bytes "/" ++ bytes "a") = some (bytes "1")) ∧
    (∀ (c : Nat) (tail : List Nat), isspace c = false → c ≠ 44 → c ≠ 125 → c ≠ 93 → c ≠ 0 →
      ∃ jh, jsonset ⟨.NULL⟩ (openText (bytes "a") (bytes "1") ++ c :: tail) = .ok (jh, false) ∧
        ∀ path, jsonget jh path = none) :=
  jsonset_unterminated ⟨.NULL⟩ (bytes "a") (bytes "1") (by decide) (by decide)
    (by intro c hc; simp [bytes] at hc; subst hc; decide)
    (by intro c hc; simp [bytes] at hc; subst hc; decide)

set_option maxRecDepth 100000 in
/-- C15 (counterexample): on `{"a":"1"`, whose `{` is never closed, and on `{"a":"1"]`,
whose `{` is closed by `]`, `jsonset` returns true and `jsonget` returns `1` at `/a`. -/
theorem jsonset_unterminated_counterexample :
    (∃ jh, jsonset ⟨.NULL⟩ (bytes "\x7b\"a\":\"1\"") = .ok (jh, true) ∧
      jsonget jh (bytes "/a") = some (bytes "1")) ∧
    (∃ jh, jsonset ⟨.NULL⟩ (bytes "\x7b\"a\":\"1\"]") = .ok (jh, true) ∧
      jsonget jh (bytes "/a") = some (bytes "1")) :=
  ⟨⟨⟨.mk .NULL (.mk .NULL .NULL false (bytes "a") (some (bytes "1"))) false (bytes "0") none⟩,
      by decide, by decide⟩,
    ⟨⟨.mk .NULL (.mk .NULL .NULL false (bytes "a") (some (bytes "1"))) false (bytes "0") none⟩,
      by decide, by decide⟩⟩

theorem _jsonfieldlen_loop_ge (b : Bool) (s : List Nat) : ∀ (len r : Nat),
    _jsonfieldlen_loop b s len = .ok r → len + 1 ≤ r := by
  induction s with
  | nil => intro len r h; simp [_jsonfieldlen_loop] at h
  | cons c s ih =>
    intro len r h
    rw [_jsonfieldlen_loop] at h
    split at h
    · simp at h
    · split at h
      · have := ih _ _ h; omega
      · simp only [Except.ok.injEq] at h; omega

/-- A successful scan of a quoted token has seen at least two bytes after the quote. -/
theorem _jsonfieldlen_quoted_ok (str : List Nat) (n : Nat)
    (h : _jsonfieldlen (34 :: str) = .ok n) : ∃ c d s, str = c :: d :: s ∧ 3 ≤ n := by
  unfold _jsonfieldlen at h
  simp only [beq_self_eq_true, if_true, List.drop_succ_cons, List.drop_zero] at h
  split at h
  · simp at h
  · rename_i len hl
    simp only [Except.ok.injEq] at h
    rcases str with _ | ⟨c, s⟩
    · simp [_jsonfieldlen_loop] at hl
    · rcases s with _ | ⟨d, s⟩
      · simp [_jsonfieldlen_loop] at hl
      · have := _jsonfieldlen_loop_ge true _ _ _ hl
        exact ⟨c, d, s, rfl, by omega⟩

/-- In a NUL-terminated buffer a byte that is followed by another byte is not the NUL. -/
theorem byte_ne_zero_of_drop (t json : List Nat) (hj : json = t ++ [0])
    (ht : ∀ c ∈ t, c ≠ 0) (i a b : Nat) (s : List Nat) (h : json.drop i = a :: b :: s) :
    a ≠ 0 := by
  have hlen : (json.drop i).length = s.length + 2 := by rw [h]; simp
  have hjl : json.length = t.length + 1 := by rw [hj]; simp
  have hi : i < t.length := by
    rw [List.length_drop] at hlen; omega
  have ha : json[i]? = some a := by
    have := congrArg List.head? h
    rw [List.head?_drop] at this
    simpa using this
  rw [hj, List.getElem?_append_left hi] at ha
  exact ht a (List.getElem?_mem ha)

theorem wellShaped_build (t json : List Nat) (hj : json = t ++ [0]) (ht : ∀ c ∈ t, c ≠ 0)
    (fuel : Nat) :
    (∀ pos depth te p, _jsonbuild fuel json pos depth = .ok (te, p) → wellShaped te) ∧
    (∀ pos depth entry te p,
      _jsonbuild_loop fuel json pos depth entry = .ok (te, p) → wellShaped te) := by
  induction fuel with
  | zero =>
    constructor
    · intro pos depth te p h; simp [_jsonbuild] at h
    · intro pos depth entry te p h; simp [_jsonbuild_loop] at h
  | succ fuel ih =>
    obtain ⟨ihb, ihl⟩ := ih
    constructor
    · intro pos depth te p h
      rw [_jsonbuild] at h
      split at h
      · simp at h
      · split at h
        · simp at h
        · rename_i teroot pos' hloop
          split at h
          · simp at h
          · split at h
            · simp at h
            · simp only [Except.ok.injEq, Prod.mk.injEq] at h
              rw [← h.1]; exact ihl _ _ _ _ _ hloop
    · intro pos depth entry te p h
      rw [_jsonbuild_loop] at h
      split at h
      · simp at h
      · split at h
        · simp at h
        · split at h
          · simp only [Except.ok.injEq, Prod.mk.injEq] at h
            rw [← h.1]; trivial
          · split at h
            · simp at h
            · rename_i x1 pos1 hskip x2 c hrd hterm x3 label pos2 entry2 hlab
              have hlabel : label ≠ [] := by
                split at hlab
                · rename_i hc34
                  split at hlab
                  · simp at hlab
                  · rename_i labellen hfl
                    simp only [Except.ok.injEq, Prod.mk.injEq] at hlab
                    rw [← hlab.1]
                    have hc : c = 34 := by simpa using hc34
                    subst hc
                    rw [rd_eq] at hrd
                    rcases hdrop : json.drop pos1 with _ | ⟨a, str⟩
                    · rw [hdrop] at hrd; simp at hrd
                    · rw [hdrop] at hrd hfl
                      simp only [Except.ok.injEq] at hrd
                      subst hrd
                      obtain ⟨c', d, s, hstr, hn⟩ := _jsonfieldlen_quoted_ok str labellen hfl
                      have hd1 : json.drop (pos1 + 1) = c' :: d :: s := by
                        rw [← hstr]; exact drop_of_append (a := [34]) hdrop rfl
                      have hc0 := byte_ne_zero_of_drop t json hj ht (pos1 + 1) c' d s hd1
                      rw [hd1]
                      obtain ⟨m, hm⟩ : ∃ m, labellen - 2 = m + 1 := ⟨labellen - 3, by omega⟩
                      rw [hm]
                      simp [strncpy, cstr, hc0]
                · simp only [Except.ok.injEq, Prod.mk.injEq] at hlab
                  rw [← hlab.1]
                  exact decimal_ne_nil _
              clear hlab
              split at h
              · simp at h
              · split at h
                · simp at h
                · split at h
                  · simp at h
                  · rename_i x4 pos3 hcolon x5 c2 hrd2 x6 child cia data pos4 hval
                    have hshape : (data.isSome → child = .NULL) ∧ wellShaped child := by
                      split at hval
                      · split at hval
                        · simp at hval
                        · rename_i ch p5 hb
                          simp only [Except.ok.injEq, Prod.mk.injEq] at hval
                          rw [← hval.1, ← hval.2.2.1]
                          exact ⟨by simp, ihb _ _ _ _ hb⟩
                      · split at hval
                        · split at hval
                          · simp at hval
                          · rename_i ch p5 hb
                            simp only [Except.ok.injEq, Prod.mk.injEq] at hval
                            rw [← hval.1, ← hval.2.2.1]
                            exact ⟨by simp, ihb _ _ _ _ hb⟩
                        · split at hval
                          · simp at hval
                          · split at hval
                            · simp only [Except.ok.injEq, Prod.mk.injEq] at hval
                              rw [← hval.1]
                              exact ⟨fun _ => rfl, trivial⟩
                            · simp only [Except.ok.injEq, Prod.mk.injEq] at hval
                              rw [← hval.1]
                              exact ⟨fun _ => rfl, trivial⟩
                    clear hval
                    split at h
                    · simp at h
                    · split at h
                      · split at h
                        · simp at h
                        · rename_i nx p6 hnext
                          simp only [Except.ok.injEq, Prod.mk.injEq] at h
                          rw [← h.1]
                          exact ⟨hlabel, hshape.1, ihl _ _ _ _ _ hnext, hshape.2⟩
                      · simp only [Except.ok.injEq, Prod.mk.injEq] at h
                        rw [← h.1]
                        exact ⟨hlabel, hshape.1, trivial, hshape.2⟩

/-- C18: in the tree left by a successful `jsonset` (the text being a C string, so free of
NUL) every entry has a non-empty label, and no entry has both a value and a child: an entry
with a value has a NULL `child`. -/
theorem jsonset_wellShaped (jh0 jh : IJSON) (t : List Nat) (ht : ∀ c ∈ t, c ≠ 0)
    (h : jsonset jh0 t = .ok (jh, true)) : wellShaped jh.root := by
  unfold jsonset at h
  split at h
  · rename_i te p hb
    simp only [Except.ok.injEq, Prod.mk.injEq] at h
    rw [← h.1]
    exact (wellShaped_build t (t ++ [0]) rfl ht _).1 _ _ _ _ hb
  · simp at h
  · simp at h

set_option maxRecDepth 100000 in
/-- C18 witness: the tree of `{"a":{"b":[{"c":"1"},{"c":"2"}]}}`. -/
theorem jsonset_wellShaped_witness :
    wellShaped (.mk .NULL (.mk .NULL (.mk .NULL
      (arrchain [99] 0 [bytes "1", bytes "2"]) true [98] none) false [97] none) false [48] none) :=
  jsonset_wellShaped ⟨.NULL⟩ ⟨_⟩ (nestedText [bytes "1", bytes "2"]) (by decide) (by decide)

theorem decimal_zero : decimal 0 = [48] := rfl

/-- Nested arrays around the token `1`, up to and with the `]` that closes the
enclosing level. -/
theorem _jsonbuild_nest (k : Nat) : ∀ (fuel : Nat) (json : List Nat) (pos d : Nat)
    (rest : List Nat),
    json.drop pos = List.replicate k 91 ++ 49 :: (List.replicate k 93 ++ 93 :: rest) →
    d + k ≤ 10 →
    _jsonbuild (fuel + 2 * k + 2) json pos d = .ok (nestTree k, pos + 2 * k + 2) := by
  induction k with
  | zero =>
    intro fuel json pos d rest hd hdk
    have hd0 : json.drop pos = 49 :: 93 :: rest := by simpa using hd
    have hd1 : json.drop (pos + 1) = 93 :: rest := drop_of_append (a := [49]) hd0 rfl
    have hdep : ¬ d > 10 := by omega
    have e1 : _jsonbuild_loop (fuel + 1) json pos d 0
        = .ok (.mk .NULL .NULL false [48] (some [49]), pos + 1) := by
      rw [_jsonbuild_loop]
      simp [hd0, hd1, skipspace, rd_eq, skipcolon, skipcomma, isspace, _jsonfieldlen,
        _jsonfieldlen_loop, isalnum, isdigit, strncpy, cstr, decimal_zero]
    show _jsonbuild (fuel + 1 + 1) json pos d = _
    rw [_jsonbuild, e1]
    simp [rd_eq, hd1, hdep, nestTree]
  | succ k ih =>
    intro fuel json pos d rest hd hdk
    have hrep : List.replicate (k + 1) 93 ++ 93 :: rest
        = List.replicate k 93 ++ 93 :: (93 :: rest) := by
      rw [List.replicate_succ', List.append_assoc]; rfl
    have hd0 : json.drop pos
        = 91 :: (List.replicate k 91 ++ 49 :: (List.replicate k 93 ++ 93 :: (93 :: rest))) := by
      rw [hd, hrep]; rfl
    have hd1 : json.drop (pos + 1)
        = List.replicate k 91 ++ 49 :: (List.replicate k 93 ++ 93 :: (93 :: rest)) :=
      drop_of_append (a := [91]) hd0 rfl
    have hd2 : json.drop (pos + 1 + 2 * k + 2) = 93 :: rest := by
      have := @drop_of_append json (pos + 1)
        (List.replicate k 91 ++ 49 :: (List.replicate k 93 ++ [93])) (93 :: rest)
        (by simpa using hd1) (2 * k + 2) (by simp; omega)
      rw [← this]; congr 1
    have hb := ih fuel json (pos + 1) (d + 1) (93 :: rest) hd1 (by omega)
    have hdep : ¬ d > 10 := by omega
    have e1 : _jsonbuild_loop (fuel + 2 * k + 2 + 1) json pos d 0
        = .ok (.mk .NULL (nestTree k) true [48] none, pos + 1 + 2 * k + 2) := by
      rw [_jsonbuild_loop]
      simp [hd0, skipspace, rd_eq, skipcolon, skipcomma, isspace, hb, hd2, decimal_zero]
    show _jsonbuild (fuel + 2 * k + 2 + 1 + 1) json pos d = _
    rw [_jsonbuild, e1]
    simp [rd_eq, hd2, hdep, nestTree]
    omega

/-- Nesting that reaches depth 11 ends in the `goto fail` that skips the initialisation of
`teroot`. -/
theorem _jsonbuild_too_deep (k : Nat) : ∀ (fuel : Nat) (json : List Nat) (pos d : Nat)
    (rest : List Nat),
    json.drop pos = List.replicate k 91 ++ rest → d ≤ 10 → 10 < d + k →
    2 * (11 - d) ≤ fuel →
    _jsonbuild (fuel + 1) json pos d = .error .uninit := by
  induction k with
  | zero => intro fuel json pos d rest _ h1 h2; omega
  | succ k ih =>
    intro fuel json pos d rest hd hd10 hdk hfuel
    have hd0 : json.drop pos = 91 :: (List.replicate k 91 ++ rest) := by
      rw [hd]; rfl
    have hd1 : json.drop (pos + 1) = List.replicate k 91 ++ rest :=
      drop_of_append (a := [91]) hd0 rfl
    obtain ⟨f, hf⟩ : ∃ f, fuel = f + 1 + 1 := ⟨fuel - 2, by omega⟩
    have hchild : _jsonbuild (f + 1) json (pos + 1) (d + 1) = .error .uninit := by
      by_cases h10 : d = 10
      · subst h10
        simp [_jsonbuild]
      · exact ih f json (pos + 1) (d + 1) rest hd1 (by omega) (by omega) (by omega)
    have hdep : ¬ d > 10 := by omega
    have e1 : _jsonbuild_loop (f + 1 + 1) json pos d 0 = .error .uninit := by
      rw [_jsonbuild_loop]
      simp [hd0, skipspace, rd_eq, skipcolon, isspace, hchild]
    rw [hf, _jsonbuild, e1]
    simp [hdep]

/-- The depth limit on `nestText`: for `1 ≤ n ≤ 10` `jsonset` returns true with the chain
`nestTree n`; for `n ≥ 11` it reaches the use of the uninitialised `teroot`. -/
theorem jsonset_nestText (jh0 : IJSON) (n : Nat) (hn : 1 ≤ n) :
    (n ≤ 10 → jsonset jh0 (nestText n) = .ok (⟨nestTree n⟩, true)) ∧
    (11 ≤ n → jsonset jh0 (nestText n) = .error .uninit) := by
  have hlen : (nestText n).length = 2 * n + 1 := by simp [nestText]; omega
  constructor
  · intro h10
    obtain ⟨k, rfl⟩ : ∃ k, n = k + 1 := ⟨n - 1, by omega⟩
    set json := nestText (k + 1) ++ [0] with hjson
    have hj : json = 91 :: (List.replicate k 91 ++ 49 :: (List.replicate k 93 ++ 93 :: [0])) := by
      rw [hjson, nestText, List.replicate_succ' (n := k) (a := 93)]
      simp [List.replicate_succ]
    have d0 : json.drop 0
        = 91 :: (List.replicate k 91 ++ 49 :: (List.replicate k 93 ++ 93 :: [0])) := by
      simpa using hj
    have d1 : json.drop 1 = List.replicate k 91 ++ 49 :: (List.replicate k 93 ++ 93 :: [0]) := by
      simp [hj]
    have d2 : json.drop (1 + 2 * k + 2) = [0] := by
      have := @drop_of_append json 1
        (List.replicate k 91 ++ 49 :: (List.replicate k 93 ++ [93])) [0]
        (by simpa using d1) (2 * k + 2) (by simp; omega)
      rw [← this]; congr 1
    have hb := _jsonbuild_nest k (2 * k + 6) json 1 1 [0] d1 (by omega)
    have b0 : _jsonbuild (2 * k + 6 + 2 * k + 2 + 1 + 1) json 0 0
        = .ok (nestTree (k + 1), 1 + 2 * k + 2) := by
      rw [_jsonbuild, _jsonbuild_loop]
      simp [d0, skipspace, rd_eq, skipcolon, skipcomma, isspace, hb, d2, decimal_zero, nestTree]
    unfold jsonset
    rw [hlen, show 2 * (2 * (k + 1) + 1) + 4 = 2 * k + 6 + 2 * k + 2 + 1 + 1 by omega, b0]
  · intro h11
    have hb := _jsonbuild_too_deep n (2 * (nestText n).length + 3) (nestText n ++ [0]) 0 0
      (49 :: List.replicate n 93 ++ [0]) (by simp [nestText]) (by omega) (by omega) (by omega)
    unfold jsonset
    rw [show 2 * (nestText n).length + 4 = 2 * (nestText n).length + 3 + 1 by omega, hb]

set_option maxRecDepth 100000 in
/-- C21 (evaluation at the failing input): a quoted array element is taken for a label.
On `["x","y"]` the entry gets the label `x` and the value `,`, the level then stops at the
quote of `"y"` and `jsonset` fails; on `["x"]` parsing succeeds with one entry labelled `x`
whose value is `]`, and `jsonget` with the path `/0` returns NULL. -/
theorem jsonset_array_of_strings :
    jsonset ⟨.NULL⟩ (bytes "[\"x\",\"y\"]") = .ok (⟨.NULL⟩, false) ∧
    jsonset ⟨.NULL⟩ (bytes "[\"x\"]")
      = .ok (⟨.mk .NULL (.mk .NULL .NULL false (bytes "x") (some (bytes "]"))) true
          (bytes "0") none⟩, true) ∧
    jsonget ⟨.mk .NULL (.mk .NULL .NULL false (bytes "x") (some (bytes "]"))) true
        (bytes "0") none⟩ (bytes "/0") = none := by
  decide

set_option maxRecDepth 100000 in
/-- C22 (evaluation at the failing input): with an empty value the scan of `_jsonfieldlen`
steps over the closing quote.  On `{"k":""}` it runs to the terminating NUL and `_jsonbuild`
then reads at the position after it; on `{"k":"","z":"1"}` it stops at the opening quote of
`"z"`, the value stored is `",`, the level stops at the letter `z` and `jsonset` fails, so
`jsonget` with the path `/k` returns NULL. -/
theorem jsonset_empty_value :
    jsonset ⟨.NULL⟩ (bytes "\x7b\"k\":\"\"\x7d") = .error .oob ∧
    _jsonfieldlen (bytes "\"\",\"z\":\"1\"\x7d" ++ [0]) = .ok 4 ∧
    jsonset ⟨.NULL⟩ (bytes "\x7b\"k\":\"\",\"z\":\"1\"\x7d") = .ok (⟨.NULL⟩, false) ∧
    jsonget ⟨.NULL⟩ (bytes "/k") = none := by
  decide

set_option maxRecDepth 100000 in
/-- C25 (evaluation at the failing input): for the token `"a\\"` followed by the
terminating NUL, `_jsonfieldlen` returns 6 and not 5: the second backslash, itself escaped,
sets `escape` again and the closing quote is stepped over.  Followed by `}` the scan runs on
to the NUL, and `jsonset` on `{"k":"a\\"}` reads past the end of the text. -/
theorem _jsonfieldlen_escaped_backslash :
    bytes "\"a\\\\\"" = [34, 97, 92, 92, 34] ∧
    _jsonfieldlen (bytes "\"a\\\\\"" ++ [0]) = .ok 6 ∧
    _jsonfieldlen (bytes "\"a\\\\\"\x7d" ++ [0]) = .ok 7 ∧
    jsonset ⟨.NULL⟩ (bytes "\x7b\"k\":\"a\\\\\"\x7d") = .error .oob := by
  decide

set_option maxRecDepth 100000 in
/-- C26 (evaluation at the failing input): on the stream `HTTP/1.1 abc\r\n\r\n`, whose first
line has no decimal integer after its first space, `_httpc_getresponse` returns the status
0 that `atoi` gives, not 500; a first line without any space does give 500. -/
theorem _httpc_getresponse_status_not_a_number :
    _httpc_getresponse (delivers (bytes "HTTP/1.1 abc\r\n\r\n")) none 0 = .ok (0, none, 0) ∧
    _httpc_getresponse (delivers (bytes "HTTP/1.1\r\n\r\n")) none 0 = .ok (500, none, 0) := by
  decide

/-- Storing a character and the terminator after it in a line buffer that holds `pre` and
its terminator. -/
theorem poke_poke (pre tail : List Nat) (ch : Nat) :
    poke (poke (pre ++ 0 :: tail) pre.length ch) (pre.length + 1) 0
      = (pre ++ [ch]) ++ 0 :: tail.drop 1 := by
  have h1 : poke (pre ++ 0 :: tail) pre.length ch = pre ++ ch :: tail := by
    simp [poke]
  rw [h1]
  rcases tail with _ | ⟨t, tail⟩
  · simp [poke]
  · have : pre.length + 1 < (pre ++ ch :: t :: tail).length := by simp
    simp only [poke, this, if_true]
    rw [show pre ++ ch :: t :: tail = (pre ++ [ch]) ++ t :: tail by simp,
      List.set_append_right _ _ (by simp)]
    simp

/-- Storing the first character of a line. -/
theorem poke_poke_first (old : List Nat) (ch : Nat) :
    poke (poke old 0 ch) 1 0 = [ch] ++ 0 :: old.drop 2 := by
  rcases old with _ | ⟨a, _ | ⟨b, old⟩⟩ <;> simp [poke]

/-- Characters other than the line feed are stored in the line buffer while fewer than
1023 have been stored. -/
theorem _httpc_getresponse_loop_feed (l : List Nat) (hl : ∀ c ∈ l, c ≠ 10)
    (rest : List Recv) (ce : Bool) (rc : Int) (st : St) (bl : Int) (pre tail : List Nat)
    (resp : Option (List Nat)) (rl : Int)
    (hst : st ≠ .ST_ERROR ∧ st ≠ .ST_END) (hlen : pre.length + l.length < 1023) :
    _httpc_getresponse_loop (delivers l ++ rest)
        ⟨ce, rc, st, bl, pre ++ 0 :: tail, pre.length, resp, rl⟩
      = _httpc_getresponse_loop rest
          ⟨ce, rc, st, bl, (pre ++ l) ++ 0 :: tail.drop l.length, (pre ++ l).length,
            resp, rl⟩ := by
  induction l generalizing pre tail with
  | nil => simp [delivers]
  | cons c l ih =>
    have hc : c ≠ 10 := hl c (by simp)
    have hlen1 : ¬ (1023 ≤ pre.length + 1) := by simp at hlen; omega
    have ih1 := ih (fun x hx => hl x (by simp [hx])) (pre ++ [c]) (tail.drop 1)
      (by simp at hlen ⊢; omega)
    have e : recvChar ⟨ce, rc, st, bl, pre ++ 0 :: tail, pre.length, resp, rl⟩ c
        = .ok ⟨ce, rc, st, bl, (pre ++ [c]) ++ 0 :: tail.drop 1, (pre ++ [c]).length,
            resp, rl⟩ := by
      simp only [recvChar, poke_poke]
      simp [hc, hlen1]
    have hst2 : (st != St.ST_ERROR && st != St.ST_END) = true := by simp [hst.1, hst.2]
    simp only [delivers, List.map_cons, List.cons_append, _httpc_getresponse_loop, e]
    simp only [hst2, if_true]
    have := ih1
    simp only [delivers] at this
    refine Eq.trans this ?_
    simp [List.drop_drop, Nat.add_comm]

/-- The character that completes a line (a line feed, or the 1023rd character) hands the
line to `lineDone`. -/
theorem recvChar_done (ce : Bool) (rc : Int) (st : St) (bl : Int) (pre tail : List Nat)
    (resp : Option (List Nat)) (rl : Int) (ch : Nat)
    (h : ch = 10 ∨ 1023 ≤ pre.length + 1) :
    recvChar ⟨ce, rc, st, bl, pre ++ 0 :: tail, pre.length, resp, rl⟩ ch
      = lineDone ⟨ce, rc, st, bl, (pre ++ [ch]) ++ 0 :: tail.drop 1, (pre ++ [ch]).length,
          resp, rl⟩ := by
  simp only [recvChar, poke_poke]
  rcases h with h | h
  · simp [h]
  · have : ¬ (pre.length < 1022) := by omega
    simp [this]

/-- The first character of a line, with the buffer holding anything. -/
theorem recvChar_first (ce : Bool) (rc : Int) (st : St) (bl : Int) (old : List Nat)
    (resp : Option (List Nat)) (rl : Int) (ch : Nat) (hch : ch ≠ 10) :
    recvChar ⟨ce, rc, st, bl, old, 0, resp, rl⟩ ch
      = .ok ⟨ce, rc, st, bl, [ch] ++ 0 :: old.drop 2, 1, resp, rl⟩ := by
  have := poke_poke_first old ch
  simp only [recvChar]
  simp [hch, this]

/-- A whole line `c :: l ++ [last]` received at the start of the line buffer: it is handed
to `lineDone`, and the loop goes on unless that ends it. -/
theorem _httpc_getresponse_loop_line (c : Nat) (l : List Nat) (last : Nat) (hc : c ≠ 10)
    (hl : ∀ x ∈ l, x ≠ 10) (hlast : last = 10 ∨ 1023 ≤ l.length + 2)
    (hlen : l.length + 1 < 1023) (rest : List Recv)
    (ce : Bool) (rc : Int) (st : St) (bl : Int) (old : List Nat)
    (resp : Option (List Nat)) (rl : Int) (hst : st ≠ .ST_ERROR ∧ st ≠ .ST_END) :
    _httpc_getresponse_loop (delivers (c :: (l ++ [last])) ++ rest)
        ⟨ce, rc, st, bl, old, 0, resp, rl⟩
      = match lineDone ⟨ce, rc, st, bl, (c :: (l ++ [last])) ++ 0 :: old.drop (l.length + 3),
            l.length + 2, resp, rl⟩ with
        | .error e => .error e
        | .ok s =>
          if s.state != .ST_ERROR && s.state != .ST_END then _httpc_getresponse_loop rest s
          else .ok s := by
  have hst2 : (st != St.ST_ERROR && st != St.ST_END) = true := by simp [hst.1, hst.2]
  have e1 := recvChar_first ce rc st bl old resp rl c hc
  have e2 := _httpc_getresponse_loop_feed l hl (Recv.byte last :: rest) ce rc st bl [c]
    (old.drop 2) resp rl hst (by simp; omega)
  have e3 := recvChar_done ce rc st bl ([c] ++ l) ((old.drop 2).drop l.length) resp rl last
    (by rcases hlast with h | h
        · exact Or.inl h
        · right; simp; omega)
  have hsplit : delivers (c :: (l ++ [last])) ++ rest
      = Recv.byte c :: (delivers l ++ Recv.byte last :: rest) := by
    simp [delivers]
  rw [hsplit, _httpc_getresponse_loop, e1]
  simp only [hst2, if_true]
  have e2' : _httpc_getresponse_loop (delivers l ++ Recv.byte last :: rest)
      ⟨ce, rc, st, bl, [c] ++ 0 :: old.drop 2, 1, resp, rl⟩ = _ := e2
  rw [e2', _httpc_getresponse_loop, e3]
  have hd : List.drop 1 (List.drop l.length (List.drop 2 old)) = old.drop (l.length + 3) := by
    simp only [List.drop_drop]; congr 1; omega
  have hlen2 : ([c] ++ l ++ [last]).length = l.length + 2 := by simp
  rw [hd, hlen2]
  simp only [List.cons_append, List.append_assoc, List.nil_append]

theorem spanNonSpace_oob (u : List Nat) (hu : ∀ c ∈ u, isspace c = false) (k : Nat) :
    spanNonSpace u k = .error .oob := by
  induction u generalizing k with
  | nil => rfl
  | cons a u ih =>
    have ha := hu a (by simp)
    simp [spanNonSpace, ha, ih (fun c hc => hu c (by simp [hc]))]

theorem spanNonSpace_stop (u : List Nat) (hu : ∀ c ∈ u, isspace c = false) (t : Nat)
    (ht : isspace t = true) (rest : List Nat) (k : Nat) :
    spanNonSpace (u ++ t :: rest) k = .ok (k + u.length) := by
  induction u generalizing k with
  | nil => simp [spanNonSpace, ht]
  | cons a u ih =>
    have ha := hu a (by simp)
    simp [spanNonSpace, ha, ih (fun c hc => hu c (by simp [hc]))]
    omega

theorem isPrefixOf_append (a b : List Nat) : a.isPrefixOf (a ++ b) = true := by
  induction a with
  | nil => simp [List.isPrefixOf]
  | cons x a ih => simp [List.isPrefixOf, ih]

/-- A needle that matches the start of the memory, letter case ignored, is found there. -/
theorem strcasestr_at_start (name X needle : List Nat)
    (hname : name.map tolower = needle.map tolower) (hne : name ≠ [])
    (h0 : ∀ c ∈ name, c ≠ 0) : strcasestr (name ++ X) needle = some (name ++ X) := by
  rcases hn : name with _ | ⟨c, name2⟩
  · exact absurd hn hne
  · have hc := cstr_append name X h0
    rw [hn] at hc hname
    simp only [List.cons_append] at hc
    have hp : (List.map tolower needle).isPrefixOf
        (List.map tolower (cstr (c :: (name2 ++ X)))) = true := by
      rw [hc, show (c :: (name2 ++ cstr X)) = (c :: name2) ++ cstr X by simp, List.map_append,
        hname, isPrefixOf_append]
    show strfind true needle (c :: (name2 ++ X)) = _
    rw [strfind]
    simp only [if_true, hp]
    rfl

theorem location_lit : ∀ c ∈ bytes "location: ", tolower c = c ∧ c ≠ 0 := by decide

/-- A header line that starts with `Location: ` (in any letter case) under a 3xx status,
when the scan for the end of the target runs off the line buffer. -/
theorem headerLine_location_oob (ce : Bool) (rc : Int) (st : St) (bl : Int)
    (lp : Nat) (resp : Option (List Nat)) (rl : Int) (name X : List Nat)
    (hname : name.map tolower = bytes "location: ")
    (hrc : 300 ≤ rc ∧ rc ≤ 399) (hX : spanNonSpace X 0 = .error .oob) :
    headerLine ⟨ce, rc, st, bl, name ++ X, lp, resp, rl⟩ = .error .oob := by
  have h0 : ∀ c ∈ name, c ≠ 0 := nonzero_of_map_tolower hname location_lit
  have hlen : name.length = 10 := by
    have := congrArg List.length hname
    simpa [bytes] using this
  have hne : name ≠ [] := by
    intro h; rw [h] at hlen; simp at hlen
  have hfind : strcasestr (name ++ X) (bytes "Location: ") = some (name ++ X) :=
    strcasestr_at_start name X _ (by rw [hname]; decide) hne h0
  have hdrop : (name ++ X).drop 10 = X := by rw [← hlen]; simp
  rcases h1 : strcasestr (name ++ X) (bytes "Content-Length:") with _ | x1 <;>
  rcases h2 : strcasestr (name ++ X) (bytes "Transfer-Encoding: Chunked") with _ | x2 <;>
  simp [headerLine, h1, h2, hfind, hrc, hdrop, hX]

set_option maxRecDepth 100000 in
/-- The status line `HTTP/1.1 301 Moved\r\n` sets the response code 301. -/
theorem lineDone_moved :
    lineDone ⟨false, 999, .ST_RESPONSE, 0,
        (72 :: (bytes "TTP/1.1 301 Moved\r" ++ [10])) ++
          0 :: ([] : List Nat).drop ((bytes "TTP/1.1 301 Moved\r").length + 3),
        (bytes "TTP/1.1 301 Moved\r").length + 2, none, 0⟩
      = .ok ⟨false, 301, .ST_HEADER, 0, bytes "HTTP/1.1 301 Moved\r\n" ++ [0], 0, none, 0⟩ := by
  decide

/-- A `Location` target of 1013 or more characters without white space, under the status
301: the header line is cut after 1023 characters, none of them white space, and the scan
for the end of the target runs off the line buffer. -/
theorem _httpc_getresponse_long_location (u : List Nat) (hu : ∀ c ∈ u, isspace c = false)
    (hlen : 1013 ≤ u.length) (rest : List Recv) :
    _httpc_getresponse (delivers (bytes "HTTP/1.1 301 Moved\r\nLocation: " ++ u) ++ rest) none 0
      = .error .oob := by
  -- split the target after 1012 characters
  obtain ⟨u1, a, u2, hsplit, hu1⟩ : ∃ u1 a u2, u = u1 ++ a :: u2 ∧ u1.length = 1012 := by
    rcases hd : u.drop 1012 with _ | ⟨a, u2⟩
    · have := congrArg List.length hd
      simp at this; omega
    · exact ⟨u.take 1012, a, u2, by rw [← hd, List.take_append_drop], by simp; omega⟩
  have hu1s : ∀ c ∈ u1, isspace c = false := fun c hc => hu c (by simp [hsplit, hc])
  have has : isspace a = false := hu a (by simp [hsplit])
  have hstream : delivers (bytes "HTTP/1.1 301 Moved\r\nLocation: " ++ u) ++ rest
      = delivers (72 :: (bytes "TTP/1.1 301 Moved\r" ++ [10])) ++
          (delivers (76 :: ((bytes "ocation: " ++ u1) ++ [a])) ++ (delivers u2 ++ rest)) := by
    have : bytes "HTTP/1.1 301 Moved\r\nLocation: "
        = (72 :: (bytes "TTP/1.1 301 Moved\r" ++ [10])) ++ (76 :: bytes "ocation: ") := by decide
    rw [this, hsplit]
    simp [delivers]
  have hl : ∀ x ∈ bytes "ocation: " ++ u1, x ≠ 10 := by
    intro x hx h10
    rcases List.mem_append.1 hx with h | h
    · subst h10; revert h; decide
    · have := hu1s x h
      subst h10; simp [isspace] at this
  have hX : spanNonSpace (u1 ++ [a, 0]) 0 = .error .oob := by
    apply spanNonSpace_oob
    intro c hc
    simp at hc
    rcases hc with h | h | h
    · exact hu1s c h
    · rw [h]; exact has
    · rw [h]; decide
  have hhead := headerLine_location_oob false 301 .ST_HEADER 0
    ((bytes "ocation: " ++ u1).length + 2) none 0 (bytes "Location: ") (u1 ++ [a, 0])
    (by decide) (by decide) hX
  have hline : (76 :: ((bytes "ocation: " ++ u1) ++ [a])) ++
      0 :: (bytes "HTTP/1.1 301 Moved\r\n" ++ [0]).drop ((bytes "ocation: " ++ u1).length + 3)
      = bytes "Location: " ++ (u1 ++ [a, 0]) := by
    have h1 : (bytes "HTTP/1.1 301 Moved\r\n" ++ [0]).drop ((bytes "ocation: " ++ u1).length + 3)
        = [] := by
      apply List.drop_eq_nil_of_le
      simp [hu1]
      decide
    have h2 : bytes "Location: " = 76 :: bytes "ocation: " := by decide
    rw [h1, h2]
    simp
  have hcond : (St.ST_HEADER != St.ST_ERROR && St.ST_HEADER != St.ST_END) = true := by decide
  have hloop : _httpc_getresponse_loop
      (delivers (bytes "HTTP/1.1 301 Moved\r\nLocation: " ++ u) ++ rest)
      ⟨false, 999, .ST_RESPONSE, 0, [], 0, none, 0⟩ = .error .oob := by
    rw [hstream,
      _httpc_getresponse_loop_line 72 (bytes "TTP/1.1 301 Moved\r") 10 (by decide) (by decide)
        (Or.inl rfl) (by decide) _ false 999 .ST_RESPONSE 0 [] none 0 (by decide),
      lineDone_moved]
    simp only [hcond, if_true]
    rw [_httpc_getresponse_loop_line 76 (bytes "ocation: " ++ u1) a
        (by decide) hl (Or.inr (by simp [hu1]; decide)) (by simp [hu1]; decide) _
        false 301 .ST_HEADER 0 _ none 0 (by decide), hline]
    simp only [lineDone, hhead]
  unfold _httpc_getresponse
  rw [hloop]

theorem plain_of_alnum {k : List Nat} (hk : ∀ c ∈ k, isalnum c = true) : plain k := by
  intro c hc
  have := hk c hc
  simp [isalnum, isdigit] at this
  omega

/-- Scanning an unquoted token of letters and digits up to the first other byte. -/
theorem _jsonfieldlen_loop_alnum (v : List Nat) (hv : ∀ c ∈ v, isalnum c = true)
    (c : Nat) (hc : c ≠ 92) (e : Nat) (he : isalnum e = false) (rest : List Nat) (len : Nat) :
    _jsonfieldlen_loop false (c :: (v ++ e :: rest)) len = .ok (len + 1 + v.length) := by
  induction v generalizing c len with
  | nil => simp [_jsonfieldlen_loop, hc, he]
  | cons a v ih =>
    have ha := hv a (by simp)
    have hp := plain_of_alnum hv a (by simp)
    have := ih (fun c hc => hv c (by simp [hc])) a hp.2.2 (len + 1)
    simp [_jsonfieldlen_loop, hc, ha, hp.1] at this ⊢
    rw [this]; congr 1; omega

theorem _jsonfieldlen_unquoted (t : List Nat) (ht0 : t ≠ []) (ht : ∀ c ∈ t, isalnum c = true)
    (e : Nat) (he : isalnum e = false) (rest : List Nat) :
    _jsonfieldlen (t ++ e :: rest) = .ok t.length := by
  rcases t with _ | ⟨a, v⟩
  · exact absurd rfl ht0
  · have hp := plain_of_alnum ht a (by simp)
    have := _jsonfieldlen_loop_alnum v (fun c hc => ht c (by simp [hc])) a hp.2.2 e he rest 0
    have h34 : (a == 34) = false := by simp [hp.2.1]
    simp only [_jsonfieldlen, List.cons_append, h34, Bool.false_eq_true, if_false,
      List.drop_zero, this]
    simp; omega

/-- An object body with one quoted key and one unquoted value of letters and digits, up to
its closing brace. -/
theorem _jsonbuild_leafscalar (k t : List Nat) (hk0 : k ≠ []) (ht0 : t ≠ [])
    (hk : plain k) (ht : ∀ c ∈ t, isalnum c = true)
    (fuel : Nat) (json : List Nat) (pos depth : Nat) (rest : List Nat)
    (hd : json.drop pos = 34 :: (k ++ 34 :: 58 :: (t ++ 125 :: rest)))
    (hdepth : depth ≤ 10) :
    _jsonbuild (fuel + 2) json pos depth
      = .ok (.mk .NULL .NULL false k (some t), pos + (k.length + t.length + 4)) := by
  obtain ⟨a, v, hav⟩ : ∃ a v, t = a :: v := by
    rcases t with _ | ⟨a, v⟩
    · exact absurd rfl ht0
    · exact ⟨a, v, rfl⟩
  subst hav
  have hta : isalnum a = true := ht a (by simp)
  have hpa := plain_of_alnum ht a (by simp)
  have h1 : json.drop (pos + 1) = k ++ 34 :: 58 :: ((a :: v) ++ 125 :: rest) :=
    drop_of_append (a := [34]) hd rfl
  have h2 : json.drop (pos + (k.length + 2)) = 58 :: ((a :: v) ++ 125 :: rest) :=
    drop_of_append (a := 34 :: (k ++ [34])) (by simpa using hd) (by simp)
  have h3 : json.drop (pos + (k.length + 2) + 1) = (a :: v) ++ 125 :: rest :=
    drop_of_append (a := [58]) h2 rfl
  have h5 : json.drop (pos + (k.length + 2) + 1 + (a :: v).length) = 125 :: rest :=
    drop_of_append (a := a :: v) h3 rfl
  have hkz : ∀ c ∈ k, c ≠ 0 := fun c hc => (hk c hc).1
  have htz : ∀ c ∈ a :: v, c ≠ 0 := fun c hc => (plain_of_alnum ht c hc).1
  have hfl := _jsonfieldlen_unquoted (a :: v) ht0 ht 125 (by decide) rest
  have hcp := strncpy_prefix htz (125 :: rest)
  have hsa : ¬ ((a = 32 ∨ 9 ≤ a ∧ a ≤ 13) ∨ a = 58) := by
    simp [isalnum, isdigit] at hta; omega
  have ha123 : a ≠ 123 ∧ a ≠ 91 := by
    simp [isalnum, isdigit] at hta; omega
  simp only [List.cons_append, List.length_cons] at h1 h2 h3 h5 hfl hcp hd
  have e1 : _jsonbuild_loop (fuel + 1) json pos depth 0
      = .ok (.mk .NULL .NULL false k (some (a :: v)),
          pos + (k.length + 2) + 1 + (v.length + 1)) := by
    rw [_jsonbuild_loop]
    simp [hd, skipspace, rd_eq, _jsonfieldlen_quoted k hk0 hk, h1, h2, h3, h5,
      skipcolon, skipcomma, strncpy_prefix hkz, isspace, hsa, ha123.1, ha123.2,
      hpa.2.1, hfl, hcp]
  have hdep : ¬ depth > 10 := by omega
  rw [_jsonbuild, e1]
  simp [rd_eq, h5, hdep]
  omega

theorem scalarText_eq (k t : List Nat) :
    scalarText k t = 123 :: 34 :: (k ++ 34 :: 58 :: (t ++ [125])) := by
  show [123, 34] ++ k ++ [34, 58] ++ t ++ [125] = _
  simp

/-- The tree `jsonset` builds for `{"k":t}`. -/
theorem jsonset_scalarText (jh0 : IJSON) (k t : List Nat) (hk0 : k ≠ []) (ht0 : t ≠ [])
    (hk : plain k) (ht : ∀ c ∈ t, isalnum c = true) :
    jsonset jh0 (scalarText k t)
      = .ok (⟨.mk .NULL (.mk .NULL .NULL false k (some t)) false [48] none⟩, true) := by
  obtain ⟨f, hf⟩ : ∃ f, 2 * (scalarText k t).length + 4 = f + 2 + 2 :=
    ⟨2 * (scalarText k t).length, by omega⟩
  set json := scalarText k t ++ [0] with hjson
  have hj : json = 123 :: 34 :: (k ++ 34 :: 58 :: (t ++ 125 :: [0])) := by
    simp [hjson, scalarText_eq]
  have d0 : json.drop 0 = 123 :: 34 :: (k ++ 34 :: 58 :: (t ++ 125 :: [0])) := by
    simpa using hj
  have d1 : json.drop 1 = 34 :: (k ++ 34 :: 58 :: (t ++ 125 :: [0])) := by simp [hj]
  have d2 : json.drop (1 + (k.length + t.length + 4)) = [0] :=
    drop_of_append (a := 34 :: (k ++ 34 :: 58 :: (t ++ [125])))
      (by simpa using d1) (by simp; omega)
  have b1 := _jsonbuild_leafscalar k t hk0 ht0 hk ht f json 1 1 _ d1 (by omega)
  have b0 : _jsonbuild (f + 2 + 2) json 0 0
      = .ok (.mk .NULL (.mk .NULL .NULL false k (some t)) false [48] none,
          1 + (k.length + t.length + 4)) := by
    rw [_jsonbuild, _jsonbuild_loop]
    simp [d0, skipspace, rd_eq, skipcolon, skipcomma, isspace, b1, d2]
    rfl
  unfold jsonset
  rw [hf, b0]

/-- C23: for every non-empty key `k` and every non-empty token `t`, both made only of ASCII
letters and digits, `jsonset` succeeds on `{"k":t}` and `jsonget` with the path `/k` then
returns the text `t` unchanged; the entry holds `t` as its value and nothing else. -/
theorem jsonget_unquoted_scalar (jh0 : IJSON) (k t : List Nat) (hk0 : k ≠ [])
    (hk : ∀ c ∈ k, isalnum c = true) (ht0 : t ≠ []) (ht : ∀ c ∈ t, isalnum c = true) :
    ∃ jh, jsonset jh0 (scalarText k t) = .ok (jh, true) ∧
      jsonget jh (bytes "/" ++ k) = some t := by
  refine ⟨_, jsonset_scalarText jh0 k t hk0 ht0 (plain_of_alnum hk) ht, ?_⟩
  show jsonget _ ([47] ++ k) = some t
  simp [jsonget, jsonget_search, isPrefixOf_self]

set_option maxRecDepth 100000 in
/-- C23 witness: the key `k` with the tokens `3600`, `true`, `false` and `null`. -/
theorem jsonget_unquoted_scalar_witness :
    scalarText (bytes "k") (bytes "3600") = bytes "\x7b\"k\":3600\x7d" ∧
    (∃ jh, jsonset ⟨.NULL⟩ (scalarText (bytes "k") (bytes "3600")) = .ok (jh, true) ∧
      jsonget jh (bytes "/" ++ bytes "k") = some (bytes "3600")) ∧
    (∃ jh, jsonset ⟨.NULL⟩ (scalarText (bytes "k") (bytes "true")) = .ok (jh, true) ∧
      jsonget jh (bytes "/" ++ bytes "k") = some (bytes "true")) ∧
    (∃ jh, jsonset ⟨.NULL⟩ (scalarText (bytes "k") (bytes "false")) = .ok (jh, true) ∧
      jsonget jh (bytes "/" ++ bytes "k") = some (bytes "false")) ∧
    (∃ jh, jsonset ⟨.NULL⟩ (scalarText (bytes "k") (bytes "null")) = .ok (jh, true) ∧
      jsonget jh (bytes "/" ++ bytes "k") = some (bytes "null")) :=
  ⟨by decide,
   jsonget_unquoted_scalar ⟨.NULL⟩ (bytes "k") (bytes "3600") (by decide) (by decide)
     (by decide) (by decide),
   jsonget_unquoted_scalar ⟨.NULL⟩ (bytes "k") (bytes "true") (by decide) (by decide)
     (by decide) (by decide),
   jsonget_unquoted_scalar ⟨.NULL⟩ (bytes "k") (bytes "false") (by decide) (by decide)
     (by decide) (by decide),
   jsonget_unquoted_scalar ⟨.NULL⟩ (bytes "k") (bytes "null") (by decide) (by decide)
     (by decide) (by decide)⟩

/-- The label test of `jsonget` on the last segment of a path. -/
theorem label_match_last (x : List Nat) : ∀ (y : List Nat), (∀ c ∈ x, c ≠ 47) →
    (∀ c ∈ y, c ≠ 47) →
    (x.isPrefixOf y &&
      ((y.drop x.length).head? == none || (y.drop x.length).head? == some 47)) = decide (x = y) := by
  induction x with
  | nil =>
    intro y _ hy
    rcases y with _ | ⟨c, y⟩
    · simp
    · have := hy c (by simp)
      simp [this]
  | cons a x ih =>
    intro y hx hy
    rcases y with _ | ⟨c, y⟩
    · simp [List.isPrefixOf]
    · have := ih y (fun c hc => hx c (by simp [hc])) (fun c hc => hy c (by simp [hc]))
      by_cases hac : a = c
      · subst hac; simpa [List.isPrefixOf] using this
      · simp [List.isPrefixOf, hac]

theorem segments_ne_nil (s : List Nat) : segments s ≠ [] := by
  induction s with
  | nil => simp [segments]
  | cons c s ih =>
    rw [segments]
    split
    · simp
    · split <;> simp

theorem segments_last (seg : List Nat) (h : ∀ c ∈ seg, c ≠ 47) : segments seg = [seg] := by
  induction seg with
  | nil => rfl
  | cons c s ih =>
    have hc := h c (by simp)
    rw [segments, ih (fun x hx => h x (by simp [hx]))]
    simp [hc]

theorem segments_cons (seg rest : List Nat) (h : ∀ c ∈ seg, c ≠ 47) :
    segments (seg ++ 47 :: rest) = seg :: segments rest := by
  induction seg with
  | nil => simp [segments]
  | cons c s ih =>
    have hc := h c (by simp)
    rw [List.cons_append, segments, ih (fun x hx => h x (by simp [hx]))]
    simp [hc]

/-- A path is its first segment, alone or followed by `/` and the rest of the path. -/
theorem split_first (src : List Nat) :
    ∃ seg, (∀ c ∈ seg, c ≠ 47) ∧ (src = seg ∨ ∃ src2, src = seg ++ 47 :: src2) := by
  induction src with
  | nil => exact ⟨[], by simp, Or.inl rfl⟩
  | cons c s ih =>
    by_cases hc : c = 47
    · exact ⟨[], by simp, Or.inr ⟨s, by simp [hc]⟩⟩
    · obtain ⟨seg, hseg, h⟩ := ih
      refine ⟨c :: seg, ?_, ?_⟩
      · intro x hx
        simp at hx
        rcases hx with rfl | hx
        · exact hc
        · exact hseg x hx
      · rcases h with h | ⟨src2, h⟩
        · exact Or.inl (by rw [h])
        · exact Or.inr ⟨src2, by rw [h]; simp⟩

theorem walk_NULL (segs : List (List Nat)) : walk .NULL segs = none := by
  rcases segs with _ | ⟨a, _ | ⟨b, segs⟩⟩ <;> simp [walk, firstLabelled]

/-- When the first entry of the chain does not carry the label of the first segment, the
walk goes on from its next sibling. -/
theorem walk_skip (next child : tagentry) (cia : Bool) (label : List Nat)
    (data : Option (List Nat)) (seg : List Nat) (segs : List (List Nat)) (h : label ≠ seg) :
    walk (.mk next child cia label data) (seg :: segs) = walk next (seg :: segs) := by
  rcases segs with _ | ⟨b, segs⟩ <;> simp [walk, firstLabelled, h]

/-- On a chain whose labels are non-empty and free of `/` and whose entries with a value
have no child, the loops of `jsonget` compute the walk of the specification, for every
path that does not end in `/`. -/
theorem jsonget_search_eq_walk (te : tagentry) :
    pathLabels te → wellShaped te → ∀ src : List Nat, src.getLast? ≠ some 47 →
      jsonget_search te src = walk te (segments src) := by
  induction te with
  | NULL =>
    intro _ _ src _
    rw [walk_NULL]; rfl
  | mk next child cia label data ihn ihc =>
    intro hp hw src hsrc
    obtain ⟨hl0, hl47, hpn, hpc⟩ := hp
    obtain ⟨_, hleaf, hwn, hwc⟩ := hw
    have hlab : ∀ c ∈ label, c ≠ 47 := fun c hc h => hl47 (h ▸ hc)
    obtain ⟨seg, hseg, h | ⟨src2, h⟩⟩ := split_first src
    · -- the last segment
      subst h
      rw [jsonget_search, label_match_last label src hlab hseg, segments_last src hseg]
      by_cases he : label = src
      · subst he
        have hdata : (if child = tagentry.NULL then data else none) = data := by
          by_cases hc : child = .NULL
          · simp [hc]
          · rcases data with _ | d
            · simp
            · exact absurd (hleaf rfl) hc
        simp [walk, firstLabelled, hdata]
      · have := ihn hpn hwn src hsrc
        rw [segments_last src hseg] at this
        simp [he, this, walk_skip next child cia label data src [] he]
    · -- a segment followed by more path
      subst h
      have hsrc2 : src2 ≠ [] ∧ src2.getLast? ≠ some 47 := by
        rcases src2 with _ | ⟨a, s⟩
        · simp at hsrc
        · refine ⟨by simp, ?_⟩
          rw [show seg ++ 47 :: a :: s = (seg ++ [47]) ++ a :: s by simp,
            List.getLast?_append_cons] at hsrc
          exact hsrc
      rw [jsonget_search, label_match_segment label seg src2 hlab hseg,
        segments_cons seg src2 hseg]
      by_cases he : label = seg
      · subst he
        obtain ⟨s2, ss, hss⟩ : ∃ s2 ss, segments src2 = s2 :: ss := by
          rcases hs : segments src2 with _ | ⟨s2, ss⟩
          · exact absurd hs (segments_ne_nil src2)
          · exact ⟨s2, ss, rfl⟩
        have := ihc hpc hwc src2 hsrc2.2
        rw [hss] at this ⊢
        simp [walk, firstLabelled, hsrc2.1, this]
      · have := ihn hpn hwn (seg ++ 47 :: src2) hsrc
        rw [segments_cons seg src2 hseg] at this
        simp [he, this, walk_skip next child cia label data seg (segments src2) he]

/-- The tree of a successful `jsonset` on a text without NUL is well shaped. -/
theorem wellShaped_of_jsonset (jh0 jh : IJSON) (t : List Nat) (ht : ∀ c ∈ t, c ≠ 0) (b : Bool)
    (hset : jsonset jh0 t = .ok (jh, b)) : wellShaped jh.root := by
  unfold jsonset at hset
  split at hset
  · rename_i te p hb
    simp only [Except.ok.injEq, Prod.mk.injEq] at hset
    rw [← hset.1]
    exact (wellShaped_build t (t ++ [0]) rfl ht _).1 _ _ _ _ hb
  · simp only [Except.ok.injEq, Prod.mk.injEq] at hset
    rw [← hset.1]
    trivial
  · simp at hset

theorem jsonget_other (next child : tagentry) (cia : Bool) (label : List Nat)
    (data : Option (List Nat)) (c : Nat) (s : List Nat) (hc : c ≠ 47) :
    jsonget ⟨.mk next child cia label data⟩ (c :: s)
      = jsonget_search (if label == [48] then child else .mk next child cia label data)
          (c :: s) := by
  simp only [jsonget]
  congr 1
  split
  · rename_i heq; simp at heq; exact absurd heq.1 hc
  · rfl

theorem jsonget_reference_other (next child : tagentry) (cia : Bool) (label : List Nat)
    (data : Option (List Nat)) (c : Nat) (s : List Nat) (hc : c ≠ 47) :
    jsonget_reference ⟨.mk next child cia label data⟩ (c :: s)
      = walk (if label = bytes "0" then child else .mk next child cia label data)
          (segments (c :: s)) := by
  simp only [jsonget_reference]
  congr 2
  split
  · rename_i heq; simp at heq; exact absurd heq.1 hc
  · rfl

/-- On every well-shaped tree whose labels are non-empty and free of `/`, `jsonget` and the
reference lookup agree on every path that does not end in `/`. -/
theorem jsonget_eq_reference_tree (root : tagentry) (path : List Nat) :
    pathLabels root → wellShaped root → path.getLast? ≠ some 47 →
      jsonget ⟨root⟩ path = jsonget_reference ⟨root⟩ path := by
  intro hlab hw hpath
  rcases root with _ | ⟨next, child, cia, label, data⟩
  · simp [jsonget, jsonget_reference, walk_NULL]
  · have h48 : bytes "0" = [48] := rfl
    have hstart : ∀ src : List Nat, src.getLast? ≠ some 47 →
        jsonget_search (if label == [48] then child else .mk next child cia label data) src
          = walk (if label = bytes "0" then child else .mk next child cia label data)
              (segments src) := by
      intro src hsrc
      by_cases h0 : label = [48]
      · simp only [h0, h48, beq_self_eq_true, if_true]
        exact jsonget_search_eq_walk child hlab.2.2.2 hw.2.2.2 src hsrc
      · have hb : (label == [48]) = false := by simpa using h0
        simp only [h0, h48, hb, if_false, Bool.false_eq_true]
        exact jsonget_search_eq_walk _ hlab hw src hsrc
    rcases path with _ | ⟨c, s⟩
    · exact hstart [] (by simp)
    · by_cases hc : c = 47
      · subst hc
        have hs : s.getLast? ≠ some 47 := by
          rcases s with _ | ⟨a, s⟩
          · simp at hpath
          · rw [show (47 : Nat) :: a :: s = [47] ++ a :: s by simp,
              List.getLast?_append_cons] at hpath
            exact hpath
        exact hstart s hs
      · have := hstart (c :: s) hpath
        rw [jsonget_other next child cia label data c s hc,
          jsonget_reference_other next child cia label data c s hc]
        exact this

/-- C24: `jsonget` equals the split-and-walk lookup of the specification.  For every tree
`jsonset` produces from a text (a C string, so without NUL) in which no label is empty or
contains `/`, and for every path that does not end in `/`, `jsonget` returns what the
reference lookup returns: strip one optional leading `/`, split the rest on `/`, start at
the root-level chain (at the child chain of the root when its label is `0`), select for each
segment the first sibling whose label equals it, descend between segments, and return the
value of the last selected entry, absent when a segment has no match or the last selected
entry is a container. -/
theorem jsonget_eq_reference (jh0 jh : IJSON) (t path : List Nat) (ht : ∀ c ∈ t, c ≠ 0)
    (hset : jsonset jh0 t = .ok (jh, true)) (hlab : pathLabels jh.root)
    (hpath : path.getLast? ≠ some 47) :
    jsonget jh path = jsonget_reference jh path :=
  jsonget_eq_reference_tree jh.root path hlab
    (wellShaped_of_jsonset jh0 jh t ht true hset) hpath

set_option maxRecDepth 100000 in
/-- C24 witness: the tree of `{"a":{"b":"1","b":"2","bc":"3"},"a":"4"}` and the path `/a/b`;
both lookups give `1`, the value under the first `a` and the first `b`. -/
theorem jsonget_eq_reference_witness :
    jsonset ⟨.NULL⟩ (bytes "\x7b\"a\":\x7b\"b\":\"1\",\"b\":\"2\",\"bc\":\"3\"\x7d,\"a\":\"4\"\x7d")
      = .ok (⟨.mk .NULL
          (.mk (.mk .NULL .NULL false (bytes "a") (some (bytes "4")))
            (.mk (.mk (.mk .NULL .NULL false (bytes "bc") (some (bytes "3"))) .NULL false
                (bytes "b") (some (bytes "2"))) .NULL false (bytes "b") (some (bytes "1")))
            false (bytes "a") none)
          false (bytes "0") none⟩, true) ∧
    jsonget ⟨.mk .NULL
          (.mk (.mk .NULL .NULL false (bytes "a") (some (bytes "4")))
            (.mk (.mk (.mk .NULL .NULL false (bytes "bc") (some (bytes "3"))) .NULL false
                (bytes "b") (some (bytes "2"))) .NULL false (bytes "b") (some (bytes "1")))
            false (bytes "a") none)
          false (bytes "0") none⟩ (bytes "/a/b")
      = jsonget_reference ⟨.mk .NULL
          (.mk (.mk .NULL .NULL false (bytes "a") (some (bytes "4")))
            (.mk (.mk (.mk .NULL .NULL false (bytes "bc") (some (bytes "3"))) .NULL false
                (bytes "b") (some (bytes "2"))) .NULL false (bytes "b") (some (bytes "1")))
            false (bytes "a") none)
          false (bytes "0") none⟩ (bytes "/a/b") ∧
    jsonget_reference ⟨.mk .NULL
          (.mk (.mk .NULL .NULL false (bytes "a") (some (bytes "4")))
            (.mk (.mk (.mk .NULL .NULL false (bytes "bc") (some (bytes "3"))) .NULL false
                (bytes "b") (some (bytes "2"))) .NULL false (bytes "b") (some (bytes "1")))
            false (bytes "a") none)
          false (bytes "0") none⟩ (bytes "/a/b") = some (bytes "1") :=
  ⟨by decide,
   jsonget_eq_reference ⟨.NULL⟩ _
     (bytes "\x7b\"a\":\x7b\"b\":\"1\",\"b\":\"2\",\"bc\":\"3\"\x7d,\"a\":\"4\"\x7d")
     (bytes "/a/b") (by decide) (by decide)
     (by simp [pathLabels, bytes]) (by decide),
   by decide⟩

/-- A header line that starts with `Location: ` (in any letter case) under a 3xx status:
the target, which ends at the first white space, becomes the response and the state
becomes `ST_END`. -/
theorem headerLine_location_ok (ce : Bool) (rc : Int) (st : St) (bl : Int)
    (lp : Nat) (resp : Option (List Nat)) (rl : Int) (name u : List Nat) (e : Nat)
    (X : List Nat) (hname : name.map tolower = bytes "location: ")
    (hrc : 300 ≤ rc ∧ rc ≤ 399) (hu : ∀ c ∈ u, isspace c = false ∧ c ≠ 0)
    (he : isspace e = true) :
    ∃ ce2 bl2, headerLine ⟨ce, rc, st, bl, name ++ (u ++ e :: X), lp, resp, rl⟩
      = .ok ⟨ce2, rc, .ST_END, bl2, name ++ (u ++ e :: X), lp, some u, (u.length : Int)⟩ := by
  have h0 : ∀ c ∈ name, c ≠ 0 := nonzero_of_map_tolower hname location_lit
  have hlen : name.length = 10 := by
    have := congrArg List.length hname
    simpa [bytes] using this
  obtain ⟨c0, name2, hn⟩ : ∃ c0 name2, name = c0 :: name2 := by
    rcases name with _ | ⟨c0, name2⟩
    · simp at hlen
    · exact ⟨c0, name2, rfl⟩
  have hc0 : c0 ≠ 13 ∧ c0 ≠ 0 := by
    rw [hn] at hname
    have h : tolower c0 = 108 := by
      have := congrArg List.head? hname
      simpa [bytes] using this
    constructor
    · intro h13; rw [h13] at h; simp [tolower] at h
    · intro h13; rw [h13] at h; simp [tolower] at h
  have hfind : strcasestr (name ++ (u ++ e :: X)) (bytes "Location: ")
      = some (name ++ (u ++ e :: X)) :=
    strcasestr_at_start name _ _ (by rw [hname]; decide) (by rw [hn]; simp) h0
  have hdrop : (name ++ (u ++ e :: X)).drop 10 = u ++ e :: X := by rw [← hlen]; simp
  have hspan : spanNonSpace (u ++ e :: X) 0 = .ok u.length := by
    have := spanNonSpace_stop u (fun c hc => (hu c hc).1) e he X 0
    simpa using this
  have hcpy : strncpy (u ++ e :: X) u.length = u := strncpy_prefix (fun c hc => (hu c hc).2) _
  have hblank : (cstr (name ++ (u ++ e :: X)) == bytes "\r\n") = false := by
    rw [hn]
    have : bytes "\r\n" = [13, 10] := rfl
    simp [cstr, hc0.1, hc0.2, this]
  rcases h1 : strcasestr (name ++ (u ++ e :: X)) (bytes "Content-Length:") with _ | x1 <;>
  rcases h2 : strcasestr (name ++ (u ++ e :: X)) (bytes "Transfer-Encoding: Chunked")
    with _ | x2 <;>
  simp [headerLine, h1, h2, hfind, hrc, hdrop, hspan, hcpy, hblank]

theorem statusLine_eq (s : Nat) (reason : List Nat) :
    statusLine s reason
      = 72 :: ([84, 84, 80, 47, 49, 46, 49, 32] ++ decimal s ++ 32 :: reason ++ [13] ++ [10]) := by
  show [72, 84, 84, 80, 47, 49, 46, 49, 32] ++ decimal s ++ 32 :: reason ++ [13, 10] = _
  simp

/-- A status line that fits the line buffer sets the response code and the state
`ST_HEADER`. -/
theorem _httpc_getresponse_loop_status (s : Nat) (reason : List Nat) (rest : List Recv)
    (hs : s < 2147483648) (hreason : ∀ c ∈ reason, c ≠ 10)
    (hfit : (statusLine s reason).length ≤ 1023) :
    _httpc_getresponse_loop (delivers (statusLine s reason) ++ rest)
        ⟨false, 999, .ST_RESPONSE, 0, [], 0, none, 0⟩
      = _httpc_getresponse_loop rest
          ⟨false, s, .ST_HEADER, 0, statusLine s reason ++ [0], 0, none, 0⟩ := by
  have hl : ∀ x ∈ [84, 84, 80, 47, 49, 46, 49, 32] ++ decimal s ++ 32 :: reason ++ [13],
      x ≠ 10 := by
    intro x hx
    simp only [List.mem_append, List.mem_cons, List.mem_singleton] at hx
    rcases hx with ((hx | hx) | hx) | hx
    · revert hx; simp; omega
    · have := decimal_digits s x hx; omega
    · rcases hx with hx | hx
      · omega
      · exact hreason x hx
    · rcases hx with hx | hx
      · omega
      · simp at hx
  have hlen : ([84, 84, 80, 47, 49, 46, 49, 32] ++ decimal s ++ 32 :: reason ++ [13]).length + 1
      < 1023 := by
    rw [statusLine_eq] at hfit
    simp at hfit ⊢
    omega
  have hatoi : atoi (decimal s ++ (32 :: reason ++ [13, 10, 0])) = (s : Int) :=
    atoi_decimal s hs _ (by simp [isdigit])
  have hdone : lineDone ⟨false, 999, .ST_RESPONSE, 0,
      (72 :: ([84, 84, 80, 47, 49, 46, 49, 32] ++ decimal s ++ 32 :: reason ++ [13] ++ [10]))
        ++ 0 :: ([] : List Nat).drop
          (([84, 84, 80, 47, 49, 46, 49, 32] ++ decimal s ++ 32 :: reason ++ [13]).length + 3),
      ([84, 84, 80, 47, 49, 46, 49, 32] ++ decimal s ++ 32 :: reason ++ [13]).length + 2,
      none, 0⟩
      = .ok ⟨false, s, .ST_HEADER, 0, statusLine s reason ++ [0], 0, none, 0⟩ := by
    have hsp : bytes " " = [32] := rfl
    simp only [lineDone, strstr, hsp, List.drop_nil, statusLine_eq, List.cons_append,
      List.nil_append, List.append_assoc]
    simp [strfind, cstr, List.isPrefixOf]
    simpa using hatoi
  rw [statusLine_eq,
    _httpc_getresponse_loop_line 72 _ 10 (by decide) hl (Or.inl rfl) hlen rest
      false 999 .ST_RESPONSE 0 [] none 0 (by decide), hdone]
  simp [statusLine_eq]

/-- A header name that reads `location: ` when lowered: its first byte and the nine after
it, none of which is a line feed. -/
theorem location_name (name : List Nat) (hname : name.map tolower = bytes "location: ") :
    ∃ c0 name2, name = c0 :: name2 ∧ name2.length = 9 ∧ c0 ≠ 10 ∧ c0 ≠ 13 ∧
      ∀ x ∈ name2, x ≠ 10 := by
  have hlen : name.length = 10 := by
    have := congrArg List.length hname
    simpa [bytes] using this
  have hall : ∀ x ∈ name, x ≠ 10 ∧ x ≠ 13 := by
    intro x hx
    have hm : tolower x ∈ bytes "location: " := by
      rw [← hname]; exact List.mem_map_of_mem _ hx
    constructor
    · intro h; rw [h] at hm; revert hm; decide
    · intro h; rw [h] at hm; revert hm; decide
  rcases name with _ | ⟨c0, name2⟩
  · simp at hlen
  · exact ⟨c0, name2, rfl, by simpa using hlen, (hall c0 (by simp)).1, (hall c0 (by simp)).2,
      fun x hx => (hall x (by simp [hx])).1⟩

/-- The header line `Location: u\r\n` (name in any letter case) received in the state
`ST_HEADER` under a 3xx status, `u` having at most 1012 characters, none of them white
space or NUL: reading stops, whatever follows, and the response is `u`. -/
theorem _httpc_getresponse_loop_location (name u : List Nat) (rest : List Recv)
    (ce : Bool) (rc : Int) (bl : Int) (old : List Nat) (resp : Option (List Nat)) (rl : Int)
    (hname : name.map tolower = bytes "location: ")
    (hrc : 300 ≤ rc ∧ rc ≤ 399) (hu : ∀ c ∈ u, isspace c = false ∧ c ≠ 0)
    (hlen : u.length ≤ 1012) :
    ∃ ce2 bl2 line2,
      _httpc_getresponse_loop (delivers (name ++ u ++ bytes "\r\n") ++ rest)
          ⟨ce, rc, .ST_HEADER, bl, old, 0, resp, rl⟩
        = .ok ⟨ce2, rc, .ST_END, bl2, line2, 0, some u, (u.length : Int)⟩ := by
  obtain ⟨c0, name2, hn, hn2, hc10, hc13, hname2⟩ := location_name name hname
  have hu10 : ∀ x ∈ u, x ≠ 10 := by
    intro x hx h
    have := (hu x hx).1
    rw [h] at this; simp [isspace] at this
  have hcrlf : bytes "\r\n" = [13, 10] := rfl
  by_cases hcut : u.length = 1012
  · -- the line is cut after the carriage return, its 1023rd character
    have hl : ∀ x ∈ name2 ++ u, x ≠ 10 := by
      intro x hx
      rcases List.mem_append.1 hx with h | h
      · exact hname2 x h
      · exact hu10 x h
    have hstream : delivers (name ++ u ++ bytes "\r\n") ++ rest
        = delivers (c0 :: ((name2 ++ u) ++ [13])) ++ (Recv.byte 10 :: rest) := by
      simp [hn, hcrlf, delivers]
    have hline : (c0 :: ((name2 ++ u) ++ [13])) ++ 0 :: old.drop ((name2 ++ u).length + 3)
        = name ++ (u ++ 13 :: 0 :: old.drop ((name2 ++ u).length + 3)) := by
      simp [hn]
    obtain ⟨ce2, bl2, hh⟩ := headerLine_location_ok ce rc .ST_HEADER bl
      ((name2 ++ u).length + 2) resp rl name u 13
      (0 :: old.drop ((name2 ++ u).length + 3)) hname hrc hu (by decide)
    refine ⟨ce2, bl2, name ++ (u ++ 13 :: 0 :: old.drop ((name2 ++ u).length + 3)), ?_⟩
    rw [hstream, _httpc_getresponse_loop_line c0 (name2 ++ u) 13 hc10 hl
      (Or.inr (by simp [hn2, hcut])) (by simp [hn2, hcut]) _ ce rc .ST_HEADER bl old resp rl
      (by decide), hline]
    simp only [lineDone, hh]
    rfl
  · -- the line ends with its line feed
    have hl : ∀ x ∈ (name2 ++ u) ++ [13], x ≠ 10 := by
      intro x hx
      simp only [List.mem_append, List.mem_singleton] at hx
      rcases hx with (h | h) | h
      · exact hname2 x h
      · exact hu10 x h
      · omega
    have hstream : delivers (name ++ u ++ bytes "\r\n") ++ rest
        = delivers (c0 :: (((name2 ++ u) ++ [13]) ++ [10])) ++ rest := by
      simp [hn, hcrlf, delivers]
    have hline : (c0 :: (((name2 ++ u) ++ [13]) ++ [10])) ++
          0 :: old.drop (((name2 ++ u) ++ [13]).length + 3)
        = name ++ (u ++ 13 :: 10 :: 0 :: old.drop (((name2 ++ u) ++ [13]).length + 3)) := by
      simp [hn]
    obtain ⟨ce2, bl2, hh⟩ := headerLine_location_ok ce rc .ST_HEADER bl
      (((name2 ++ u) ++ [13]).length + 2) resp rl name u 13
      (10 :: 0 :: old.drop (((name2 ++ u) ++ [13]).length + 3)) hname hrc hu (by decide)
    refine ⟨ce2, bl2,
      name ++ (u ++ 13 :: 10 :: 0 :: old.drop (((name2 ++ u) ++ [13]).length + 3)), ?_⟩
    rw [hstream, _httpc_getresponse_loop_line c0 ((name2 ++ u) ++ [13]) 10 hc10 hl
      (Or.inl rfl) (by simp [hn2]; omega) _ ce rc .ST_HEADER bl old resp rl
      (by decide), hline]
    simp only [lineDone, hh]
    rfl

/-- Outside the 3xx range a header line never touches the response; the state changes only
on the blank line, and never to `ST_ERROR`. -/
theorem headerLine_outside (ce : Bool) (rc : Int) (bl : Int) (line : List Nat)
    (lp : Nat) (resp : Option (List Nat)) (rl : Int) (hrc : ¬ (300 ≤ rc ∧ rc ≤ 399)) :
    ∃ ce2 bl2 st2, headerLine ⟨ce, rc, .ST_HEADER, bl, line, lp, resp, rl⟩
        = .ok ⟨ce2, rc, st2, bl2, line, lp, resp, rl⟩ ∧
      (cstr line ≠ bytes "\r\n" → st2 = .ST_HEADER) ∧ st2 ≠ .ST_ERROR := by
  have key : ∀ (ce2 : Bool) (bl2 : Int), ∃ st2,
      (if cstr line == bytes "\r\n" then
        if ce2 then
          (.ok ⟨ce2, rc, .ST_CHUNKEDBODYLEN, bl2, line, lp, resp, rl⟩ : Except Fault Resp)
        else if bl2 > (0 : Int) then .ok ⟨ce2, rc, .ST_BODY, bl2, line, lp, resp, rl⟩
        else .ok ⟨ce2, rc, .ST_END, bl2, line, lp, resp, rl⟩
      else .ok ⟨ce2, rc, .ST_HEADER, bl2, line, lp, resp, rl⟩)
        = .ok ⟨ce2, rc, st2, bl2, line, lp, resp, rl⟩ ∧
      (cstr line ≠ bytes "\r\n" → st2 = .ST_HEADER) ∧ st2 ≠ .ST_ERROR := by
    intro ce2 bl2
    by_cases hblank : cstr line = bytes "\r\n"
    · have hb : (cstr line == bytes "\r\n") = true := by simpa using hblank
      simp only [hb, if_true]
      by_cases hce : ce2 = true
      · simp only [hce, if_true]
        exact ⟨_, rfl, fun h => absurd hblank h, by decide⟩
      · simp only [hce, if_false, Bool.false_eq_true]
        by_cases hbl : bl2 > 0
        · simp only [hbl, if_true]
          exact ⟨_, rfl, fun h => absurd hblank h, by decide⟩
        · simp only [hbl, if_false]
          exact ⟨_, rfl, fun h => absurd hblank h, by decide⟩
    · have hb : (cstr line == bytes "\r\n") = false := by simpa using hblank
      simp only [hb, if_false, Bool.false_eq_true]
      exact ⟨_, rfl, fun _ => rfl, by decide⟩
  rcases h1 : strcasestr line (bytes "Content-Length:") with _ | x1 <;>
  rcases h2 : strcasestr line (bytes "Transfer-Encoding: Chunked") with _ | x2 <;>
  rcases h3 : strcasestr line (bytes "Location: ") with _ | x3 <;>
  simp only [headerLine, h1, h2, h3, hrc, if_false] <;>
  exact ⟨_, _, key _ _⟩

/-- A header line that does not start with a carriage return, received in the state
`ST_HEADER` under a status outside 3xx: the response is untouched and reading goes on. -/
theorem _httpc_getresponse_loop_header (c : Nat) (l : List Nat) (last : Nat) (hc : c ≠ 10)
    (hc13 : c ≠ 13) (hl : ∀ x ∈ l, x ≠ 10) (hlast : last = 10 ∨ 1023 ≤ l.length + 2)
    (hlen : l.length + 1 < 1023) (rest : List Recv)
    (ce : Bool) (rc : Int) (bl : Int) (old : List Nat) (resp : Option (List Nat)) (rl : Int)
    (hrc : ¬ (300 ≤ rc ∧ rc ≤ 399)) :
    ∃ ce2 bl2 line2,
      _httpc_getresponse_loop (delivers (c :: (l ++ [last])) ++ rest)
          ⟨ce, rc, .ST_HEADER, bl, old, 0, resp, rl⟩
        = _httpc_getresponse_loop rest ⟨ce2, rc, .ST_HEADER, bl2, line2, 0, resp, rl⟩ := by
  obtain ⟨ce2, bl2, st2, hh, hst, _⟩ := headerLine_outside ce rc bl
    ((c :: (l ++ [last])) ++ 0 :: old.drop (l.length + 3)) (l.length + 2) resp rl hrc
  have hnb : cstr ((c :: (l ++ [last])) ++ 0 :: old.drop (l.length + 3)) ≠ bytes "\r\n" := by
    have : bytes "\r\n" = [13, 10] := rfl
    rw [this]
    by_cases h0 : c = 0
    · simp [cstr, h0]
    · simp [cstr, h0, hc13]
  have hst2 := hst hnb
  subst hst2
  refine ⟨ce2, bl2, (c :: (l ++ [last])) ++ 0 :: old.drop (l.length + 3), ?_⟩
  rw [_httpc_getresponse_loop_line c l last hc hl hlast hlen rest ce rc .ST_HEADER bl old
    resp rl (by decide)]
  simp only [lineDone, hh]
  rfl

/-- A line that consists of a line feed only, in the same situation. -/
theorem _httpc_getresponse_loop_lf (rest : List Recv)
    (ce : Bool) (rc : Int) (bl : Int) (old : List Nat) (resp : Option (List Nat)) (rl : Int)
    (hrc : ¬ (300 ≤ rc ∧ rc ≤ 399)) :
    ∃ ce2 bl2 line2,
      _httpc_getresponse_loop (Recv.byte 10 :: rest) ⟨ce, rc, .ST_HEADER, bl, old, 0, resp, rl⟩
        = _httpc_getresponse_loop rest ⟨ce2, rc, .ST_HEADER, bl2, line2, 0, resp, rl⟩ := by
  obtain ⟨ce2, bl2, st2, hh, hst, _⟩ := headerLine_outside ce rc bl
    ([10] ++ 0 :: old.drop 2) 1 resp rl hrc
  have hnb : cstr ([10] ++ 0 :: old.drop 2) ≠ bytes "\r\n" := by
    have : bytes "\r\n" = [13, 10] := rfl
    rw [this]
    simp [cstr]
  have hst2 := hst hnb
  subst hst2
  refine ⟨ce2, bl2, [10] ++ 0 :: old.drop 2, ?_⟩
  have hr : recvChar ⟨ce, rc, .ST_HEADER, bl, old, 0, resp, rl⟩ 10
      = lineDone ⟨ce, rc, .ST_HEADER, bl, [10] ++ 0 :: old.drop 2, 1, resp, rl⟩ := by
    have := poke_poke_first old 10
    simp only [recvChar]
    simp [this]
  rw [_httpc_getresponse_loop, hr]
  simp only [lineDone, hh]
  rfl

/-- The blank line followed by the end of the stream, in the same situation: the response
is untouched and the final state is not `ST_ERROR`. -/
theorem _httpc_getresponse_loop_blank_end
    (ce : Bool) (rc : Int) (bl : Int) (old : List Nat) (resp : Option (List Nat)) (rl : Int)
    (hrc : ¬ (300 ≤ rc ∧ rc ≤ 399)) :
    ∃ ce2 bl2 st2 line2, st2 ≠ .ST_ERROR ∧
      _httpc_getresponse_loop (delivers (bytes "\r\n")) ⟨ce, rc, .ST_HEADER, bl, old, 0, resp, rl⟩
        = .ok ⟨ce2, rc, st2, bl2, line2, 0, resp, rl⟩ := by
  obtain ⟨ce2, bl2, st2, hh, _, hne⟩ := headerLine_outside ce rc bl
    ((13 :: ([] ++ [10])) ++ 0 :: old.drop (([] : List Nat).length + 3))
    (([] : List Nat).length + 2) resp rl hrc
  have hstream : delivers (bytes "\r\n") = delivers (13 :: ([] ++ [10])) ++ [] := by
    simp [delivers]; rfl
  rw [hstream, _httpc_getresponse_loop_line 13 [] 10 (by decide) (by simp) (Or.inl rfl)
    (by simp) [] ce rc .ST_HEADER bl old resp rl (by decide)]
  simp only [lineDone, hh]
  by_cases hend : st2 = .ST_END
  · subst hend
    exact ⟨ce2, bl2, .ST_END, _, by decide, rfl⟩
  · have hcont : (st2 != St.ST_ERROR && st2 != St.ST_END) = true := by simp [hne, hend]
    simp only [hcont, if_true, _httpc_getresponse_loop]
    exact ⟨ce2, bl2, .ST_END, _, by decide, rfl⟩

/-- What `_httpc_getresponse` returns when its loop ends with the response untouched, in a
state other than `ST_ERROR`. -/
theorem _httpc_getresponse_of_loop (session : List Recv) (ce : Bool) (s : Nat) (st : St)
    (bl : Int) (line : List Nat) (lp : Nat) (hst : st ≠ .ST_ERROR)
    (h : _httpc_getresponse_loop session ⟨false, 999, .ST_RESPONSE, 0, [], 0, none, 0⟩
      = .ok ⟨ce, (s : Int), st, bl, line, lp, none, 0⟩) :
    _httpc_getresponse session none 0 = .ok ((s : Int), none, 0) := by
  have hb : (st == St.ST_ERROR) = false := by simpa using hst
  unfold _httpc_getresponse
  rw [h]
  simp only [hb, Bool.false_eq_true, if_false]
  split <;> rfl

/-- Location capture for targets that fit the line buffer.  The stream is the status line
`HTTP/1.1 s reason\r\n` (not longer than the line buffer) followed by the header line
`name u \r\n`, where `name` reads `location: ` when lowered (any letter case) and the target
`u` has at most 1012 characters, none of them white space or NUL.  For every `s` in 300..399,
whatever the transport reports after that line, `_httpc_getresponse` returns `s` with the
response `u` and the response length `len(u)`; for a status outside 300..399 the same header,
followed by the blank line and the end of the stream, leaves no response. -/
theorem _httpc_getresponse_location (s : Nat) (reason name u : List Nat)
    (hreason : ∀ c ∈ reason, c ≠ 10) (hfit : (statusLine s reason).length ≤ 1023)
    (hname : name.map tolower = bytes "location: ")
    (hu : ∀ c ∈ u, isspace c = false ∧ c ≠ 0) (hlen : u.length ≤ 1012) :
    (300 ≤ s ∧ s ≤ 399 → ∀ rest : List Recv,
      _httpc_getresponse
          (delivers (statusLine s reason ++ name ++ u ++ bytes "\r\n") ++ rest) none 0
        = .ok ((s : Int), some u, (u.length : Int))) ∧
    (¬ (300 ≤ s ∧ s ≤ 399) → s < 2147483648 →
      _httpc_getresponse
          (delivers (statusLine s reason ++ name ++ u ++ bytes "\r\n" ++ bytes "\r\n")) none 0
        = .ok ((s : Int), none, 0)) := by
  constructor
  · intro hs rest
    have hrc : (300 : Int) ≤ (s : Int) ∧ (s : Int) ≤ 399 := by omega
    have hstream : delivers (statusLine s reason ++ name ++ u ++ bytes "\r\n") ++ rest
        = delivers (statusLine s reason) ++ (delivers (name ++ u ++ bytes "\r\n") ++ rest) := by
      simp [delivers]
    obtain ⟨ce2, bl2, line2, h2⟩ := _httpc_getresponse_loop_location name u rest false (s : Int)
      0 (statusLine s reason ++ [0]) none 0 hname hrc hu hlen
    have hloop := _httpc_getresponse_loop_status s reason
      (delivers (name ++ u ++ bytes "\r\n") ++ rest) (by omega) hreason hfit
    unfold _httpc_getresponse
    rw [hstream, hloop, h2]
    have h200 : ¬ ((s : Int) < 200) := by omega
    have h399 : ¬ ((s : Int) > 399) := by omega
    simp [h200, h399]
  · intro hs hs31
    have hrc : ¬ ((300 : Int) ≤ (s : Int) ∧ (s : Int) ≤ 399) := by omega
    obtain ⟨c0, name2, hn, hn2, hc10, hc13, hname2⟩ := location_name name hname
    have hu10 : ∀ x ∈ u, x ≠ 10 := by
      intro x hx h
      have := (hu x hx).1
      rw [h] at this; simp [isspace] at this
    have hcrlf : bytes "\r\n" = [13, 10] := rfl
    have hstatus := fun rest => _httpc_getresponse_loop_status s reason rest hs31 hreason hfit
    by_cases hcut : u.length = 1012
    · -- the header line is cut after its carriage return; the line feed is a line of its own
      have hstream :
          delivers (statusLine s reason ++ name ++ u ++ bytes "\r\n" ++ bytes "\r\n")
            = delivers (statusLine s reason) ++
                (delivers (c0 :: ((name2 ++ u) ++ [13])) ++
                  (Recv.byte 10 :: delivers (bytes "\r\n"))) := by
        simp [hn, hcrlf, delivers]
      have hl : ∀ x ∈ name2 ++ u, x ≠ 10 := by
        intro x hx
        rcases List.mem_append.1 hx with h | h
        · exact hname2 x h
        · exact hu10 x h
      obtain ⟨ce1, bl1, line1, h1⟩ := _httpc_getresponse_loop_header c0 (name2 ++ u) 13 hc10
        hc13 hl (Or.inr (by simp [hn2, hcut])) (by simp [hn2, hcut])
        (Recv.byte 10 :: delivers (bytes "\r\n")) false (s : Int) 0
        (statusLine s reason ++ [0]) none 0 hrc
      obtain ⟨ce2, bl2, line2, h2⟩ := _httpc_getresponse_loop_lf (delivers (bytes "\r\n"))
        ce1 (s : Int) bl1 line1 none 0 hrc
      obtain ⟨ce3, bl3, st3, line3, hst3, h3⟩ := _httpc_getresponse_loop_blank_end
        ce2 (s : Int) bl2 line2 none 0 hrc
      apply _httpc_getresponse_of_loop _ ce3 s st3 bl3 line3 0 hst3
      rw [hstream, hstatus, h1, h2, h3]
    · have hstream :
          delivers (statusLine s reason ++ name ++ u ++ bytes "\r\n" ++ bytes "\r\n")
            = delivers (statusLine s reason) ++
                (delivers (c0 :: (((name2 ++ u) ++ [13]) ++ [10])) ++
                  delivers (bytes "\r\n")) := by
        simp [hn, hcrlf, delivers]
      have hl : ∀ x ∈ (name2 ++ u) ++ [13], x ≠ 10 := by
        intro x hx
        simp only [List.mem_append, List.mem_singleton] at hx
        rcases hx with (h | h) | h
        · exact hname2 x h
        · exact hu10 x h
        · omega
      obtain ⟨ce1, bl1, line1, h1⟩ := _httpc_getresponse_loop_header c0 ((name2 ++ u) ++ [13])
        10 hc10 hc13 hl (Or.inl rfl) (by simp [hn2]; omega)
        (delivers (bytes "\r\n")) false (s : Int) 0
        (statusLine s reason ++ [0]) none 0 hrc
      obtain ⟨ce3, bl3, st3, line3, hst3, h3⟩ := _httpc_getresponse_loop_blank_end
        ce1 (s : Int) bl1 line1 none 0 hrc
      apply _httpc_getresponse_of_loop _ ce3 s st3 bl3 line3 0 hst3
      rw [hstream, hstatus, h1, h3]

set_option maxRecDepth 100000 in
/-- C27 (evaluation at the failing input): with the status 301 and a target of 1013 letters
`a`, the header line `Location: aaa...` fills the line buffer: it is handed over after 1023
characters, none of them white space, the scan for the end of the target runs past
`line[1023]`, and the call does not return the target.  With 1012 letters the carriage
return is the 1023rd character, the scan stops there and the target is returned. -/
theorem _httpc_getresponse_location_overrun :
    _httpc_getresponse
        (delivers (statusLine 301 (bytes "Moved") ++ bytes "Location: " ++
          List.replicate 1013 97 ++ bytes "\r\n")) none 0 = .error .oob ∧
    _httpc_getresponse
        (delivers (statusLine 301 (bytes "Moved") ++ bytes "Location: " ++
          List.replicate 1012 97 ++ bytes "\r\n")) none 0
      = .ok (301, some (List.replicate 1012 97), 1012) := by
  have hpre : statusLine 301 (bytes "Moved") ++ bytes "Location: "
      = bytes "HTTP/1.1 301 Moved\r\nLocation: " := by decide
  have hstream : delivers (statusLine 301 (bytes "Moved") ++ bytes "Location: " ++
      List.replicate 1013 97 ++ bytes "\r\n")
      = delivers (bytes "HTTP/1.1 301 Moved\r\nLocation: " ++ List.replicate 1013 97) ++
          delivers (bytes "\r\n") := by
    rw [hpre]
    simp [delivers]
  have h := _httpc_getresponse_long_location (List.replicate 1013 97)
    (by intro c hc; rw [List.eq_of_mem_replicate hc]; decide) (by simp)
    (delivers (bytes "\r\n"))
  have h2 := (_httpc_getresponse_location 301 (bytes "Moved") (bytes "Location: ")
    (List.replicate 1012 97) (by decide) (by decide) (by decide)
    (by intro c hc; rw [List.eq_of_mem_replicate hc]; decide) (by simp)).1
    ⟨by decide, by decide⟩ []
  rw [hstream, h]
  refine ⟨rfl, ?_⟩
  simpa using h2

end Libnet
